import Mathlib

/-!
Verification development for the `analink` interactive-fiction engine.

The Python sources are shallowly embedded:
* strings are `List Char` (`Str`); Python `dict`s (which preserve insertion
  order) are association lists `List (k × v)` with Python assignment
  semantics (`alInsert` replaces in place, otherwise appends);
* the condition model follows `analink/core/condition.py`, with the
  construction-time validation of `UnaryCondition` encoded both in the
  shapes of the inductive type and in the `Except`-valued smart
  constructors;
* the line parser, merger and story builder follow
  `analink/core/line_parser.py`, `analink/core/models.py` and
  `analink/core/parser.py`; the graph builder follows
  `analink/parser/graph_story.py`; the story engine follows
  `analink/core/story_engine.py`.
Python code paths that raise exceptions (or diverge) are modelled with
`Option`/`Except`: a `none`/`.error` result stands for the raised
exception (or for exhausted fuel in the one unbounded engine loop).
-/

set_option maxRecDepth 20000

abbrev Str := List Char

/-- Python `str` whitespace test restricted to the ASCII characters that can
occur in the embedded sources (space, tab, newline, carriage return,
vertical tab, form feed). -/
def isPySpace (c : Char) : Bool :=
  c = ' ' || c = '\t' || c = '\n' || c = '\r' || c = Char.ofNat 11 || c = Char.ofNat 12

/-- Python `str.lstrip()`. -/
def pyStripLeft (s : Str) : Str := s.dropWhile isPySpace

/-- Python `str.rstrip()`. -/
def pyStripRight (s : Str) : Str := (s.reverse.dropWhile isPySpace).reverse

/-- Python `str.strip()`. -/
def pyStrip (s : Str) : Str := pyStripRight (pyStripLeft s)

/-- Membership of a key in an association list (Python `k in d`). -/
def alMember [DecidableEq α] (k : α) (l : List (α × β)) : Bool :=
  l.any (fun p => p.1 = k)

/-- Lookup in an association list (Python `d[k]` / `d.get(k)`). -/
def alLookup [DecidableEq α] (k : α) : List (α × β) → Option β
  | [] => none
  | p :: rest => if p.1 = k then some p.2 else alLookup k rest

/-- Python `d.get(k, default)`. -/
def alLookupD [DecidableEq α] (k : α) (l : List (α × β)) (dflt : β) : β :=
  (alLookup k l).getD dflt

/-- Python `d[k] = v`: replace the value in place when the key is present,
append at the end otherwise (insertion order is preserved). -/
def alInsert [DecidableEq α] (k : α) (v : β) : List (α × β) → List (α × β)
  | [] => [(k, v)]
  | p :: rest => if p.1 = k then (k, v) :: rest else p :: alInsert k v rest

/-- Python `del d[k]`. -/
def alDelete [DecidableEq α] (k : α) : List (α × β) → List (α × β)
  | [] => []
  | p :: rest => if p.1 = k then rest else p :: alDelete k rest

/-- Python `d.update(d2)`: assign every entry of `d2` into `d` in order. -/
def alUpdateAll [DecidableEq α] (l l2 : List (α × β)) : List (α × β) :=
  l2.foldl (fun acc p => alInsert p.1 p.2 acc) l

/-! ## Conditions (`analink/core/status.py`, `analink/core/condition.py`) -/

/-- `ContainerStatus` from `analink/core/status.py`. -/
inductive ContainerStatus
  | clicked
  | not_clicked
  | seen
  | not_seen
  | disabled
  | active
deriving DecidableEq, Repr

/-- `ContainerState` from `analink/core/status.py`. -/
structure ContainerState where
  status : ContainerStatus := .not_clicked
  seen_count : Int := 0
  last_seen_turn : Option Int := none
deriving DecidableEq, Repr

/-- A validated `UnaryCondition` from `analink/core/condition.py`.  The
pydantic `model_validator` guarantees that container-based kinds carry a
container reference and that variable kinds carry a `(variable, value)`
pair, so the validated payload shapes are encoded in the constructors.
Numeric payloads are `Int` (the Python comparisons in the claims are
against integers). -/
inductive UnaryCondition
  | status_equals (container_reference : Str) (expected : ContainerStatus)
  | seen_count_gt (container_reference : Str) (expected : Int)
  | seen_count_lt (container_reference : Str) (expected : Int)
  | seen_count_eq (container_reference : Str) (expected : Int)
  | variable_eq (var : Str) (value : Int)
  | variable_gt (var : Str) (value : Int)
  | variable_lt (var : Str) (value : Int)
  | turn_gt (expected : Int)
deriving DecidableEq, Repr

/-- `Condition = Union[UnaryCondition, BinaryCondition]`; `BinaryCondition`
holds two operands and an operator string. -/
inductive Condition
  | unary (u : UnaryCondition)
  | binary (left : Condition) (operator : Str) (right : Condition)
deriving DecidableEq, Repr

/-- `ContainerStateProvider` from `analink/core/status.py`: container-state
lookup, game-variable dictionary, current turn. -/
structure ContainerStateProvider where
  get_container_state : Str → Option ContainerState
  game_variables : List (Str × Int)
  current_turn : Int

/-- `UnaryCondition.evaluate` from `analink/core/condition.py`. -/
def UnaryCondition.evaluate (c : UnaryCondition) (p : ContainerStateProvider) : Bool :=
  match c with
  | .status_equals ref expected =>
      match p.get_container_state ref with
      | none => false
      | some st => st.status = expected
  | .seen_count_gt ref expected =>
      match p.get_container_state ref with
      | none => false
      | some st => expected < st.seen_count
  | .seen_count_lt ref expected =>
      match p.get_container_state ref with
      | none => false
      | some st => st.seen_count < expected
  | .seen_count_eq ref expected =>
      match p.get_container_state ref with
      | none => false
      | some st => st.seen_count = expected
  | .variable_eq name value => alLookup name p.game_variables = some value
  | .variable_gt name value => value < alLookupD name p.game_variables 0
  | .variable_lt name value => alLookupD name p.game_variables 0 < value
  | .turn_gt expected => expected < p.current_turn

/-- `BinaryCondition.evaluate` / dispatch over `Condition`: both operands are
always evaluated, `AND`/`OR` are applied, any other operator yields
`false`. -/
def Condition.evaluate (c : Condition) (p : ContainerStateProvider) : Bool :=
  match c with
  | .unary u => u.evaluate p
  | .binary l op r =>
      let lr := l.evaluate p
      let rr := r.evaluate p
      if op = "AND".toList then lr && rr
      else if op = "OR".toList then lr || rr
      else false

/-- The validating constructor for the seen-count kinds of
`UnaryCondition`: `model_validator` rejects a negative expected value and a
missing (falsy) container reference. `k` selects among
`SEEN_COUNT_GT`/`LT`/`EQ` (0/1/2). -/
def mkSeenCountCondition (k : Nat) (ref : Str) (expected : Int) :
    Except Str UnaryCondition :=
  if expected < 0 then .error "requires non-negative integer".toList
  else if ref = [] then .error "requires container reference".toList
  else .ok (match k with
    | 0 => .seen_count_gt ref expected
    | 1 => .seen_count_lt ref expected
    | _ => .seen_count_eq ref expected)

/-! ## String utilities shared by the parser -/

/-- Substring test, Python `pat in s` (for non-empty `pat`). -/
def strContains (pat : Str) : Str → Bool
  | [] => pat = []
  | c :: t => pat.isPrefixOf (c :: t) || strContains pat t

/-- Worker for `splitOnSub`; the fuel is an upper bound on the number of
characters still to scan. -/
def splitOnSubGo (sep : Str) : Nat → Str → Str → List Str → List Str
  | 0, s, cur, acc => acc ++ [cur ++ s]
  | fuel + 1, s, cur, acc =>
    match s with
    | [] => acc ++ [cur]
    | c :: t =>
      if sep ≠ [] ∧ sep.isPrefixOf (c :: t) then
        splitOnSubGo sep fuel ((c :: t).drop sep.length) [] (acc ++ [cur])
      else
        splitOnSubGo sep fuel t (cur ++ [c]) acc

/-- Python `s.split(sep)` for a non-empty separator. -/
def splitOnSub (sep s : Str) : List Str := splitOnSubGo sep (s.length + 1) s [] []

/-- Python `s.replace(old, new)` (all non-overlapping occurrences, left to
right). -/
def replaceAll (old new s : Str) : Str := new.intercalate (splitOnSub old s)

/-- `count_leading_chars` worker from `analink/parser/utils.py`: count the
leading marker characters, skipping interleaved spaces and tabs, and stop at
the first other character. -/
def countLeadingGo (ch : Char) : Str → Nat → Nat × Str
  | [], cnt => (cnt, [])
  | c :: t, cnt =>
    if c = ch then countLeadingGo ch t (cnt + 1)
    else if c = ' ' ∨ c = '\t' then countLeadingGo ch t cnt
    else (cnt, c :: t)

/-- `count_leading_chars(line, char)`: the count and the line after the
scanned leading segment. -/
def count_leading_chars (line : Str) (ch : Char) : Nat × Str := countLeadingGo ch line 0

/-- First character of a NAME in the inline-condition grammar
(`[a-zA-Z_]`). -/
def isNameStart (c : Char) : Bool := c.isAlpha || c = '_'

/-- Continuation character of a NAME (`[a-zA-Z0-9_.]`). -/
def isNameChar (c : Char) : Bool := c.isAlpha || c.isDigit || c = '_' || c = '.'

/-- Digit-string to number (`int(...)` on a `\d+` match). -/
def digitsToInt (ds : Str) : Int :=
  (ds.foldl (fun a c => a * 10 + (c.toNat - 48)) 0 : Nat)

/-- Hand-compiled `re.match(r"^(NAME)\s*CMP\s*(\d+)$", s)` with
`NAME = [a-zA-Z_][a-zA-Z0-9_.]*` and `CMP` the given comparison character.
Because the comparison character, whitespace and end-of-string are all
outside the NAME/digit character classes, the regex engine's backtracking
is equivalent to maximal munch at every star. -/
def matchNameCmpNum (cmp : Char) (s : Str) : Option (Str × Int) :=
  match s with
  | [] => none
  | c :: t =>
    if isNameStart c then
      let nm := (c :: t).takeWhile isNameChar
      let rest1 := ((c :: t).dropWhile isNameChar).dropWhile isPySpace
      match rest1 with
      | [] => none
      | c2 :: t2 =>
        if c2 = cmp then
          let rest2 := t2.dropWhile isPySpace
          let digits := rest2.takeWhile Char.isDigit
          let rest3 := rest2.dropWhile Char.isDigit
          if digits ≠ [] ∧ rest3 = [] then some (nm, digitsToInt digits) else none
        else none
    else none

/-- Hand-compiled `re.match(r"^[a-zA-Z_][a-zA-Z0-9_.]*$", s)`. -/
def isBareName (s : Str) : Bool :=
  match s with
  | [] => false
  | c :: t => isNameStart c && t.all isNameChar

/-- `parse_condition_string` from `analink/core/line_parser.py`.  An
`.error` result models a `ValueError` raised by the `UnaryCondition`
validator (shown below never to happen), `.ok none` models the
silent-degrade `return None` paths. -/
def parse_condition_string (s : Str) : Except Str (Option UnaryCondition) :=
  if s = [] ∨ pyStrip s = [] then .ok none
  else
    let cs := pyStrip s
    if "not ".toList.isPrefixOf cs then
      (mkSeenCountCondition 2 (pyStrip (cs.drop 4)) 0).map some
    else
      match matchNameCmpNum '>' cs with
      | some (nm, n) => (mkSeenCountCondition 0 nm n).map some
      | none =>
        match matchNameCmpNum '<' cs with
        | some (nm, n) => (mkSeenCountCondition 1 nm n).map some
        | none =>
          if isBareName cs then (mkSeenCountCondition 0 cs 0).map some
          else .ok none

/-- Opening brace character (written by code point to keep braces out of
string literals). -/
def braceOpen : Char := Char.ofNat 123

/-- Closing brace character. -/
def braceClose : Char := Char.ofNat 125

/-- Leftmost match of `re.search` for an open brace, at least one
non-closing-brace character, and a closing brace; returns the inner
group. -/
def findBraceGroup : Str → Option Str
  | [] => none
  | c :: t =>
    if c = braceOpen then
      let inner := t.takeWhile (fun d => d ≠ braceClose)
      let rest := t.dropWhile (fun d => d ≠ braceClose)
      match rest, inner with
      | _ :: _, _ :: _ => some inner
      | _, _ => findBraceGroup t
    else findBraceGroup t

/-- `extract_condition_from_line` from `analink/core/line_parser.py`:
extract the single brace-delimited condition, parse it, and remove every
occurrence of the matched text from the line. -/
def extract_condition_from_line (line : Str) :
    Except Str (Str × Option UnaryCondition) :=
  match findBraceGroup line with
  | none => .ok (line, none)
  | some inner =>
    match parse_condition_string (pyStrip inner) with
    | .error e => .error e
    | .ok cond =>
      let g0 := braceOpen :: (inner ++ [braceClose])
      .ok (pyStrip (replaceAll g0 [] line), cond)

/-! ## Nodes (`analink/core/models.py`, `analink/parser/node.py`) -/

/-- The repository defines two distinct `NodeType(Enum)` classes with the
same member names: one in `analink/core/models.py` (used by the engine's
line-parsing pipeline and by `story_engine.py`) and one in
`analink/parser/node.py` (used by `graph_story.py` and by the sentinel
node constructors).  Python compares enum members by identity, so a member
of one class is never `is`/`==` a same-named member of the other.  The
embedding models the two classes as disjoint constructor groups of one
inductive: the unprefixed constructors are the core members and the
`p_`-prefixed ones are the `analink.parser.node` members, so that plain
equality is exactly Python's member identity.  `stop`/`p_stop` embed
Python's `END` (`end` is a Lean keyword). -/
inductive NodeType
  | choice
  | gather
  | knot
  | base
  | stitches
  | divert
  | stop
  | begin
  | auto_end
  | p_choice
  | p_gather
  | p_knot
  | p_base
  | p_stitches
  | p_divert
  | p_stop
  | p_begin
  | p_auto_end
deriving DecidableEq, Repr

/-- `Node` from `analink/core/models.py`.  The pydantic private `_id`
(drawn from the process-wide counter) is the explicit `item_id` field; the
counter itself is threaded through the parsing functions.  `NodeType.stop`
embeds Python's `NodeType.END` (`end` is a Lean keyword). -/
structure Node where
  item_id : Int
  node_type : NodeType
  raw_content : Str
  level : Int
  line_number : Int
  name : Option Str := none
  content : Option Str := none
  choice_text : Option Str := none
  choice_order : Option Int := none
  glue_before : Bool := false
  glue_after : Bool := false
  instruction : Option Str := none
  is_fallback : Bool := false
  knot_name : Str := "HEADER".toList
  stitch_name : Str := "HEADER".toList
  is_sticky : Bool := false
  condition : Option Condition := none
deriving DecidableEq, Repr

/-- `Node.end_node()` — the classmethod of `analink.parser.node.Node` that
`graph_story.parse_story` calls, so its type is the parser-module `END`
member; it consumes one id from a counter.  (The parser class lacks the
engine-only fields `choice_order`/`is_fallback`/`is_sticky`/`condition`/
`knot_name`/`stitch_name`; the engine guards every access to them behind a
core-enum type test or `hasattr`, so the defaults here are never read.) -/
def Node.end_node (c : Int) : Node × Int :=
  ({ item_id := c, node_type := .p_stop, raw_content := [], level := -1,
     line_number := -1, name := some "END".toList }, c + 1)

/-- `Node.auto_end_node()` of `analink.parser.node.Node`. -/
def Node.auto_end_node (c : Int) : Node × Int :=
  ({ item_id := c, node_type := .p_auto_end, raw_content := [], level := -1,
     line_number := -1, name := some "AUTO_END".toList }, c + 1)

/-- `Node.begin_node()` of `analink.parser.node.Node`. -/
def Node.begin_node (c : Int) : Node × Int :=
  ({ item_id := c, node_type := .p_begin, raw_content := [], level := -1,
     line_number := -1, name := some "BEGIN".toList }, c + 1)

/-! ## Line-level parsing (`analink/core/line_parser.py`) -/

/-- `extract_knot_name` from `analink/parser/utils.py`:
`re.match(r"^=+\s*(.+?)\s*=*$", text.strip())`, returning the stripped
group or the stripped text when there is no match.  The lazy group together
with the greedy tail is equivalent to: drop the leading `=`-run and the
whitespace after it, then drop the trailing `=`-run and the whitespace
before it.  On degenerate inputs consisting only of `=` and whitespace the
regex backtracks into a one-character group; those inputs all produce
`"="`. -/
def extract_knot_name (text : Str) : Str :=
  let t := pyStrip text
  match t with
  | [] => []
  | c :: _ =>
    if c = '=' then
      let core := pyStripLeft (t.dropWhile (fun d => d = '='))
      let nm := pyStripRight ((core.reverse.dropWhile (fun d => d = '=')).reverse)
      if nm = [] then ['='] else nm
    else t

/-- `InkLineParser.is_comment_or_empty`: the pair is the updated
`in_comment` flag and the test result. -/
def is_comment_or_empty (inComment : Bool) (line : Str) : Bool × Bool :=
  let s := pyStrip line
  if s = [] ∨ "//".toList.isPrefixOf s then (inComment, true)
  else if "/*".toList.isPrefixOf s ∧ ¬ ("*/".toList.isSuffixOf s) then (true, true)
  else if "/*".toList.isPrefixOf s ∧ "*/".toList.isSuffixOf s then (false, true)
  else if "*/".toList.isSuffixOf s then (false, true)
  else if inComment then (inComment, true)
  else (inComment, false)

/-- `InkLineParser.parse_divert`: lines starting with `->` become a Divert
node named by the trimmed last `->`-separated piece.  The counter is
consumed only when a node is built. -/
def parse_divert (line : Str) (lastLevel : Int) (lineNumber : Int) (c : Int) :
    Option Node × Int :=
  let s := pyStrip line
  if "->".toList.isPrefixOf s then
    let nm := pyStrip ((splitOnSub "->".toList s).getLastD [])
    (some { item_id := c, node_type := .divert, raw_content := line,
            level := lastLevel, line_number := lineNumber, name := some nm }, c + 1)
  else (none, c)

/-- `InkLineParser.parse_knot_or_stitches`: `==` headers become Knot nodes,
single-`=` headers become Stitches nodes; both store the stripped line as
raw content and sit at level 0. -/
def parse_knot_or_stitches (line : Str) (lineNumber : Int) (c : Int) :
    Option Node × Int :=
  let s := pyStrip line
  if "==".toList.isPrefixOf s then
    (some { item_id := c, node_type := .knot, raw_content := s, level := 0,
            line_number := lineNumber, name := some (extract_knot_name s) }, c + 1)
  else if "=".toList.isPrefixOf s then
    (some { item_id := c, node_type := .stitches, raw_content := s, level := 0,
            line_number := lineNumber, name := some (extract_knot_name s) }, c + 1)
  else (none, c)

/-- `InkLineParser.parse_choice_or_gather`: extract the inline condition,
then count leading `+` (sticky choice), `*` (choice) or `-` (gather)
markers; the marker count is the nesting level.  An `.error` result models
a `ValueError` escaping from condition construction. -/
def parse_choice_or_gather (line : Str) (lineNumber : Int) (c : Int) :
    Except Str (Option (Node × Int) × Int) :=
  match extract_condition_from_line (pyStrip line) with
  | .error e => .error e
  | .ok (s, cond) =>
    let condN : Option Condition := cond.map .unary
    let sticky := count_leading_chars s '+'
    if sticky.1 > 0 then
      .ok (some ({ item_id := c, node_type := .choice, content := some sticky.2,
                   raw_content := line, level := (sticky.1 : Int),
                   line_number := lineNumber, is_sticky := true,
                   condition := condN }, (sticky.1 : Int)), c + 1)
    else
      let star := count_leading_chars s '*'
      if star.1 > 0 then
        .ok (some ({ item_id := c, node_type := .choice, content := some star.2,
                     raw_content := line, level := (star.1 : Int),
                     line_number := lineNumber, condition := condN }, (star.1 : Int)), c + 1)
      else
        let gather := count_leading_chars s '-'
        if gather.1 > 0 then
          .ok (some ({ item_id := c, node_type := .gather, content := some gather.2,
                       raw_content := line, level := (gather.1 : Int),
                       line_number := lineNumber, condition := condN }, (gather.1 : Int)), c + 1)
        else .ok (none, c)

/-- `InkLineParser.parse_line`: classify one line.  Result components:
updated block-comment flag, updated id counter, optional parsed node, new
carried level. -/
def parse_line (inComment : Bool) (c : Int) (line : Str) (lineNumber : Int)
    (lastLevel : Int) : Except Str (Bool × Int × Option Node × Int) :=
  let fr := is_comment_or_empty inComment line
  if fr.2 then .ok (fr.1, c, none, lastLevel)
  else
    match parse_divert line lastLevel lineNumber c with
    | (some n, c') => .ok (fr.1, c', some n, lastLevel)
    | (none, _) =>
      match parse_knot_or_stitches line lineNumber c with
      | (some n, c') => .ok (fr.1, c', some n, 0)
      | (none, _) =>
        match parse_choice_or_gather line lineNumber c with
        | .error e => .error e
        | .ok (some (n, lvl), c') => .ok (fr.1, c', some n, lvl)
        | .ok (none, _) =>
          let n : Node := { item_id := c, node_type := .base,
                            content := some (pyStrip line), raw_content := line,
                            level := lastLevel, line_number := lineNumber }
          .ok (fr.1, c + 1, some n, lastLevel)

/-! ## Node post-processing (`analink/core/models.py`, `analink/parser/utils.py`) -/

/-- Non-overlapping scan of `re.findall(r"(?<!\\)\[[^\]]*\]", text)`: the
inner groups of the unescaped bracket pairs, left to right.  The `prev`
argument is the character before the current scan position, the fuel is a
bound on the characters still to scan. -/
def findallBrackets : Nat → Str → Option Char → List Str
  | 0, _, _ => []
  | _ + 1, [], _ => []
  | fuel + 1, c :: t, prev =>
    if c = '[' ∧ prev ≠ some '\\' then
      let inner := t.takeWhile (fun d => d ≠ ']')
      let rest := t.dropWhile (fun d => d ≠ ']')
      match rest with
      | ']' :: r2 => inner :: findallBrackets fuel r2 (some ']')
      | _ => findallBrackets fuel t (some c)
    else findallBrackets fuel t (some c)

/-- Rightmost viable unescaped `[...]` span as `(before, inside, after)`:
the greedy `(.*)` of `re.match(r"(.*)(?<!\\)\[([^\]]*)\](.*)", t, DOTALL)`
commits to the last unescaped `[` that is followed by a `]` with no `]` in
between; `inside` runs to the first `]` after it.  The scan keeps the last
viable split seen. -/
def findLastBracket : Nat → Str → Option Char → Str →
    Option (Str × Str × Str) → Option (Str × Str × Str)
  | 0, _, _, _, best => best
  | _ + 1, [], _, _, best => best
  | fuel + 1, c :: t, prev, acc, best =>
    if c = '[' ∧ prev ≠ some '\\' then
      let inner := t.takeWhile (fun d => d ≠ ']')
      let rest := t.dropWhile (fun d => d ≠ ']')
      match rest with
      | ']' :: r2 => findLastBracket fuel t (some c) (acc ++ [c]) (some (acc, inner, r2))
      | _ => findLastBracket fuel t (some c) (acc ++ [c]) best
    else findLastBracket fuel t (some c) (acc ++ [c]) best

/-- `extract_parts` from `analink/parser/utils.py`: raises on more than one
unescaped bracket pair, splits `before[inside]after` (with the greedy
`(.*)` picking the rightmost viable pair) into
`(before + inside, before + after)`, and returns the text twice when there
is no bracket pair. -/
def extract_parts (t : Str) : Except Str (Str × Str) :=
  if (findallBrackets (t.length + 1) t none).length > 1 then
    .error "Multiple bracket patterns found".toList
  else
    match findLastBracket (t.length + 1) t none [] none with
    | some (before, inside, after) => .ok (before ++ inside, before ++ after)
    | none => .ok (t, t)

/-- `Node.parse_choice`: split the content on the single bracket pair into
the choice text and the displayed-after-choice content.  `.error` models
the `ValueError` for duplicated brackets (and the `TypeError` on a `None`
content, which the pipeline never produces for choices). -/
def Node.parse_choice (n : Node) : Except Str Node :=
  match n.content with
  | none => .error "NoneType content in parse_choice".toList
  | some ct =>
    match extract_parts ct with
    | .error e => .error e
    | .ok (v1, v2) => .ok { n with choice_text := some v1, content := some v2 }

/-- `Node.parse_divert` (the post-processing variant in
`analink/core/models.py`): a content that starts with `->` marks the node
as a fallback and strips the arrows; a content containing `->` elsewhere is
split in two (a `ValueError` escapes when there is more than one arrow) and
spawns a fresh Divert node. -/
def Node.parse_divert_post (n : Node) (c : Int) :
    Except Str (Node × Option Node × Int) :=
  match n.content with
  | none => .ok (n, none, c)
  | some ct =>
    if "->".toList.isPrefixOf (pyStrip ct) then
      .ok ({ n with is_fallback := true,
                    content := some (replaceAll "->".toList [] ct) }, none, c)
    else if strContains "->".toList ct then
      match splitOnSub "->".toList ct with
      | [a, b] =>
        let d : Node := { item_id := c, node_type := .divert,
                          raw_content := "-> ".toList ++ pyStrip b,
                          level := n.level, line_number := n.line_number,
                          name := some (pyStrip b) }
        .ok ({ n with content := some (pyStrip a) }, some d, c + 1)
      | _ => .error "too many values to unpack".toList
    else .ok (n, none, c)

/-- The `while "<>" in content` loop of `Node.parse_glue`
(`analink/core/models.py`): a content starting with `<>` sets `glue_before`
and drops the two leading characters, otherwise `glue_after` is set and
every `<>` is removed in one `replace` — and the loop re-tests, so removal
that recreates a marker (as in `"<<>>"`) is processed again.  Every
iteration removes at least two characters, so `length + 1` fuel is
exact. -/
def parse_glue_go : Nat → Bool → Bool → Str → Bool × Bool × Str
  | 0, gb, ga, ct => (gb, ga, ct)
  | fuel + 1, gb, ga, ct =>
    if strContains "<>".toList ct then
      if "<>".toList.isPrefixOf ct then
        parse_glue_go fuel true ga (ct.drop 2)
      else parse_glue_go fuel gb true (replaceAll "<>".toList [] ct)
    else (gb, ga, ct)

/-- `Node.parse_glue`. -/
def Node.parse_glue (n : Node) : Node :=
  match n.content with
  | none => n
  | some ct =>
    let r := parse_glue_go (ct.length + 1) n.glue_before n.glue_after ct
    { n with glue_before := r.1, glue_after := r.2.1, content := some r.2.2 }

/-- `Node.parse_instruction`: split a content containing `#` into content
and instruction (a `ValueError` escapes when there is more than one `#`). -/
def Node.parse_instruction (n : Node) : Except Str Node :=
  match n.content with
  | none => .ok n
  | some ct =>
    if strContains "#".toList ct then
      match splitOnSub "#".toList ct with
      | [a, b] => .ok { n with content := some a, instruction := some b }
      | _ => .error "too many values to unpack".toList
    else .ok n

/-- `Node.post_process`: divert extraction, choice-bracket extraction (for
Choice nodes), glue and instruction markers; the spawned divert node also
receives glue/instruction processing. -/
def Node.post_process (n : Node) (c : Int) :
    Except Str (Node × Option Node × Int) :=
  match n.parse_divert_post c with
  | .error e => .error e
  | .ok (n1, dv, c1) =>
    let step2 : Except Str Node :=
      if n1.node_type = .choice then n1.parse_choice else .ok n1
    match step2 with
    | .error e => .error e
    | .ok n2 =>
      match n2.parse_glue.parse_instruction with
      | .error e => .error e
      | .ok n4 =>
        match dv with
        | none => .ok (n4, none, c1)
        | some d =>
          match d.parse_glue.parse_instruction with
          | .error e => .error e
          | .ok d2 => .ok (n4, some d2, c1)

/-! ## Line merging (`LineMerger` in `analink/core/line_parser.py`) -/

/-- `LineMerger` state: the ordered node dictionary and the previous id. -/
structure MergerState where
  lines : List (Int × Node) := []
  previous_item_id : Option Int := none
deriving Repr

/-- `LineMerger.can_merge_with_previous`. -/
def can_merge_with_previous (st : MergerState) (n : Node) : Bool :=
  n.node_type = .base &&
    match st.previous_item_id with
    | none => false
    | some pid =>
      match alLookup pid st.lines with
      | some pn =>
        pn.node_type = .gather || pn.node_type = .choice || pn.node_type = .base
      | none => false

/-- `LineMerger.add_node` (with `merge_with_previous` inlined): a BASE node
merges into a previous content-bearing node, producing a freshly-numbered
merged node that replaces it at the end of the dictionary; any other node
is appended. -/
def merger_add_node (sep : Str) (st : MergerState) (c : Int) (n : Node) :
    Except Str (MergerState × Int) :=
  if n.node_type = .base ∧ can_merge_with_previous st n then
    match st.previous_item_id with
    | none => .error "previous item id cannot be None when merging".toList
    | some pid =>
      match alLookup pid st.lines with
      | none => .error "missing previous node".toList
      | some pn =>
        match pn.content, n.content with
        | some pc, some nc =>
          let merged : Node :=
            { item_id := c, node_type := pn.node_type,
              content := some (pc ++ sep ++ nc),
              raw_content := pn.raw_content ++ '\n' :: n.raw_content,
              level := pn.level, line_number := pn.line_number,
              condition := if pn.condition.isSome then pn.condition
                           else n.condition }
          .ok ({ lines := alInsert c merged (alDelete pid st.lines),
                 previous_item_id := some c }, c + 1)
        | _, _ => .error "nodes content cannot be None when merging".toList
  else
    .ok ({ lines := alInsert n.item_id n st.lines,
           previous_item_id := some n.item_id }, c)

/-! ## Story containers and builder (`analink/core/models.py`, `analink/core/parser.py`) -/

/-- `RawKnot` from `analink/core/models.py`: an optional header block plus
ordered named stitch blocks (each block an ordered id-to-node map). -/
structure RawKnot where
  header : List (Int × Node)
  stitches : List (Int × List (Int × Node))
  stitches_info : List (Int × Node)
deriving Repr

/-- `RawKnot.block_name_to_id`: stitch name to the id of the first node of
its block. `none` models the `IndexError`/`KeyError` Python raises on an
empty or missing stitch block. -/
def RawKnot.block_name_to_id (k : RawKnot) : Option (List (Str × Int)) :=
  k.stitches_info.foldlM
    (fun acc p =>
      match alLookup p.1 k.stitches with
      | none => none
      | some blk =>
        match blk with
        | [] => none
        | q :: _ => some (alInsert (p.2.name.getD []) q.2.item_id acc))
    []

/-- `RawKnot.get_blocks`: the header block (when non-empty) followed by the
stitch blocks in order. -/
def RawKnot.get_blocks (k : RawKnot) : List (List (Int × Node)) :=
  (if k.header ≠ [] then [k.header] else []) ++ k.stitches.map (fun p => p.2)

/-- `RawKnot.first_id`: the id of the first node of the header block if
non-empty, else of the first stitch block (`none` models `IndexError`). -/
def RawKnot.first_id (k : RawKnot) : Option Int :=
  match k.header with
  | q :: _ => some q.2.item_id
  | [] =>
    match k.stitches with
    | (_, q :: _) :: _ => some q.2.item_id
    | _ => none

/-- `RawStory` from `analink/core/models.py`. -/
structure RawStory where
  header : List (Int × Node)
  knots : List (Int × RawKnot)
  knots_info : List (Int × Node)
deriving Repr

/-- `RawStory.block_name_to_id`: knot name to first id, plus
`"knot.stitch"`-qualified names for every stitch. -/
def RawStory.block_name_to_id (st : RawStory) : Option (List (Str × Int)) :=
  st.knots_info.foldlM
    (fun acc p =>
      match alLookup p.1 st.knots with
      | none => none
      | some knot =>
        match knot.first_id, knot.block_name_to_id with
        | some fid, some sub =>
          let nm := p.2.name.getD []
          let acc1 := alInsert nm fid acc
          some (sub.foldl
            (fun a q => alInsert (nm ++ '.' :: q.1) q.2 a) acc1)
        | _, _ => none)
    []

/-- `RawStoryBuilder` state from `analink/core/parser.py`. -/
structure BuilderState where
  header : List (Int × Node) := []
  knots : List (Int × RawKnot) := []
  knots_info : List (Int × Node) := []
  current_knot_id : Option Int := none
  current_knot_header : Option (List (Int × Node)) := none
  current_stitches : List (Int × List (Int × Node)) := []
  current_stitches_info : List (Int × Node) := []
  current_stitches_id : Option Int := none
  current_knot_name : Str := "HEADER".toList
  current_stitch_name : Str := "HEADER".toList
deriving Repr

/-- `RawStoryBuilder.finalize_current_knot`. -/
def finalize_current_knot (b : BuilderState) : BuilderState :=
  match b.current_knot_id with
  | none => b
  | some kid =>
    let headerTruthy : Bool := match b.current_knot_header with
      | some h => !h.isEmpty
      | none => false
    if headerTruthy || !b.current_stitches.isEmpty then
      let knot : RawKnot :=
        { header := (b.current_knot_header).getD [],
          stitches := b.current_stitches,
          stitches_info := b.current_stitches_info }
      { b with knots := alInsert kid knot b.knots,
               current_knot_header := none, current_stitches := [],
               current_stitches_info := [], current_stitches_id := none }
    else b

/-- `RawStoryBuilder.start_new_knot` (including the `knot_name` /
`stitch_name` mutation done by `process_node` on the same object). -/
def start_new_knot (b : BuilderState) (n : Node) : BuilderState :=
  let nm := if (n.name.getD []) = [] then "HEADER".toList else n.name.getD []
  let n' := { n with knot_name := nm, stitch_name := "HEADER".toList }
  let b1 := finalize_current_knot b
  { b1 with knots_info := alInsert n'.item_id n' b1.knots_info,
            current_knot_id := some n'.item_id,
            current_knot_name := nm,
            current_stitch_name := "HEADER".toList }

/-- `RawStoryBuilder.start_new_stitches` (including the name mutation from
`process_node`). -/
def start_new_stitches (b : BuilderState) (n : Node) : BuilderState :=
  let nm := if (n.name.getD []) = [] then "HEADER".toList else n.name.getD []
  let n' := { n with knot_name := b.current_knot_name, stitch_name := nm }
  { b with current_stitches_info := alInsert n'.item_id n' b.current_stitches_info,
           current_stitches := alInsert n'.item_id [] b.current_stitches,
           current_stitches_id := some n'.item_id,
           current_stitch_name := nm }

/-- `RawStoryBuilder.add_content_node`: tag the node with the current
knot/stitch names and file it (and a spawned divert node, untagged, as in
the source) into the story header, the current stitch block, or the current
knot header. -/
def add_content_node (b : BuilderState) (n : Node) (dv : Option Node) : BuilderState :=
  let n' := { n with knot_name := b.current_knot_name,
                     stitch_name := b.current_stitch_name }
  let addTo (blk : List (Int × Node)) : List (Int × Node) :=
    let blk1 := alInsert n'.item_id n' blk
    match dv with
    | none => blk1
    | some d => alInsert d.item_id d blk1
  match b.current_knot_id with
  | none => { b with header := addTo b.header }
  | some _ =>
    match b.current_stitches_id with
    | some sid =>
      let blk := (alLookup sid b.current_stitches).getD []
      { b with current_stitches := alInsert sid (addTo blk) b.current_stitches }
    | none =>
      let blk := (b.current_knot_header).getD []
      { b with current_knot_header := some (addTo blk) }

/-- `RawStoryBuilder.process_node`: dispatch on the node type; content
nodes are post-processed (which may spawn a divert node and consume an
id). -/
def process_node (b : BuilderState) (n : Node) (c : Int) :
    Except Str (BuilderState × Int) :=
  if n.node_type = .knot then .ok (start_new_knot b n, c)
  else if n.node_type = .stitches then .ok (start_new_stitches b n, c)
  else
    match n.post_process c with
    | .error e => .error e
    | .ok (n1, dv, c1) => .ok (add_content_node b n1 dv, c1)

/-- `RawStoryBuilder.build_story`: process the merged nodes in order,
finalize the last knot, and assemble the `RawStory`. -/
def build_story (nodes : List (Int × Node)) (c : Int) :
    Except Str (RawStory × Int) :=
  match nodes.foldlM (fun acc p => process_node acc.1 p.2 acc.2)
      (({} : BuilderState), c) with
  | .error e => .error e
  | .ok (b, c1) =>
    let b1 := finalize_current_knot b
    .ok ({ header := b1.header, knots := b1.knots,
           knots_info := b1.knots_info }, c1)

/-- `InkParser.parse` / `clean_lines` from `analink/core/parser.py`: split
the stripped source into lines, parse each line threading the comment flag
and the carried level, merge, and build the raw story.  `INCLUDE`
directives perform file I/O and are out of the embedding: a source using
them is rejected here (no claim involves them). -/
def clean_lines (text : Str) (sep : Str) (c : Int) :
    Except Str (RawStory × Int) :=
  let raw_lines := splitOnSub ['\n'] (pyStrip text)
  if raw_lines.any (fun l => "INCLUDE".toList.isPrefixOf (pyStrip l)) then
    .error "INCLUDE is not modelled".toList
  else
    let step : Bool × Int × Int × MergerState → Nat × Str →
        Except Str (Bool × Int × Int × MergerState) := fun acc p =>
      match parse_line acc.1 acc.2.1 p.2 ((p.1 : Int) + 1) acc.2.2.1 with
      | .error e => .error e
      | .ok (flag, c1, none, lvl) => .ok (flag, c1, lvl, acc.2.2.2)
      | .ok (flag, c1, some n, lvl) =>
        match merger_add_node sep acc.2.2.2 c1 n with
        | .error e => .error e
        | .ok (st1, c2) => .ok (flag, c2, lvl, st1)
    match raw_lines.enum.foldlM step (false, c, 0, ({} : MergerState)) with
    | .error e => .error e
    | .ok (_, c1, _, st) => build_story st.lines c1

/-! ## Graph building (`analink/parser/graph_story.py`) -/

/-- Order-preserving de-duplication (adjacency in `nx.DiGraph` keeps the
first-insertion order of each distinct successor). -/
def dedupInts (l : List Int) : List Int :=
  l.foldl (fun acc x => if x ∈ acc then acc else acc ++ [x]) []

/-- Successors of `n` in `nx.DiGraph(E)`: targets of `n`-sourced edges in
first-insertion order, without duplicates. -/
def successors (E : List (Int × Int)) (n : Int) : List Int :=
  dedupInts ((E.filter (fun e => e.1 = n)).map (fun e => e.2))

/-- Membership of `n` in `nx.DiGraph(E)` (`n in G`): `n` is an endpoint of
some edge. -/
def inGraph (E : List (Int × Int)) (n : Int) : Bool :=
  E.any (fun e => e.1 = n ∨ e.2 = n)

/-- One step of reachable-set expansion: append the target of an edge whose
source is already collected. -/
def expandStep (acc : List Int) (e : Int × Int) : List Int :=
  if e.1 ∈ acc ∧ e.2 ∉ acc then acc ++ [e.2] else acc

/-- One pass of reachable-set expansion: scan the edges in order and append
the target of any edge whose source is already collected. -/
def expandOnce (E : List (Int × Int)) (S : List Int) : List Int :=
  E.foldl expandStep S

/-- `nx.descendants(G, x) ∪ {x}`: iterate `expandOnce` to its fixed point
(enough passes are `|E| + 1`, since every productive pass grows the set and
the set is bounded by `1 + |E|` elements). -/
def descendantsIncl (E : List (Int × Int)) (x : Int) : List Int :=
  (expandOnce E)^[E.length + 1] [x]

/-- `find_leaves_from_node` from `analink/parser/graph_story.py`: a node
not in the graph is its own leaf; otherwise the leaves are the reachable
nodes (including the start) with no outgoing edge.  Python iterates a set
here; this embedding lists the leaves in breadth-first-discovery order,
which is the same set. -/
def find_leaves_from_node (start : Int) (E : List (Int × Int)) : List Int :=
  if ¬ inGraph E start then [start]
  else (descendantsIncl E start).filter (fun n => successors E n = [])

/-- `KEY_KNOT_NAME` resolution order inside the divert branch of
`parse_base_block`: local table first, then global table, then the
reserved names `END`/`BEGIN`/`AUTO_END`; `none` models the
`NotImplementedError` for an unresolved name. -/
def resolveDivertName (loc glob : List (Str × Int)) (nm : Str) : Option Int :=
  match alLookup nm loc with
  | some t => some t
  | none =>
    match alLookup nm glob with
    | some t => some t
    | none =>
      if nm = "END".toList then some (-1)
      else if nm = "BEGIN".toList then some (-2)
      else if nm = "AUTO_END".toList then some (-3)
      else none

/-- `parse_base_block` loop state: the edges built so far and the
`node_at_level` dictionary. -/
structure BlockState where
  edges : List (Int × Int) := []
  node_at_level : List (Int × List Int) := []
deriving DecidableEq, Repr

/-- One iteration of the `parse_base_block` loop of
`analink/parser/graph_story.py` on the entry `(item_id, node)`.  `none`
models the `NotImplementedError`s of the divert branch and the `IndexError`
of writing `node_at_level[level-1][-1]` on an empty list.  The dispatch
compares `node.node_type is NodeType.BASE/CHOICE/GATHER/DIVERT` against
`analink.parser.node.NodeType` (the module's own import), modeled by the
`p_`-prefixed constructors: a node carrying the core enum (as every node
coming from the engine's `clean_lines` does) matches no branch and only
triggers the `node_at_level` key initialization. -/
def processBlockNode (loc glob : List (Str × Int)) (st : BlockState)
    (p : Int × Node) : Option BlockState :=
  let node := p.2
  let nal0 := if alMember node.level st.node_at_level then st.node_at_level
              else alInsert node.level [] st.node_at_level
  if node.node_type = .p_base ∨ node.node_type = .p_choice then
    let cur := alLookupD node.level nal0 []
    let nal1 := alInsert node.level (cur ++ [p.1]) nal0
    let parent := alLookupD (node.level - 1) nal1 []
    let edges1 :=
      if node.level > 0 ∧ alMember (node.level - 1) nal1 ∧ parent ≠ [] then
        st.edges ++ [(parent.getLastD 0, p.1)]
      else st.edges
    some { edges := edges1, node_at_level := nal1 }
  else if node.node_type = .p_gather then
    let cur := alLookupD node.level nal0 []
    let newEdges := cur.foldl
      (fun es lid => es ++ (find_leaves_from_node lid es).map (fun leaf => (leaf, p.1)))
      st.edges
    let nal1 := alInsert node.level [] nal0
    if alMember (node.level - 1) nal1 then
      let pl := alLookupD (node.level - 1) nal1 []
      match pl with
      | [] => none
      | _ =>
        some { edges := newEdges,
               node_at_level := alInsert (node.level - 1) (pl.dropLast ++ [p.1]) nal1 }
    else
      some { edges := newEdges,
             node_at_level := alInsert (node.level - 1) [p.1] nal1 }
  else if node.node_type = .p_divert then
    let cur := alLookupD node.level nal0 []
    if cur ≠ [] then
      match resolveDivertName loc glob (node.name.getD []) with
      | some t => some { edges := st.edges ++ [(cur.getLastD 0, t)],
                         node_at_level := nal0 }
      | none => none
    else if node.level = 0 then
      match resolveDivertName loc glob (node.name.getD []) with
      | some t => some { edges := st.edges ++ [(-2, t)], node_at_level := nal0 }
      | none => none
    else none
  else some { edges := st.edges, node_at_level := nal0 }

/-- `parse_base_block`: fold the loop body over the block's nodes in
insertion order and return the edges. -/
def parse_base_block (nodes : List (Int × Node)) (loc glob : List (Str × Int)) :
    Option (List (Int × Int)) :=
  (nodes.foldlM (processBlockNode loc glob) ({} : BlockState)).map
    (fun st => st.edges)

/-- `parse_knot`: parse each block of the knot against its stitch-local
name table, accumulating nodes and edges. -/
def parse_knot (k : RawKnot) (glob : List (Str × Int)) :
    Option (List (Int × Node) × List (Int × Int)) :=
  match k.block_name_to_id with
  | none => none
  | some loc =>
    k.get_blocks.foldlM
      (fun acc blk =>
        match parse_base_block blk loc glob with
        | none => none
        | some es => some (alUpdateAll acc.1 blk, acc.2 ++ es))
      ([], [])

/-- `parse_story`: parse the story header (against an empty local table),
then every knot in order, then add the three sentinel nodes `-1`/`-2`/`-3`
(whose `Node` values consume fresh ids, as the Python constructors do). -/
def parse_story (st : RawStory) (c : Int) :
    Option (List (Int × Node) × List (Int × Int) × Int) :=
  match st.block_name_to_id with
  | none => none
  | some glob =>
    let hdr : Option (List (Int × Node) × List (Int × Int)) :=
      if st.header.length > 0 then
        (parse_base_block st.header [] glob).map (fun es => (st.header, es))
      else some ([], [])
    match hdr with
    | none => none
    | some hd =>
      match st.knots.foldlM
          (fun acc p =>
            match parse_knot p.2 glob with
            | none => none
            | some r => some (alUpdateAll acc.1 r.1, acc.2 ++ r.2))
          hd with
      | none => none
      | some r =>
        let e1 := Node.end_node c
        let e2 := Node.begin_node e1.2
        let e3 := Node.auto_end_node e2.2
        some (alInsert (-3) e3.1 (alInsert (-2) e2.1 (alInsert (-1) e1.1 r.1)),
              r.2, e3.2)

/-! ## Story engine (`analink/core/story_engine.py`) -/

/-- `StoryEngine` runtime state.  `graph` is the edge list snapshot from
which `nx.DiGraph` is built at construction; `edges` is the live list that
`reset_story` may later extend without rebuilding the graph. -/
structure EngineState where
  let_people_choose_one_choice : Bool
  nodes : List (Int × Node)
  edges : List (Int × Int)
  graph : List (Int × Int)
  story_history : List Str
  current_node_id : Int
  is_story_complete : Bool
  node_visited : List (Int × Int)
  node_can_be_visited_again : List (Int × Bool)
  container_states : List (Str × ContainerState)
  game_variables : List (Str × Int)
  current_turn : Int
deriving DecidableEq, Repr

/-- The set `nodes_with_incoming` computed by `_find_start_node` (after its
two special-casing steps: `-1` always counts as having an incoming edge,
and `-2` is added when it occurs in no edge at all). -/
def nodes_with_incoming (edges : List (Int × Int)) : List Int :=
  let incoming0 := edges.map (fun e => e.2)
  let incoming1 := if (-1 : Int) ∈ incoming0 then incoming0 else -1 :: incoming0
  let allInEdges := edges.map (fun e => e.2) ++ edges.map (fun e => e.1)
  if (-2 : Int) ∉ allInEdges then -2 :: incoming1 else incoming1

/-- `start_candidates = all_nodes - nodes_with_incoming` where `all_nodes`
is the node-id set minus `-3`. -/
def start_candidates (nodes : List (Int × Node)) (edges : List (Int × Int)) :
    List Int :=
  (nodes.map (fun p => p.1)).filter
    (fun i => i ≠ -3 ∧ i ∉ nodes_with_incoming edges)

/-- Minimum of a list of integers (`min(...)` over a non-empty set). -/
def intListMin : List Int → Int
  | [] => 0
  | x :: t => t.foldl min x

/-- `StoryEngine._find_start_node`: returns the new current node id (always
`-2`) and the possibly-extended edge list.  `list(self.nodes.keys())[0]`
raises `IndexError` on an empty node table in Python; that situation is
unreachable after `parse_story` (which always adds the sentinels) and is
given the default `1` here, mirroring the empty-`nodes` branch. -/
def find_start_node (nodes : List (Int × Node)) (edges : List (Int × Int)) :
    Int × List (Int × Int) :=
  if edges = [] then
    let cand := match nodes with
      | p :: _ => p.1
      | [] => 1
    (-2, edges ++ [(-2, cand)])
  else
    let cand := match start_candidates nodes edges with
      | [] => match nodes with
        | p :: _ => p.1
        | [] => 1
      | l => intListMin l
    if cand = -2 then (-2, edges)
    else (-2, edges ++ [(-2, cand)])

/-- `StoryEngine._fill_auto_end_node`: every non-sentinel node that is not
an edge source but occurs in some edge gets a synthetic edge to AutoEnd
(`-3`).  Python iterates the `remaining_nodes` set in unspecified order;
the embedding iterates in node-table order, which yields the same set of
added edges (each with a distinct source). -/
def fill_auto_end_node (nodes : List (Int × Node)) (edges : List (Int × Int)) :
    List (Int × Int) :=
  let allNodes := (nodes.map (fun p => p.1)).filter
    (fun i => i ≠ -1 ∧ i ≠ -2 ∧ i ≠ -3)
  let sources := edges.map (fun e => e.1)
  let inEdges := edges.map (fun e => e.2) ++ edges.map (fun e => e.1)
  let remaining := allNodes.filter (fun i => i ∉ sources ∧ i ∈ inEdges)
  edges ++ remaining.map (fun i => (i, -3))

/-- `StoryEngine._initialize_container_states`: a default `ContainerState`
for every knot and every `knot.stitch` pair named by some node. -/
def initialize_container_states (nodes : List (Int × Node)) :
    List (Str × ContainerState) :=
  nodes.foldl
    (fun cs p =>
      let n := p.2
      if n.knot_name ≠ "HEADER".toList then
        let cs1 := if alMember n.knot_name cs then cs
                   else alInsert n.knot_name {} cs
        if n.stitch_name ≠ "HEADER".toList then
          let key := n.knot_name ++ '.' :: n.stitch_name
          if alMember key cs1 then cs1 else alInsert key {} cs1
        else cs1
      else cs)
    []

/-- `StoryEngine.__init__` after parsing: find the start node (extending the
edges), fill the auto-end edges, snapshot the graph, and initialise the
runtime state. -/
def mkEngine (letP : Bool) (nodes : List (Int × Node))
    (edges0 : List (Int × Int)) : EngineState :=
  let fs := find_start_node nodes edges0
  let edges2 := fill_auto_end_node nodes fs.2
  { let_people_choose_one_choice := letP, nodes := nodes, edges := edges2,
    graph := edges2, story_history := [], current_node_id := fs.1,
    is_story_complete := false, node_visited := [],
    node_can_be_visited_again := [],
    container_states := initialize_container_states nodes,
    game_variables := [], current_turn := 0 }

/-- Full constructor from story text (`StoryEngine(story_text)`):
`Node.reset_id_counter()` puts the id counter at 1; `none` models a parse
failure. -/
def mkEngineFromText (letP : Bool) (txt : Str) : Option EngineState :=
  match clean_lines txt " ".toList 1 with
  | .error _ => none
  | .ok (rs, c) => (parse_story rs c).map (fun r => mkEngine letP r.1 r.2.1)

/-- The engine as its own `ContainerStateProvider` (Python raises
`AttributeError` on a `None` container reference; validated conditions
always carry one, so the reference here is a plain string). -/
def engineProvider (s : EngineState) : ContainerStateProvider :=
  { get_container_state := fun ref => alLookup ref s.container_states,
    game_variables := s.game_variables,
    current_turn := s.current_turn }

/-- `StoryEngine._evaluate_condition`: a missing condition is `True`. -/
def evaluate_condition (s : EngineState) (c : Option Condition) : Bool :=
  match c with
  | none => true
  | some cond => cond.evaluate (engineProvider s)

/-- `StoryEngine._get_next_nodes`: graph successors filtered by
`node_can_be_visited_again` (default `True`). -/
def get_next_nodes (s : EngineState) (node_id : Int) : List Int :=
  if inGraph s.graph node_id then
    (successors s.graph node_id).filter
      (fun t => alLookupD t s.node_can_be_visited_again true)
  else []

/-- Python truthiness of `node.content` (`None` and `""` are falsy). -/
def contentTruthy (n : Node) : Bool :=
  match n.content with
  | some (_ :: _) => true
  | _ => false

/-- The `choice_order` assignment of `_get_choice_nodes`: set the order if
the node does not have one yet. -/
def orderAssign (n : Node) (ord : Int) : Node :=
  if n.choice_order = none then { n with choice_order := some ord } else n

/-- One iteration of the `_get_choice_nodes` loop on the accumulator
(eligible choices, fallback list, running `choice_order`, node table). -/
def choiceStep (s : EngineState)
    (acc : List Node × List Node × Int × List (Int × Node)) (nid : Int) :
    List Node × List Node × Int × List (Int × Node) :=
  match alLookup nid acc.2.2.2 with
  | some n =>
    if n.node_type = .choice then
      if n.is_sticky || ¬ alMember nid s.node_visited then
        let n1 := orderAssign n acc.2.2.1
        let tbl1 := alInsert nid n1 acc.2.2.2
        if n1.is_fallback then
          (acc.1, acc.2.1 ++ [n1], acc.2.2.1 + 1, tbl1)
        else if ¬ evaluate_condition s n1.condition then
          (acc.1, acc.2.1, acc.2.2.1 + 1, tbl1)
        else
          (acc.1 ++ [n1], acc.2.1, acc.2.2.1 + 1, tbl1)
      else (acc.1, acc.2.1, acc.2.2.1 + 1, acc.2.2.2)
    else acc
  | none => acc

/-- The `_get_choice_nodes` loop: accumulates eligible choice nodes, the
fallback list, the running `choice_order`, and the node table (assigning
`choice_order` mutates the dict's node objects). -/
def get_choice_nodes_go (s : EngineState) (ids : List Int) :
    List Node × List Node × Int × List (Int × Node) :=
  ids.foldl (choiceStep s) ([], [], 1, s.nodes)

/-- `StoryEngine._get_choice_nodes`: the eligible condition-passing list if
non-empty, else the fallback list; also returns the updated node table. -/
def get_choice_nodes (s : EngineState) (ids : List Int) :
    List Node × List (Int × Node) :=
  let r := get_choice_nodes_go s ids
  (if r.1 ≠ [] then r.1 else r.2.1, r.2.2.2)

/-- `StoryEngine.get_available_choices`. -/
def get_available_choices (s : EngineState) : List Node × EngineState :=
  if s.is_story_complete then ([], s)
  else
    let r := get_choice_nodes s (get_next_nodes s s.current_node_id)
    (r.1, { s with nodes := r.2 })

/-- `StoryEngine._add_content` (the UI callback slots are `None`, so the
only effect is the history append). -/
def add_content (s : EngineState) (ct : Str) : EngineState :=
  { s with story_history := s.story_history ++ [ct] }

/-- `StoryEngine._update_container_states_for_node`. -/
def update_container_states_for_node (s : EngineState) (nid : Int) : EngineState :=
  match alLookup nid s.nodes with
  | none => s
  | some n =>
    let upd := fun (cs : List (Str × ContainerState)) (key : Str) =>
      match alLookup key cs with
      | some st =>
        alInsert key { st with seen_count := st.seen_count + 1,
                               last_seen_turn := some s.current_turn,
                               status := .seen } cs
      | none => cs
    let cs1 := if n.knot_name ≠ "HEADER".toList then upd s.container_states n.knot_name
               else s.container_states
    let cs2 := if n.stitch_name ≠ "HEADER".toList then
                 upd cs1 (n.knot_name ++ '.' :: n.stitch_name)
               else cs1
    { s with container_states := cs2 }

/-- The loop-head bookkeeping of `_follow_story_path`: increment
`node_visited[current]` and update the owning containers' states. -/
def visit_current (s : EngineState) : EngineState :=
  let nv := alInsert s.current_node_id
    ((alLookupD s.current_node_id s.node_visited 0) + 1) s.node_visited
  update_container_states_for_node { s with node_visited := nv }
    s.current_node_id

/-- The dead-end branch of `_follow_story_path`: End and AutoEnd emit their
terminal content and set the completion flag; any other dead end raises
(`none`). -/
def follow_finish (s2 : EngineState) : Option EngineState :=
  match alLookup s2.current_node_id s2.nodes with
  | some n =>
    if n.node_type = .stop then
      some { add_content s2 "END OF STORY".toList with is_story_complete := true }
    else if n.node_type = .auto_end then
      some { add_content s2 "AUTO END OF STORY generated by the software".toList
             with is_story_complete := true }
    else none
  | none => none

/-- The content emission when the loop advances into the node `nn`
(gather/base content, and choice content when the engine auto-advances). -/
def advance_content (s4 : EngineState) (nn : Node) : EngineState :=
  if nn.node_type = .gather ∧ contentTruthy nn then
    add_content s4 (nn.content.getD [])
  else if nn.node_type = .base ∧ contentTruthy nn then
    add_content s4 (nn.content.getD [])
  else if nn.node_type = .choice ∧ contentTruthy nn ∧
      ¬ s4.let_people_choose_one_choice then
    add_content s4 (nn.content.getD [])
  else s4

/-- The advance sub-step of the loop body: move to `next_id` in the state
whose node table was updated by the availability check (`s3` in the
source), emitting content when the node exists. -/
def follow_move (s2 : EngineState) (nexts : List Int) (next_id : Int) :
    Option (EngineState ⊕ EngineState) :=
  match alLookup next_id (get_choice_nodes s2 nexts).2 with
  | some nn =>
    some (Sum.inr (advance_content
      { s2 with nodes := (get_choice_nodes s2 nexts).2,
                current_node_id := next_id } nn))
  | none =>
    some (Sum.inr { s2 with nodes := (get_choice_nodes s2 nexts).2,
                            current_node_id := next_id })

/-- The non-dead-end part of the loop body: stop (`Sum.inl`) when choices
are to be offered, else advance (`Sum.inr`) to the first successor (or the
first choice when the engine auto-advances).  The state `s3` of the source
differs from `s2` only in its node table, so its
`let_people_choose_one_choice` is read off `s2`. -/
def follow_branch (s2 : EngineState) (nexts : List Int) :
    Option (EngineState ⊕ EngineState) :=
  if ((get_choice_nodes s2 nexts).1 ≠ [] ∧ s2.let_people_choose_one_choice) ∨
     ((get_choice_nodes s2 nexts).1.length > 1 ∧
       ¬ s2.let_people_choose_one_choice) then
    some (Sum.inl { s2 with nodes := (get_choice_nodes s2 nexts).2 })
  else
    follow_move s2 nexts
      (if ¬ s2.let_people_choose_one_choice then
        (match (get_choice_nodes s2 nexts).1 with
         | c0 :: _ => c0.item_id
         | [] => nexts.headD 0)
      else nexts.headD 0)

/-- One iteration of the `_follow_story_path` while loop: `Sum.inl` is a
`break` with the final state, `Sum.inr` continues the loop, `none` is a
raised exception. -/
def follow_iter (s : EngineState) : Option (EngineState ⊕ EngineState) :=
  if get_next_nodes (visit_current s) (visit_current s).current_node_id = [] then
    (follow_finish (visit_current s)).map Sum.inl
  else
    follow_branch (visit_current s)
      (get_next_nodes (visit_current s) (visit_current s).current_node_id)

/-- `StoryEngine._follow_story_path`.  The Python guard set `visited` is
never populated, so the `while` condition is always true and the loop exits
only through its `break`s; exhausted fuel (`none`) models divergence, and
`none` also models the `NotImplementedError` raised at a dead end that is
neither End nor AutoEnd (and the `AttributeError` when the current node is
missing from the table). -/
def follow_story_path : Nat → EngineState → Option EngineState
  | 0, _ => none
  | fuel + 1, s =>
    match follow_iter s with
    | none => none
    | some (Sum.inl s3) => some s3
    | some (Sum.inr s5) => follow_story_path fuel s5

/-- The bullet-line append of `make_choice` (skipped when the choice text
is `None` or empty, matching Python truthiness). -/
def make_choice_bullet (s2 : EngineState) (cn : Node) : EngineState :=
  match cn.choice_text with
  | some (c :: cs) => add_content s2 ("• ".toList ++ c :: cs)
  | _ => s2

/-- Python truthiness of `node.content and node.content != node.choice_text
and node.content.strip()` in `make_choice`: the node content is echoed only
when non-empty, different from the choice text, and not blank. -/
def choiceContentDiffers (cn : Node) : Bool :=
  match cn.content with
  | some ct =>
    !ct.isEmpty && (if some ct = cn.choice_text then false else true) &&
      !(pyStrip ct).isEmpty
  | none => false

/-- The content echo of `make_choice`. -/
def make_choice_emit (s3 : EngineState) (cn : Node) : EngineState :=
  if choiceContentDiffers cn then add_content s3 (cn.content.getD []) else s3

/-- Position move plus both history appends of `make_choice`. -/
def make_choice_moved (s1 : EngineState) (cn : Node) : EngineState :=
  make_choice_emit
    (make_choice_bullet { s1 with current_node_id := cn.item_id } cn) cn

/-- The committed part of `make_choice` once the chosen node `cn` has been
validated: move the current position to the chosen node, append the bullet
line and (when different and non-blank) the content to the history, and
mark a non-sticky choice as no longer visitable. -/
def make_choice_commit (s1 : EngineState) (cn : Node) : EngineState :=
  if ¬ cn.is_sticky then
    { make_choice_moved s1 cn with node_can_be_visited_again := alInsert cn.item_id false (make_choice_moved s1 cn).node_can_be_visited_again }
  else make_choice_moved s1 cn

/-- `StoryEngine.make_choice`.  The Python method receives one of the
engine's own node objects (handed out by `get_available_choices`); the
embedding takes its id and reads the node from the engine's table (the
availability check runs first and may assign `choice_order`s).  `none`
models an exception or divergence inside the advance loop. -/
def make_choice (fuel : Nat) (s : EngineState) (cid : Int) :
    Option (EngineState × Bool) :=
  if s.is_story_complete then some (s, false)
  else if cid ∉ (get_available_choices s).1.map (fun n => n.item_id) then
    some ((get_available_choices s).2, false)
  else
    match alLookup cid (get_available_choices s).2.nodes with
    | none => none
    | some cn =>
      match follow_story_path fuel
          (make_choice_commit (get_available_choices s).2 cn) with
      | none => none
      | some s6 => some (s6, true)

/-- The initial content emission of `start_story`. -/
def start_pre (s : EngineState) : EngineState :=
  match alLookup s.current_node_id s.nodes with
  | some n => if contentTruthy n then add_content s (n.content.getD []) else s
  | none => s

/-- `StoryEngine.start_story`. -/
def start_story (fuel : Nat) (s : EngineState) : Option EngineState :=
  follow_story_path fuel (start_pre s)

/-- `StoryEngine.reset_story`: clear the history, recompute the start node
(possibly extending the live edge list, without rebuilding the graph), and
clear the completion flag. -/
def reset_story (s : EngineState) : EngineState :=
  let r := find_start_node s.nodes s.edges
  { s with story_history := [], current_node_id := r.1, edges := r.2,
           is_story_complete := false }

/-- The engine operations a driver can invoke during a run. -/
inductive EngineOp
  | make_choice_op (cid : Int)
  | start_story_op
  | reset_story_op
  | get_choices_op
deriving DecidableEq, Repr

/-- Apply one engine operation. -/
def applyOp (fuel : Nat) (s : EngineState) : EngineOp → Option EngineState
  | .make_choice_op cid => (make_choice fuel s cid).map (fun r => r.1)
  | .start_story_op => start_story fuel s
  | .reset_story_op => some (reset_story s)
  | .get_choices_op => some (get_available_choices s).2

/-- Apply a list of engine operations in order. -/
def applyOps (fuel : Nat) : List EngineOp → EngineState → Option EngineState
  | [], s => some s
  | op :: ops, s => (applyOp fuel s op).bind (applyOps fuel ops)

/-! ## Concrete stories used by counterexamples and witnesses -/

/-- A placeholder engine for `Option.getD` extraction of concrete runs. -/
def emptyEngine : EngineState := mkEngine true [] []

/-- Story with two content-bearing knots and no diverts: the second knot's
content node ends up in no edge at all. -/
def c1_story : Str := "== a ==\nA\n== b ==\nB".toList

/-- The engine built from `c1_story`. -/
def c1_engine : EngineState := (mkEngineFromText true c1_story).getD emptyEngine

/-- The gather-convergence story of claim C3. -/
def c3_story : Str := "* A\n* B\n- C".toList

/-- Parse result (nodes, edges) of `c3_story`. -/
def c3_parsed : List (Int × Node) × List (Int × Int) :=
  match clean_lines c3_story " ".toList 1 with
  | .error _ => ([], [])
  | .ok (rs, c) =>
    match parse_story rs c with
    | some r => (r.1, r.2.1)
    | none => ([], [])

/-- Story with one plain line and two one-shot choices. -/
def c4_story : Str := "Hello\n* A\n* B".toList

/-- The engine built from `c4_story`. -/
def c4_engine : EngineState := (mkEngineFromText true c4_story).getD emptyEngine

/-- The engine of the choices-first story `"* A\n* B\n- C"`: the start
candidate is the choice node 1, so `start_story` stops at BEGIN offering
it. -/
def cx_engine : EngineState := mkEngine true c3_parsed.1 c3_parsed.2

/-- `cx_engine` after `start_story` (stops offering choice 1). -/
def cx_start : EngineState := (start_story 20 cx_engine).getD emptyEngine

/-- `cx_engine` with the completion flag raised by hand.  The real engine
never reaches a completed state (every walk to a dead end raises
`NotImplementedError`), so the function-level guards on the flag are
exercised on a synthetic state. -/
def cx_done : EngineState := { cx_engine with is_story_complete := true }

/-! ## C9 and C10 -/

/-- C9: `reset_story` clears the content history, recomputes the start node
(the result of `_find_start_node` on the live nodes/edges), and clears the
completion flag, while `node_visited`, `node_can_be_visited_again`,
`container_states`, `game_variables` and `current_turn` are unchanged. -/
theorem C9_reset_frame (s : EngineState) :
    (reset_story s).story_history = [] ∧
    (reset_story s).is_story_complete = false ∧
    (reset_story s).current_node_id = (find_start_node s.nodes s.edges).1 ∧
    (reset_story s).node_visited = s.node_visited ∧
    (reset_story s).node_can_be_visited_again = s.node_can_be_visited_again ∧
    (reset_story s).container_states = s.container_states ∧
    (reset_story s).game_variables = s.game_variables ∧
    (reset_story s).current_turn = s.current_turn :=
  ⟨rfl, rfl, rfl, rfl, rfl, rfl, rfl, rfl⟩

/-- C10: whenever the story-complete flag is set, `get_available_choices`
returns the empty list (and leaves the state untouched), regardless of the
current node's successors. -/
theorem C10_complete_no_choices (s : EngineState)
    (h : s.is_story_complete = true) : get_available_choices s = ([], s) := by
  unfold get_available_choices
  simp [h]

/-- Witness for C10 on a state with the flag set whose current node (BEGIN)
has a choice successor in the graph: the guard still returns no choices. -/
theorem C10_complete_no_choices_witness :
    cx_done.is_story_complete = true ∧
    successors cx_done.graph cx_done.current_node_id = [1] ∧
    get_available_choices cx_done = ([], cx_done) :=
  ⟨by decide, by decide, C10_complete_no_choices cx_done (by decide)⟩

/-! ## C6 -/

/-- C6: condition evaluation degrades on unknown references: StatusEquals
and SeenCountGt/Lt/Eq conditions whose container reference is unknown to
the provider evaluate to `false`, and VariableGt/VariableLt treat a missing
game variable as 0, so "missing > threshold" is `false` and
"missing < threshold" is `true` whenever the threshold is positive. -/
theorem C6_condition_missing_defaults (p : ContainerStateProvider)
    (ref name : Str) (status : ContainerStatus) (n t : Int) :
    (p.get_container_state ref = none →
      (UnaryCondition.status_equals ref status).evaluate p = false ∧
      (UnaryCondition.seen_count_gt ref n).evaluate p = false ∧
      (UnaryCondition.seen_count_lt ref n).evaluate p = false ∧
      (UnaryCondition.seen_count_eq ref n).evaluate p = false) ∧
    (alLookup name p.game_variables = none → 0 < t →
      (UnaryCondition.variable_gt name t).evaluate p = false ∧
      (UnaryCondition.variable_lt name t).evaluate p = true) := by
  constructor
  · intro h
    refine ⟨?_, ?_, ?_, ?_⟩ <;> simp [UnaryCondition.evaluate, h]
  · intro h ht
    simp only [UnaryCondition.evaluate, alLookupD, h, Option.getD]
    constructor
    · simp only [decide_eq_false_iff_not]
      omega
    · simp only [decide_eq_true_eq]
      omega

/-- A provider with no containers and no variables. -/
def emptyProvider : ContainerStateProvider :=
  { get_container_state := fun _ => none, game_variables := [], current_turn := 0 }

/-- Witness for C6 at the empty provider with threshold 3. -/
theorem C6_condition_missing_defaults_witness :
    emptyProvider.get_container_state "park".toList = none ∧
    alLookup "gold".toList emptyProvider.game_variables = none ∧ (0 : Int) < 3 ∧
    (UnaryCondition.status_equals "park".toList .seen).evaluate emptyProvider = false ∧
    (UnaryCondition.seen_count_gt "park".toList 2).evaluate emptyProvider = false ∧
    (UnaryCondition.seen_count_lt "park".toList 2).evaluate emptyProvider = false ∧
    (UnaryCondition.seen_count_eq "park".toList 2).evaluate emptyProvider = false ∧
    (UnaryCondition.variable_gt "gold".toList 3).evaluate emptyProvider = false ∧
    (UnaryCondition.variable_lt "gold".toList 3).evaluate emptyProvider = true := by
  have h := C6_condition_missing_defaults emptyProvider "park".toList "gold".toList
    .seen 2 3
  have h1 := h.1 rfl
  have h2 := h.2 rfl (by decide)
  exact ⟨rfl, rfl, by decide, h1.1, h1.2.1, h1.2.2.1, h1.2.2.2, h2.1, h2.2⟩

/-! ## C5 -/

/-- C5: `make_choice` returns `False` without raising when the story is
complete (leaving the state untouched) or when the node is not among the
available choices (leaving the current position, history, visitation
counters and flags, completion flag, container states, game variables and
turn counter untouched; only the availability check's `choice_order`
assignments on the node table can differ). -/
theorem C5_make_choice_reject (fuel : Nat) (s : EngineState) (cid : Int) :
    (s.is_story_complete = true → make_choice fuel s cid = some (s, false)) ∧
    (s.is_story_complete = false →
      cid ∉ (get_available_choices s).1.map (fun n => n.item_id) →
      make_choice fuel s cid = some ((get_available_choices s).2, false) ∧
      (get_available_choices s).2.current_node_id = s.current_node_id ∧
      (get_available_choices s).2.story_history = s.story_history ∧
      (get_available_choices s).2.node_visited = s.node_visited ∧
      (get_available_choices s).2.node_can_be_visited_again
        = s.node_can_be_visited_again ∧
      (get_available_choices s).2.is_story_complete = false ∧
      (get_available_choices s).2.container_states = s.container_states ∧
      (get_available_choices s).2.game_variables = s.game_variables ∧
      (get_available_choices s).2.current_turn = s.current_turn) := by
  constructor
  · intro h
    unfold make_choice
    simp [h]
  · intro h1 h2
    have hm : make_choice fuel s cid = some ((get_available_choices s).2, false) := by
      unfold make_choice
      simp [h1, h2]
    refine ⟨hm, ?_⟩
    unfold get_available_choices
    simp [h1]

/-- Witness for C5: a state with the completion flag set rejects any
choice, and the running state `cx_start` (offering only choice 1) rejects
the unoffered choice id 2. -/
theorem C5_make_choice_reject_witness :
    cx_done.is_story_complete = true ∧
    make_choice 20 cx_done 1 = some (cx_done, false) ∧
    cx_start.is_story_complete = false ∧
    (2 : Int) ∉ (get_available_choices cx_start).1.map (fun n => n.item_id) ∧
    make_choice 20 cx_start 2 = some ((get_available_choices cx_start).2, false) ∧
    (get_available_choices cx_start).2.current_node_id = cx_start.current_node_id := by
  refine ⟨by decide, (C5_make_choice_reject 20 cx_done 1).1 (by decide), by decide,
    by decide, ?_, ?_⟩
  · exact ((C5_make_choice_reject 20 cx_start 2).2 (by decide) (by decide)).1
  · exact ((C5_make_choice_reject 20 cx_start 2).2 (by decide) (by decide)).2.1

/-! ## C7: the inline-condition mapping -/

/-- `dropWhile` is idempotent. -/
theorem dropWhile_self (p : Char → Bool) (l : Str) :
    (l.dropWhile p).dropWhile p = l.dropWhile p := by
  induction l with
  | nil => rfl
  | cons c t ih =>
    by_cases h : p c = true
    · simp [List.dropWhile_cons, h, ih]
    · simp [List.dropWhile_cons, h]

/-- `pyStripRight` is idempotent. -/
theorem pyStripRight_idem (l : Str) :
    pyStripRight (pyStripRight l) = pyStripRight l := by
  unfold pyStripRight
  rw [List.reverse_reverse, dropWhile_self]

/-- A stripped string is right-stripped. -/
theorem pyStripRight_pyStrip (l : Str) : pyStripRight (pyStrip l) = pyStrip l := by
  unfold pyStrip
  exact pyStripRight_idem _

/-- If every element after the dropped prefix satisfies `p`, every element
does. -/
theorem all_of_dropWhile_all (p : Char → Bool) (l : Str)
    (h : ∀ x ∈ l.dropWhile p, p x = true) : ∀ x ∈ l, p x = true := by
  induction l with
  | nil => intro x hx; cases hx
  | cons c t ih =>
    by_cases hc : p c = true
    · intro x hx
      rcases List.mem_cons.mp hx with rfl | hx'
      · exact hc
      · exact ih (by simpa [List.dropWhile_cons, hc] using h) x hx'
    · intro x hx
      exact h x (by simpa [List.dropWhile_cons, hc] using hx)

/-- A string whose strip is empty is all whitespace. -/
theorem pyStrip_nil_all (l : Str) (h : pyStrip l = []) :
    ∀ x ∈ l, isPySpace x = true := by
  unfold pyStrip pyStripRight pyStripLeft at h
  have h1 : (l.dropWhile isPySpace).reverse.dropWhile isPySpace = [] := by
    have := congrArg List.reverse h
    simpa using this
  have h2 : ∀ x ∈ (l.dropWhile isPySpace).reverse, isPySpace x = true :=
    List.dropWhile_eq_nil_iff.mp h1
  have h3 : ∀ x ∈ l.dropWhile isPySpace, isPySpace x = true := by
    intro x hx
    exact h2 x (List.mem_reverse.mpr hx)
  exact all_of_dropWhile_all _ _ h3

/-- `dropWhile` over an all-`p` prefix skips it. -/
theorem dropWhile_append_all (p : Char → Bool) (l1 l2 : Str)
    (h : ∀ x ∈ l1, p x = true) :
    (l1 ++ l2).dropWhile p = l2.dropWhile p := by
  induction l1 with
  | nil => rfl
  | cons c t ih =>
    have hc := h c (List.mem_cons_self c t)
    simp only [List.cons_append, List.dropWhile_cons, hc, if_true]
    exact ih (fun x hx => h x (List.mem_cons_of_mem c hx))

/-- Within `parse_condition_string`, the name after a `not ` prefix of the
stripped condition is never empty (the stripped string cannot end in
whitespace), so the `UnaryCondition` validator accepts it. -/
theorem notPrefixStrip (s : Str)
    (h1 : "not ".toList.isPrefixOf (pyStrip s) = true) :
    pyStrip ((pyStrip s).drop 4) ≠ [] := by
  obtain ⟨r, hr⟩ : ∃ r, pyStrip s = 'n' :: 'o' :: 't' :: ' ' :: r := by
    obtain ⟨r, hr⟩ := List.isPrefixOf_iff_prefix.mp h1
    exact ⟨r, hr.symm⟩
  intro hnil
  rw [hr] at hnil
  simp only [List.drop_succ_cons, List.drop_zero] at hnil
  have hall : ∀ x ∈ r, isPySpace x = true := pyStrip_nil_all _ hnil
  have hsr : pyStripRight (pyStrip s) = pyStrip s := pyStripRight_pyStrip s
  have hcompute : pyStripRight (pyStrip s) = ['n', 'o', 't'] := by
    rw [hr]
    unfold pyStripRight
    have hrev : ('n' :: 'o' :: 't' :: ' ' :: r).reverse
        = r.reverse ++ [' ', 't', 'o', 'n'] := by simp
    rw [hrev, dropWhile_append_all _ _ _
      (fun x hx => hall x (List.mem_reverse.mp hx))]
    rfl
  rw [hsr, hr] at hcompute
  simp at hcompute

/-- A NAME-start character is a NAME character. -/
theorem isNameChar_of_start (c : Char) (h : isNameStart c = true) :
    isNameChar c = true := by
  unfold isNameStart at h
  unfold isNameChar
  rcases Bool.or_eq_true_iff.mp h with h' | h' <;> simp [h']

/-- A successful `NAME CMP N` match yields a non-empty name and a
non-negative number, so the `UnaryCondition` validator accepts it. -/
theorem matchNameCmpNum_props (cmp : Char) (s nm : Str) (n : Int)
    (h : matchNameCmpNum cmp s = some (nm, n)) : nm ≠ [] ∧ 0 ≤ n := by
  unfold matchNameCmpNum at h
  cases s with
  | nil => cases h
  | cons c t =>
    by_cases hs : isNameStart c = true
    · simp only [hs, if_true] at h
      rcases hrest : ((c :: t).dropWhile isNameChar).dropWhile isPySpace with
        _ | ⟨c2, t2⟩
      · rw [hrest] at h; cases h
      · rw [hrest] at h
        by_cases hc2 : c2 = cmp
        · simp only [hc2, if_true] at h
          by_cases hd : (t2.dropWhile isPySpace).takeWhile Char.isDigit ≠ [] ∧
              (t2.dropWhile isPySpace).dropWhile Char.isDigit = []
          · rw [if_pos hd] at h
            injection h with hp
            injection hp with hnm hn
            constructor
            · rw [← hnm]
              simp [List.takeWhile_cons, isNameChar_of_start c hs]
            · rw [← hn]
              unfold digitsToInt
              exact Int.natCast_nonneg _
          · rw [if_neg hd] at h; cases h
        · simp only [hc2, if_false] at h; cases h
    · simp only [hs, if_false] at h; cases h

/-- The claim's mapping of inline condition strings, written from the
spec's wording (for the refinement comparison with
`parse_condition_string`): `not NAME` to SeenCountEq(NAME, 0); `NAME > N`
to SeenCountGt(NAME, N); `NAME < N` to SeenCountLt(NAME, N); a bare `NAME`
to SeenCountGt(NAME, 0); anything else to no condition. -/
def spec_inline_condition (s : Str) : Option UnaryCondition :=
  if s = [] ∨ pyStrip s = [] then none
  else
    let cs := pyStrip s
    if "not ".toList.isPrefixOf cs then
      some (.seen_count_eq (pyStrip (cs.drop 4)) 0)
    else
      match matchNameCmpNum '>' cs with
      | some (nm, n) => some (.seen_count_gt nm n)
      | none =>
        match matchNameCmpNum '<' cs with
        | some (nm, n) => some (.seen_count_lt nm n)
        | none =>
          if isBareName cs then some (.seen_count_gt cs 0) else none

/-- C7: `parse_condition_string` never raises (the construction-time
validators always accept what it builds) and maps exactly the four
supported forms, yielding no condition on every other string. -/
theorem C7_inline_condition_mapping (s : Str) :
    parse_condition_string s = .ok (spec_inline_condition s) := by
  unfold parse_condition_string spec_inline_condition
  by_cases h0 : s = [] ∨ pyStrip s = []
  · simp only [h0, if_true]
  · simp only [h0, if_false]
    by_cases h1 : "not ".toList.isPrefixOf (pyStrip s) = true
    · simp only [h1, if_true]
      have href := notPrefixStrip s h1
      unfold mkSeenCountCondition
      simp [href, Except.map]
    · rw [Bool.not_eq_true] at h1
      simp only [h1, Bool.false_eq_true, if_false]
      rcases hgt : matchNameCmpNum '>' (pyStrip s) with _ | ⟨nm, n⟩
      · rcases hlt : matchNameCmpNum '<' (pyStrip s) with _ | ⟨nm, n⟩
        · by_cases h3 : isBareName (pyStrip s) = true
          · simp only [h3, if_true]
            have hne : pyStrip s ≠ [] := by
              intro hc; exact h0 (Or.inr hc)
            unfold mkSeenCountCondition
            simp [hne, Except.map]
          · rw [Bool.not_eq_true] at h3
            simp only [h3, Bool.false_eq_true, if_false]
        · obtain ⟨hnm, hn⟩ := matchNameCmpNum_props '<' _ _ _ hlt
          have hlt' : ¬ n < 0 := by omega
          unfold mkSeenCountCondition
          simp [hnm, hlt', Except.map]
      · obtain ⟨hnm, hn⟩ := matchNameCmpNum_props '>' _ _ _ hgt
        have hgt' : ¬ n < 0 := by omega
        unfold mkSeenCountCondition
        simp [hnm, hgt', Except.map]

/-! ## C1: auto-termination -/

/-- A key reported present by `alMember` occurs among the mapped keys. -/
theorem alMember_mem_fst [DecidableEq α] (k : α) (l : List (α × β))
    (h : alMember k l = true) : k ∈ l.map Prod.fst := by
  unfold alMember at h
  obtain ⟨p, hp, he⟩ := List.any_eq_true.mp h
  exact List.mem_map.mpr ⟨p, hp, of_decide_eq_true he⟩

/-- `_fill_auto_end_node` covering property: a non-sentinel node id from
the table is an edge source afterwards, or occurs in no edge at all. -/
theorem fill_auto_end_covers (nodes : List (Int × Node)) (E : List (Int × Int))
    (i : Int) (hmem : i ∈ nodes.map Prod.fst)
    (h1 : i ≠ -1) (h2 : i ≠ -2) (h3 : i ≠ -3) :
    (∃ t, (i, t) ∈ fill_auto_end_node nodes E) ∨
    (∀ e ∈ fill_auto_end_node nodes E, e.1 ≠ i ∧ e.2 ≠ i) := by
  unfold fill_auto_end_node
  by_cases hsrc : ∃ t, (i, t) ∈ E
  · left
    obtain ⟨t, ht⟩ := hsrc
    exact ⟨t, List.mem_append_left _ ht⟩
  · by_cases hin : i ∈ E.map Prod.snd ++ E.map Prod.fst
    · left
      refine ⟨-3, List.mem_append_right _ ?_⟩
      apply List.mem_map.mpr
      refine ⟨i, ?_, rfl⟩
      apply List.mem_filter.mpr
      constructor
      · apply List.mem_filter.mpr
        refine ⟨hmem, ?_⟩
        simp [h1, h2, h3]
      · have hnotsrc : i ∉ E.map Prod.fst := by
          intro hc
          obtain ⟨e, he, hei⟩ := List.mem_map.mp hc
          apply hsrc
          refine ⟨e.2, ?_⟩
          have : (i, e.2) = e := by
            rw [← hei]
          rwa [this]
        simp only [decide_eq_true_eq]
        exact ⟨hnotsrc, hin⟩
    · right
      intro e he
      rcases List.mem_append.mp he with heE | heX
      · constructor
        · intro hc
          exact hin (List.mem_append_right _ (List.mem_map.mpr ⟨e, heE, hc⟩))
        · intro hc
          exact hin (List.mem_append_left _ (List.mem_map.mpr ⟨e, heE, hc⟩))
      · obtain ⟨j, hj, hje⟩ := List.mem_map.mp heX
        have hj2 := (List.mem_filter.mp hj).2
        simp only [decide_eq_true_eq] at hj2
        constructor
        · intro hc
          rw [← hje] at hc
          simp only at hc
          subst hc
          exact hin hj2.2
        · intro hc
          rw [← hje] at hc
          simp only at hc
          exact h3 hc.symm

/-- Parse result (nodes, edges) of `c1_story`. -/
def c1_parsed : List (Int × Node) × List (Int × Int) :=
  match clean_lines c1_story " ".toList 1 with
  | .error _ => ([], [])
  | .ok (rs, c) =>
    match parse_story rs c with
    | some r => (r.1, r.2.1)
    | none => ([], [])

/-- C1 counterexample: in the engine built from
`"== a ==\nA\n== b ==\nB"` the content node of knot `b` (id 4) is in the
node table, has no outgoing edge after construction (in particular no
synthetic edge to AutoEnd), and is not the End or AutoEnd sentinel:
`_fill_auto_end_node` deliberately skips nodes that occur in no edge at
all, so the claimed invariant fails on such true orphans. -/
theorem C1_counterexample :
    (mkEngineFromText true c1_story).isSome = true ∧
    alMember 4 c1_engine.nodes = true ∧
    c1_engine.edges.all (fun e => e.1 != 4) = true ∧
    ((4 : Int), (-3 : Int)) ∉ c1_engine.edges ∧
    (4 : Int) ≠ -1 ∧ (4 : Int) ≠ -3 := by
  refine ⟨by decide, by decide, by decide, by decide, by decide, by decide⟩

/-- C1 (amended): after engine construction, every node id present in the
node table either has at least one outgoing edge, or is one of the three
sentinels End/Begin/AutoEnd, or is a true orphan occurring in no edge at
all; equivalently, `_fill_auto_end_node` connects to AutoEnd exactly the
non-sentinel nodes that occur in some edge but have no outgoing one. -/
theorem C1_no_dangling_or_orphan (letP : Bool) (nodes : List (Int × Node))
    (edges0 : List (Int × Int)) (i : Int)
    (hmem : alMember i nodes = true) :
    (∃ t, (i, t) ∈ (mkEngine letP nodes edges0).edges) ∨
    i = -1 ∨ i = -2 ∨ i = -3 ∨
    (∀ e ∈ (mkEngine letP nodes edges0).edges, e.1 ≠ i ∧ e.2 ≠ i) := by
  by_cases h1 : i = -1
  · exact Or.inr (Or.inl h1)
  by_cases h2 : i = -2
  · exact Or.inr (Or.inr (Or.inl h2))
  by_cases h3 : i = -3
  · exact Or.inr (Or.inr (Or.inr (Or.inl h3)))
  have hm := alMember_mem_fst i nodes hmem
  rcases fill_auto_end_covers nodes (find_start_node nodes edges0).2 i hm h1 h2 h3
    with h | h
  · exact Or.inl h
  · exact Or.inr (Or.inr (Or.inr (Or.inr h)))

/-- Witness for the amended C1 at the parsed `c1_story`. -/
theorem C1_no_dangling_or_orphan_witness :
    alMember 4 c1_parsed.1 = true ∧
    ((∃ t, ((4 : Int), t) ∈ (mkEngine true c1_parsed.1 c1_parsed.2).edges) ∨
      (4 : Int) = -1 ∨ (4 : Int) = -2 ∨ (4 : Int) = -3 ∨
      (∀ e ∈ (mkEngine true c1_parsed.1 c1_parsed.2).edges, e.1 ≠ 4 ∧ e.2 ≠ 4)) :=
  ⟨by decide, C1_no_dangling_or_orphan true c1_parsed.1 c1_parsed.2 4 (by decide)⟩

/-! ## C2: divert name resolution -/

/-- Looking up a key just inserted. -/
theorem alLookup_alInsert [DecidableEq α] (k : α) (v : β) (l : List (α × β)) :
    alLookup k (alInsert k v l) = some v := by
  induction l with
  | nil => simp [alInsert, alLookup]
  | cons p rest ih =>
    by_cases h : p.1 = k
    · simp [alInsert, h, alLookup]
    · simp [alInsert, h, alLookup, ih]

/-- An absent key has no binding. -/
theorem alLookup_none_of_not_member [DecidableEq α] (k : α) (l : List (α × β))
    (h : alMember k l = false) : alLookup k l = none := by
  induction l with
  | nil => rfl
  | cons p rest ih =>
    unfold alMember at h
    simp only [List.any_cons, Bool.or_eq_false_iff] at h
    unfold alLookup
    rw [if_neg (by simpa using h.1)]
    exact ih (by unfold alMember; exact h.2)

/-- The level-ensuring step of the `parse_base_block` loop does not change
what `node_at_level[level]` reads as (missing keys read as `[]`). -/
theorem lookupD_ensure (k : Int) (l : List (Int × List Int)) :
    alLookupD k (if alMember k l then l else alInsert k [] l) [] =
      alLookupD k l [] := by
  by_cases h : alMember k l = true
  · simp [h]
  · rw [if_neg (by simp [h])]
    unfold alLookupD
    rw [alLookup_alInsert, alLookup_none_of_not_member k l (by simpa using h)]
    rfl

/-- A knot-local name table with a stitch named `END` bound to node 3 and a
stitch `s` bound to node 5, as `RawKnot.block_name_to_id` produces for
`"== k ==\n= END\nhello\n= s\nworld\n-> END"`. -/
def c2_loc : List (Str × Int) := [("END".toList, 3), ("s".toList, 5)]

/-- The story-global name table of the same story. -/
def c2_glob : List (Str × Int) :=
  [("k".toList, 3), ("k.END".toList, 3), ("k.s".toList, 5)]

/-- The `parse_base_block` state just before such a `-> END` divert is
processed (node 5 recorded at level 0). -/
def c2_block_state : BlockState := { edges := [], node_at_level := [(0, [5])] }

/-- A `-> END` divert node of the `analink.parser.node` pipeline — the
input class whose `NodeType` members `parse_base_block`'s `is` dispatch
actually tests. -/
def c2p_divert_node : Node :=
  { item_id := 6, node_type := .p_divert, raw_content := "-> END".toList,
    level := 0, line_number := 6, name := some "END".toList }

/-- C2 counterexample, at `parse_base_block`'s own dispatch on a
parser-module divert node: with the stitch `END` bound in the knot-local
table the divert resolves to the stitch's node 3, not to the End sentinel
−1 (the sentinel is reached only once the binding is removed) — refuting
"a divert named END always resolves to id −1 regardless of the contents of
the local tables". -/
theorem C2_counterexample :
    c2p_divert_node.node_type = .p_divert ∧
    alLookup "END".toList c2_loc = some 3 ∧
    (processBlockNode c2_loc c2_glob c2_block_state (6, c2p_divert_node)).map
      (fun r => r.edges) = some [((5 : Int), (3 : Int))] ∧
    (processBlockNode [] [] c2_block_state (6, c2p_divert_node)).map
      (fun r => r.edges) = some [((5 : Int), (-1 : Int))] := by
  refine ⟨by decide, by decide, by decide, by decide⟩

/-- C2 (amended): a divert target is resolved by consulting the local
table, then the global table, then the reserved names END/BEGIN/AUTO_END
mapped to −1/−2/−3 — in particular a stitch-local name shadows a same-named
global knot, and `END` resolves to −1 exactly when neither table binds
`END`; the `parse_base_block` divert step, which fires for nodes carrying
the parser-module `DIVERT` member its `is` dispatch tests, emits one edge
from the last node recorded at the divert's level (or from BEGIN at level 0
with nothing recorded) to the resolved id, and fails on an unresolved
name. -/
theorem C2_divert_resolution (loc glob : List (Str × Int)) (nm : Str)
    (t : Int) (st : BlockState) (id : Int) (node : Node) :
    (alLookup nm loc = some t → resolveDivertName loc glob nm = some t) ∧
    (alLookup nm loc = none → alLookup nm glob = some t →
      resolveDivertName loc glob nm = some t) ∧
    (alLookup "END".toList loc = none → alLookup "END".toList glob = none →
      resolveDivertName loc glob "END".toList = some (-1)) ∧
    (alLookup "BEGIN".toList loc = none → alLookup "BEGIN".toList glob = none →
      resolveDivertName loc glob "BEGIN".toList = some (-2)) ∧
    (alLookup "AUTO_END".toList loc = none → alLookup "AUTO_END".toList glob = none →
      resolveDivertName loc glob "AUTO_END".toList = some (-3)) ∧
    (node.node_type = .p_divert →
      (∀ l p, alLookupD node.level st.node_at_level [] = l ++ [p] →
        (processBlockNode loc glob st (id, node)).map (fun r => r.edges) =
          (resolveDivertName loc glob (node.name.getD [])).map
            (fun tgt => st.edges ++ [(p, tgt)])) ∧
      (alLookupD node.level st.node_at_level [] = [] → node.level = 0 →
        (processBlockNode loc glob st (id, node)).map (fun r => r.edges) =
          (resolveDivertName loc glob (node.name.getD [])).map
            (fun tgt => st.edges ++ [(-2, tgt)])) ∧
      (alLookupD node.level st.node_at_level [] = [] → node.level ≠ 0 →
        processBlockNode loc glob st (id, node) = none)) := by
  refine ⟨?_, ?_, ?_, ?_, ?_, ?_⟩
  · intro h
    unfold resolveDivertName
    rw [h]
  · intro h1 h2
    unfold resolveDivertName
    rw [h1, h2]
  · intro h1 h2
    unfold resolveDivertName
    rw [h1, h2]
    rfl
  · intro h1 h2
    unfold resolveDivertName
    rw [h1, h2]
    rfl
  · intro h1 h2
    unfold resolveDivertName
    rw [h1, h2]
    rfl
  · intro hd
    have hbase : ¬ (node.node_type = .p_base ∨ node.node_type = .p_choice) := by
      rw [hd]; rintro (h | h) <;> cases h
    have hgather : ¬ node.node_type = .p_gather := by rw [hd]; rintro h; cases h
    refine ⟨?_, ?_, ?_⟩
    · intro l p hlp
      unfold processBlockNode
      rw [if_neg hbase, if_neg hgather, if_pos hd]
      simp only [lookupD_ensure, hlp]
      rw [if_pos (by simp : (l ++ [p] : List Int) ≠ [])]
      cases hres : resolveDivertName loc glob (node.name.getD []) with
      | none => rfl
      | some tgt =>
        simp only [Option.map_some]
        rw [List.getLastD_concat]
        rfl
    · intro hnil h0
      unfold processBlockNode
      rw [if_neg hbase, if_neg hgather, if_pos hd]
      simp only [lookupD_ensure, hnil]
      rw [if_neg (by simp : ¬ (([] : List Int) ≠ [])), if_pos h0]
      cases hres : resolveDivertName loc glob (node.name.getD []) with
      | none => rfl
      | some tgt => rfl
    · intro hnil h0
      unfold processBlockNode
      rw [if_neg hbase, if_neg hgather, if_pos hd]
      simp only [lookupD_ensure, hnil]
      rw [if_neg (by simp : ¬ (([] : List Int) ≠ [])), if_neg h0]

/-- Witness for the amended C2 at the stitch-local tables and block state
of a `-> END` divert. -/
theorem C2_divert_resolution_witness :
    alLookup "END".toList c2_loc = some 3 ∧
    resolveDivertName c2_loc c2_glob "END".toList = some 3 ∧
    alLookup "BEGIN".toList c2_loc = none ∧
    alLookup "BEGIN".toList c2_glob = none ∧
    resolveDivertName c2_loc c2_glob "BEGIN".toList = some (-2) ∧
    resolveDivertName [] [] "END".toList = some (-1) ∧
    c2p_divert_node.node_type = .p_divert ∧
    alLookupD c2p_divert_node.level c2_block_state.node_at_level [] = [] ++ [5] ∧
    (processBlockNode c2_loc c2_glob c2_block_state (6, c2p_divert_node)).map
        (fun r => r.edges)
      = (resolveDivertName c2_loc c2_glob (c2p_divert_node.name.getD [])).map
        (fun tgt => c2_block_state.edges ++ [((5 : Int), tgt)]) := by
  have h := C2_divert_resolution c2_loc c2_glob "END".toList 3 c2_block_state 6
    c2p_divert_node
  have hb := C2_divert_resolution c2_loc c2_glob "BEGIN".toList 3 c2_block_state 6
    c2p_divert_node
  have he := C2_divert_resolution ([] : List (Str × Int)) [] "END".toList 3
    c2_block_state 6 c2p_divert_node
  exact ⟨by decide, h.1 (by decide), by decide, by decide,
    hb.2.2.2.1 (by decide) (by decide), he.2.2.1 (by decide) (by decide),
    by decide, by decide, (h.2.2.2.2.2 (by decide)).1 [] 5 (by decide)⟩

/-! ## C3: gather convergence and leaf finding -/

/-- Reachability through an edge list (reflexive-transitive closure), the
notion the claim's "leaf set" is phrased in. -/
inductive ReachE (E : List (Int × Int)) : Int → Int → Prop
  | refl (x : Int) : ReachE E x x
  | tail {x y z : Int} : ReachE E x y → (y, z) ∈ E → ReachE E x z

/-- `expandStep` only appends. -/
theorem expandStep_pref (acc : List Int) (e : Int × Int) :
    acc <+: expandStep acc e := by
  unfold expandStep
  split
  · exact ⟨[e.2], rfl⟩
  · exact List.prefix_refl _

/-- A fold of `expandStep` only appends. -/
theorem foldl_expandStep_pref (E : List (Int × Int)) (S : List Int) :
    S <+: E.foldl expandStep S := by
  induction E generalizing S with
  | nil => exact List.prefix_refl _
  | cons e E' ih => exact (expandStep_pref S e).trans (ih (expandStep S e))

/-- Everything an `expandStep` fold collects over edges drawn from `E` is
reachable in `E`. -/
theorem foldl_expandStep_sound (E : List (Int × Int)) (x : Int) :
    ∀ (E' : List (Int × Int)) (S : List Int), (∀ e ∈ E', e ∈ E) →
      (∀ a ∈ S, ReachE E x a) → ∀ a ∈ E'.foldl expandStep S, ReachE E x a := by
  intro E'
  induction E' with
  | nil => intro S _ hS a ha; exact hS a ha
  | cons e E' ih =>
    intro S hE hS a ha
    refine ih (expandStep S e) (fun e' he' => hE e' (List.mem_cons_of_mem _ he'))
      ?_ a ha
    intro b hb
    unfold expandStep at hb
    split at hb
    · rcases List.mem_append.mp hb with hbS | hbe
      · exact hS b hbS
      · have hb2 : b = e.2 := List.mem_singleton.mp hbe
        rename_i hcond
        have h1 : ReachE E x e.1 := hS e.1 hcond.1
        have he : (e.1, e.2) ∈ E := by
          have := hE e (List.mem_cons_self e E')
          rwa [show (e.1, e.2) = e from rfl]
        rw [hb2]
        exact ReachE.tail h1 he
    · exact hS b hb

/-- If the source of an edge of `E'` is collected, its target is collected
after folding `expandStep` over `E'`. -/
theorem foldl_expandStep_closed :
    ∀ (E' : List (Int × Int)) (S : List Int) (a b : Int), a ∈ S →
      (a, b) ∈ E' → b ∈ E'.foldl expandStep S := by
  intro E'
  induction E' with
  | nil => intro S a b _ h; cases h
  | cons e E' ih =>
    intro S a b haS hab
    rcases List.mem_cons.mp hab with heq | h
    · have hb : b ∈ expandStep S e := by
        unfold expandStep
        by_cases hcond : e.1 ∈ S ∧ e.2 ∉ S
        · rw [if_pos hcond, ← heq]
          exact List.mem_append_right _ (List.mem_singleton.mpr rfl)
        · rw [if_neg hcond]
          rcases not_and_or.mp hcond with h1 | h2
          · exact absurd (heq ▸ haS : e.1 ∈ S) h1
          · rw [show b = e.2 from by rw [← heq]]
            exact not_not.mp h2
      exact (foldl_expandStep_pref E' (expandStep S e)).subset hb
    · exact ih (expandStep S e) a b ((expandStep_pref S e).subset haS) h

/-- `expandStep` preserves `Nodup`. -/
theorem expandStep_nodup (acc : List Int) (e : Int × Int)
    (h : acc.Nodup) : (expandStep acc e).Nodup := by
  unfold expandStep
  split
  · rename_i hcond
    simp [List.nodup_append, h, hcond.2]
  · exact h

/-- `expandStep` stays inside `x :: targets E` when the edge comes from
`E`. -/
theorem expandStep_subset (x : Int) (E : List (Int × Int)) (acc : List Int)
    (e : Int × Int) (heE : e ∈ E) (h : acc ⊆ x :: E.map Prod.snd) :
    expandStep acc e ⊆ x :: E.map Prod.snd := by
  unfold expandStep
  split
  · intro b hb
    rcases List.mem_append.mp hb with hbS | hbe
    · exact h hbS
    · rw [List.mem_singleton.mp hbe]
      exact List.mem_cons_of_mem _ (List.mem_map.mpr ⟨e, heE, rfl⟩)
  · exact h

/-- A fold of `expandStep` preserves `Nodup` and the `x :: targets E`
bound. -/
theorem foldl_expandStep_nodup_subset (x : Int) (E : List (Int × Int)) :
    ∀ (E' : List (Int × Int)) (S : List Int), (∀ e ∈ E', e ∈ E) → S.Nodup →
      S ⊆ x :: E.map Prod.snd →
      (E'.foldl expandStep S).Nodup ∧ E'.foldl expandStep S ⊆ x :: E.map Prod.snd := by
  intro E'
  induction E' with
  | nil => intro S _ h1 h2; exact ⟨h1, h2⟩
  | cons e E' ih =>
    intro S hE h1 h2
    exact ih (expandStep S e) (fun e' he' => hE e' (List.mem_cons_of_mem _ he'))
      (expandStep_nodup S e h1)
      (expandStep_subset x E S e (hE e (List.mem_cons_self e E')) h2)

/-- A `Nodup` list inside `x :: targets E` has at most `|E| + 1`
elements. -/
theorem length_le_bound (x : Int) (E : List (Int × Int)) (S : List Int)
    (h1 : S.Nodup) (h2 : S ⊆ x :: E.map Prod.snd) :
    S.length ≤ E.length + 1 := by
  have hcard : S.length = S.toFinset.card := (List.toFinset_card_of_nodup h1).symm
  have hsub : S.toFinset ⊆ (x :: E.map Prod.snd).toFinset := by
    intro a ha
    exact List.mem_toFinset.mpr (h2 (List.mem_toFinset.mp ha))
  have := Finset.card_le_card hsub
  have hb := List.toFinset_card_le (x :: E.map Prod.snd)
  simp only [List.length_cons, List.length_map] at hb
  omega

/-- A fixed point of `f` stays fixed under iteration. -/
theorem iterate_fixed {α : Type} (f : α → α) (S : α) (h : f S = S) :
    ∀ k, f^[k] S = S := by
  intro k
  induction k with
  | zero => rfl
  | succ k ih => rw [Function.iterate_succ_apply, h, ih]

/-- After enough passes, `expandOnce` reaches a fixed point: every
productive pass strictly grows a duplicate-free list bounded by
`|E| + 1`. -/
theorem expandOnce_fixpoint_aux (E : List (Int × Int)) (x : Int) :
    ∀ (k : Nat) (S : List Int), S.Nodup → S ⊆ x :: E.map Prod.snd →
      E.length + 1 ≤ S.length + k →
      expandOnce E ((expandOnce E)^[k] S) = (expandOnce E)^[k] S := by
  intro k
  induction k with
  | zero =>
    intro S h1 h2 hb
    simp only [Function.iterate_zero, id]
    have hpre : S <+: expandOnce E S := foldl_expandStep_pref E S
    by_contra hne
    have hlt : S.length < (expandOnce E S).length := by
      rcases Nat.lt_or_ge S.length (expandOnce E S).length with h | h
      · exact h
      · exact absurd ((List.IsPrefix.eq_of_length hpre
          (Nat.le_antisymm hpre.length_le h)).symm) hne
    have hns := foldl_expandStep_nodup_subset x E E S (fun e he => he) h1 h2
    have hle : (expandOnce E S).length ≤ E.length + 1 :=
      length_le_bound x E (expandOnce E S) hns.1 hns.2
    omega
  | succ k ih =>
    intro S h1 h2 hb
    by_cases hfix : expandOnce E S = S
    · rw [iterate_fixed _ _ hfix (k + 1), hfix]
    · rw [Function.iterate_succ_apply]
      have hpre : S <+: expandOnce E S := foldl_expandStep_pref E S
      have hlt : S.length < (expandOnce E S).length := by
        rcases Nat.lt_or_ge S.length (expandOnce E S).length with h | h
        · exact h
        · exact absurd ((List.IsPrefix.eq_of_length hpre
            (Nat.le_antisymm hpre.length_le h)).symm) hfix
      have hns := foldl_expandStep_nodup_subset x E E S (fun e he => he) h1 h2
      exact ih (expandOnce E S) hns.1 hns.2 (by omega)

/-- `descendantsIncl` is a fixed point of `expandOnce`. -/
theorem descendantsIncl_fix (E : List (Int × Int)) (x : Int) :
    expandOnce E (descendantsIncl E x) = descendantsIncl E x := by
  unfold descendantsIncl
  exact expandOnce_fixpoint_aux E x (E.length + 1) [x] (List.nodup_singleton x)
    (by intro a ha; rw [List.mem_singleton.mp ha]; exact List.mem_cons_self _ _)
    (by simp)

/-- Iterating `expandOnce` keeps collected elements. -/
theorem mem_iterate_expandOnce (E : List (Int × Int)) (a : Int) :
    ∀ (k : Nat) (S : List Int), a ∈ S → a ∈ (expandOnce E)^[k] S := by
  intro k
  induction k with
  | zero => intro S h; exact h
  | succ k ih =>
    intro S h
    rw [Function.iterate_succ_apply]
    exact ih (expandOnce E S) ((foldl_expandStep_pref E S).subset h)

/-- Every element collected by `k` expansion passes from `[x]` is
reachable from `x`. -/
theorem iterate_expandOnce_sound (E : List (Int × Int)) (x : Int) :
    ∀ (k : Nat) (a : Int), a ∈ (expandOnce E)^[k] [x] → ReachE E x a := by
  intro k
  induction k with
  | zero =>
    intro a ha
    rw [List.mem_singleton.mp ha]
    exact ReachE.refl x
  | succ k ih =>
    intro a ha
    rw [Function.iterate_succ_apply'] at ha
    exact foldl_expandStep_sound E x E _ (fun e he => he) ih a ha

/-- The computed descendant set is exactly the reachable set. -/
theorem mem_descendantsIncl_iff (E : List (Int × Int)) (x y : Int) :
    y ∈ descendantsIncl E x ↔ ReachE E x y := by
  constructor
  · intro h
    exact iterate_expandOnce_sound E x (E.length + 1) y h
  · intro h
    induction h with
    | refl => exact mem_iterate_expandOnce E x _ [x] (List.mem_singleton.mpr rfl)
    | tail hr he ih =>
      rw [← descendantsIncl_fix E x]
      exact foldl_expandStep_closed E _ _ _ ih he

/-- A node outside the graph has no successors. -/
theorem successors_nil_of_not_inGraph (E : List (Int × Int)) (n : Int)
    (h : inGraph E n = false) : successors E n = [] := by
  unfold successors
  have hfil : E.filter (fun e => decide (e.1 = n)) = [] := by
    rw [List.filter_eq_nil_iff]
    intro e he
    unfold inGraph at h
    have := List.any_eq_false.mp h e he
    simp only [decide_eq_true_eq] at this ⊢
    intro hc
    exact this (Or.inl hc)
  rw [hfil]
  rfl

/-- From a node outside the graph nothing but itself is reachable. -/
theorem reach_eq_of_not_inGraph (E : List (Int × Int)) (n y : Int)
    (h : inGraph E n = false) (hr : ReachE E n y) : y = n := by
  induction hr with
  | refl => rfl
  | tail h1 h2 ih =>
    subst ih
    unfold inGraph at h
    have := List.any_eq_false.mp h _ h2
    simp at this

/-- `find_leaves_from_node` returns exactly the nodes reachable from the
start (including itself) that have no outgoing edge. -/
theorem find_leaves_iff (E : List (Int × Int)) (x y : Int) :
    y ∈ find_leaves_from_node x E ↔ ReachE E x y ∧ successors E y = [] := by
  unfold find_leaves_from_node
  by_cases hg : inGraph E x = true
  · rw [if_neg (by simp [hg])]
    rw [List.mem_filter, mem_descendantsIncl_iff]
    simp only [decide_eq_true_eq]
  · have hg' : inGraph E x = false := by simpa using hg
    rw [if_pos (by simp [hg'])]
    simp only [List.mem_singleton]
    constructor
    · rintro rfl
      exact ⟨ReachE.refl y, successors_nil_of_not_inGraph E y hg'⟩
    · rintro ⟨hr, _⟩
      exact reach_eq_of_not_inGraph E x y hg' hr

/-- When the `parse_base_block` loop processes a parser-module Gather node
(the only kind its `is` dispatch matches) and succeeds, the new edge list
is the old one extended, for every node recorded at the gather's level in
order, with one edge into the gather from each leaf of that node computed
against the edges accumulated so far. -/
theorem gather_step_edges (loc glob : List (Str × Int)) (st : BlockState)
    (p : Int × Node) (st' : BlockState)
    (hg : p.2.node_type = .p_gather)
    (h : processBlockNode loc glob st p = some st') :
    st'.edges = (alLookupD p.2.level st.node_at_level []).foldl
      (fun es lid => es ++ (find_leaves_from_node lid es).map
        (fun leaf => (leaf, p.1))) st.edges := by
  unfold processBlockNode at h
  rw [if_neg (by rw [hg]; rintro (hc | hc) <;> cases hc), if_pos hg] at h
  by_cases hm : alMember p.2.level st.node_at_level = true
  · rw [if_pos hm] at h
    simp only at h
    split at h
    · split at h
      · cases h
      · cases h
        rfl
    · cases h
      rfl
  · rw [if_neg hm] at h
    have hcur : alLookupD p.2.level (alInsert p.2.level [] st.node_at_level) []
        = alLookupD p.2.level st.node_at_level [] := by
      have hle := lookupD_ensure p.2.level st.node_at_level
      rwa [if_neg hm] at hle
    simp only at h
    rw [hcur] at h
    split at h
    · split at h
      · cases h
      · cases h
        rfl
    · cases h
      rfl

/-- The Gather node of `c3_story`. -/
def c3_gather_node : Node := (alLookup 3 c3_parsed.1).getD (Node.end_node 0).1

/-- The `parse_base_block` state just before the gather of `c3_story` is
processed (choice nodes 1 and 2 recorded at level 1, no edges yet). -/
def c3_block_state : BlockState := { edges := [], node_at_level := [(1, [1, 2])] }

/-- C3 (code bug): the claimed gather convergence never happens in the
program.  `parse_base_block`'s dispatch compares `node.node_type is
NodeType.BASE/CHOICE/GATHER/DIVERT` against `analink.parser.node.NodeType`,
while every node of the engine's `clean_lines` pipeline carries
`analink.core.models.NodeType`; members of distinct Enum classes are never
identical, so no branch fires: a pipeline-typed node leaves the
accumulated edges untouched, and for the claim's own story
`"* A\n* B\n- C"` the built edge list is empty — in particular it contains
neither of the claimed edges `(1,3)` and `(2,3)`. -/
theorem C3_gather_convergence_unmet :
    (∀ (loc glob : List (Str × Int)) (st : BlockState) (k : Int) (n : Node),
      n.node_type = .base ∨ n.node_type = .choice ∨ n.node_type = .gather ∨
        n.node_type = .divert →
      ∃ nal, processBlockNode loc glob st (k, n) =
        some { edges := st.edges, node_at_level := nal }) ∧
    c3_parsed.1.map Prod.fst = [1, 2, 3, -1, -2, -3] ∧
    c3_parsed.2 = [] ∧
    ((1 : Int), (3 : Int)) ∉ c3_parsed.2 ∧
    ((2 : Int), (3 : Int)) ∉ c3_parsed.2 := by
  refine ⟨?_, by decide, by decide, by decide, by decide⟩
  intro loc glob st k n hn
  unfold processBlockNode
  have h1 : ¬ (n.node_type = NodeType.p_base ∨ n.node_type = NodeType.p_choice) := by
    rcases hn with h | h | h | h <;> rw [h] <;> rintro (hc | hc) <;> cases hc
  have h2 : ¬ n.node_type = NodeType.p_gather := by
    rcases hn with h | h | h | h <;> rw [h] <;> intro hc <;> cases hc
  have h3 : ¬ n.node_type = NodeType.p_divert := by
    rcases hn with h | h | h | h <;> rw [h] <;> intro hc <;> cases hc
  rw [if_neg h1, if_neg h2, if_neg h3]
  exact ⟨_, rfl⟩

/-- Witness for C3 at the very gather step the claim describes: processing
the core-typed gather node 3 of `"* A\n* B\n- C"` against the recorded
level-1 choices adds no edge at all. -/
theorem C3_gather_convergence_unmet_witness :
    ∃ nal, processBlockNode [] [] c3_block_state (3, c3_gather_node) =
      some { edges := c3_block_state.edges, node_at_level := nal } :=
  C3_gather_convergence_unmet.1 [] [] c3_block_state 3 c3_gather_node
    (by decide)

/-! ## C4: sticky versus one-shot choices -/

/-- Lookup at a different key is unaffected by `alInsert`. -/
theorem alLookup_alInsert_ne [DecidableEq α] (k k' : α) (v : β)
    (l : List (α × β)) (h : k' ≠ k) :
    alLookup k' (alInsert k v l) = alLookup k' l := by
  induction l with
  | nil => simp [alInsert, alLookup, Ne.symm h]
  | cons p rest ih =>
    by_cases hp : p.1 = k
    · unfold alInsert
      rw [if_pos hp]
      unfold alLookup
      rw [if_neg (Ne.symm h), if_neg (by rw [hp]; exact Ne.symm h)]
    · unfold alInsert
      rw [if_neg hp]
      unfold alLookup
      by_cases hp' : p.1 = k'
      · rw [if_pos hp', if_pos hp']
      · rw [if_neg hp', if_neg hp']
        exact ih

/-- The per-node data that the availability logic reads and that the engine
never rewrites (`choice_order` is the only field the choice loop
mutates). -/
def nodeCore (n : Node) : Int × NodeType × Bool × Bool × Option Condition :=
  (n.item_id, n.node_type, n.is_sticky, n.is_fallback, n.condition)

/-- Two node tables agreeing on `nodeCore` at every key. -/
def coreEq (t1 t2 : List (Int × Node)) : Prop :=
  ∀ c, (alLookup c t1).map nodeCore = (alLookup c t2).map nodeCore

/-- `coreEq` is reflexive. -/
theorem coreEq_refl (t : List (Int × Node)) : coreEq t t := fun _ => rfl

/-- `coreEq` is transitive. -/
theorem coreEq_trans {t1 t2 t3 : List (Int × Node)} (h1 : coreEq t1 t2)
    (h2 : coreEq t2 t3) : coreEq t1 t3 := fun c => (h1 c).trans (h2 c)

/-- `orderAssign` does not change the availability-relevant fields. -/
theorem nodeCore_orderAssign (n : Node) (ord : Int) :
    nodeCore (orderAssign n ord) = nodeCore n := by
  unfold orderAssign
  split <;> rfl

/-- Re-inserting a core-equal node at its own key preserves `coreEq`. -/
theorem coreEq_alInsert_of_lookup (tbl : List (Int × Node)) (nid : Int)
    (n m : Node) (hl : alLookup nid tbl = some n)
    (hm : nodeCore m = nodeCore n) : coreEq (alInsert nid m tbl) tbl := by
  intro c
  by_cases hc : c = nid
  · subst hc
    rw [alLookup_alInsert, hl]
    show some (nodeCore m) = some (nodeCore n)
    rw [hm]
  · rw [alLookup_alInsert_ne _ _ _ _ hc]

/-- Unfolding equation of `choiceStep` when the id is bound in the
table. -/
theorem choiceStep_eq_some (s : EngineState)
    (acc : List Node × List Node × Int × List (Int × Node)) (nid : Int)
    (n : Node) (hl : alLookup nid acc.2.2.2 = some n) :
    choiceStep s acc nid =
      if n.node_type = .choice then
        if n.is_sticky || ¬ alMember nid s.node_visited then
          if (orderAssign n acc.2.2.1).is_fallback then
            (acc.1, acc.2.1 ++ [orderAssign n acc.2.2.1], acc.2.2.1 + 1,
              alInsert nid (orderAssign n acc.2.2.1) acc.2.2.2)
          else if ¬ evaluate_condition s (orderAssign n acc.2.2.1).condition then
            (acc.1, acc.2.1, acc.2.2.1 + 1,
              alInsert nid (orderAssign n acc.2.2.1) acc.2.2.2)
          else
            (acc.1 ++ [orderAssign n acc.2.2.1], acc.2.1, acc.2.2.1 + 1,
              alInsert nid (orderAssign n acc.2.2.1) acc.2.2.2)
        else (acc.1, acc.2.1, acc.2.2.1 + 1, acc.2.2.2)
      else acc := by
  unfold choiceStep
  rw [hl]

/-- Unfolding equation of `choiceStep` when the id is unbound. -/
theorem choiceStep_eq_none (s : EngineState)
    (acc : List Node × List Node × Int × List (Int × Node)) (nid : Int)
    (hl : alLookup nid acc.2.2.2 = none) : choiceStep s acc nid = acc := by
  unfold choiceStep
  rw [hl]

/-- A `choiceStep` only rewrites `choice_order` in the node table. -/
theorem choiceStep_coreEq (s : EngineState)
    (acc : List Node × List Node × Int × List (Int × Node)) (nid : Int) :
    coreEq (choiceStep s acc nid).2.2.2 acc.2.2.2 := by
  cases hl : alLookup nid acc.2.2.2 with
  | none => rw [choiceStep_eq_none s acc nid hl]; exact coreEq_refl _
  | some n =>
    rw [choiceStep_eq_some s acc nid n hl]
    have hm := nodeCore_orderAssign n acc.2.2.1
    split
    · split
      · split
        · exact coreEq_alInsert_of_lookup _ _ _ _ hl hm
        · split
          · exact coreEq_alInsert_of_lookup _ _ _ _ hl hm
          · exact coreEq_alInsert_of_lookup _ _ _ _ hl hm
      · exact coreEq_refl _
    · exact coreEq_refl _

/-- The whole `_get_choice_nodes` fold only rewrites `choice_order`. -/
theorem foldl_choiceStep_coreEq (s : EngineState) :
    ∀ (ids : List Int) (acc : List Node × List Node × Int × List (Int × Node)),
      coreEq (ids.foldl (choiceStep s) acc).2.2.2 acc.2.2.2 := by
  intro ids
  induction ids with
  | nil => intro acc; exact coreEq_refl _
  | cons nid ids ih =>
    intro acc
    exact coreEq_trans (ih (choiceStep s acc nid)) (choiceStep_coreEq s acc nid)

/-- A node collected by one `choiceStep` either was already collected or
shares its `nodeCore` with the table entry of the processed id. -/
theorem choiceStep_results (s : EngineState)
    (acc : List Node × List Node × Int × List (Int × Node)) (nid : Int)
    (nd : Node)
    (h : nd ∈ (choiceStep s acc nid).1 ∨ nd ∈ (choiceStep s acc nid).2.1) :
    (nd ∈ acc.1 ∨ nd ∈ acc.2.1) ∨
      (alLookup nid acc.2.2.2).map nodeCore = some (nodeCore nd) := by
  cases hl : alLookup nid acc.2.2.2 with
  | none => rw [choiceStep_eq_none s acc nid hl] at h; exact Or.inl h
  | some n =>
    rw [choiceStep_eq_some s acc nid n hl] at h
    have hcase : Option.map nodeCore (some n)
        = some (nodeCore (orderAssign n acc.2.2.1)) := by
      rw [nodeCore_orderAssign]
      rfl
    split at h
    · split at h
      · split at h
        · rcases h with h1 | h2
          · exact Or.inl (Or.inl h1)
          · rcases List.mem_append.mp h2 with h2a | h2b
            · exact Or.inl (Or.inr h2a)
            · rw [List.mem_singleton.mp h2b]
              exact Or.inr hcase
        · split at h
          · exact Or.inl h
          · rcases h with h1 | h2
            · rcases List.mem_append.mp h1 with h1a | h1b
              · exact Or.inl (Or.inl h1a)
              · rw [List.mem_singleton.mp h1b]
                exact Or.inr hcase
            · exact Or.inl (Or.inr h2)
      · exact Or.inl h
    · exact Or.inl h

/-- Result lists of a `choiceStep` fold: a collected node either was
already in the accumulator or shares its `nodeCore` with the table entry of
one of the processed ids. -/
theorem foldl_choiceStep_results (s : EngineState) :
    ∀ (ids : List Int) (acc : List Node × List Node × Int × List (Int × Node))
      (tbl0 : List (Int × Node)), coreEq acc.2.2.2 tbl0 →
      ∀ nd, (nd ∈ (ids.foldl (choiceStep s) acc).1 ∨
             nd ∈ (ids.foldl (choiceStep s) acc).2.1) →
        (nd ∈ acc.1 ∨ nd ∈ acc.2.1) ∨
        ∃ k ∈ ids, (alLookup k tbl0).map nodeCore = some (nodeCore nd) := by
  intro ids
  induction ids with
  | nil => intro acc tbl0 _ nd h; exact Or.inl h
  | cons nid ids ih =>
    intro acc tbl0 hcore nd h
    have hstep := ih (choiceStep s acc nid) tbl0
      (coreEq_trans (choiceStep_coreEq s acc nid) hcore) nd h
    rcases hstep with hacc | ⟨k, hk, hkc⟩
    · rcases choiceStep_results s acc nid nd hacc with h1 | h2
      · exact Or.inl h1
      · exact Or.inr ⟨nid, List.mem_cons_self _ _, by rw [← hcore nid]; exact h2⟩
    · exact Or.inr ⟨k, List.mem_cons_of_mem _ hk, hkc⟩

/-! ## C4: frame lemmas for the engine loop -/

/-- The `item_id` component of `nodeCore`. -/
theorem nodeCore_item_id {m n : Node} (h : nodeCore m = nodeCore n) :
    m.item_id = n.item_id := congrArg Prod.fst h

/-- The `node_type` component of `nodeCore`. -/
theorem nodeCore_node_type {m n : Node} (h : nodeCore m = nodeCore n) :
    m.node_type = n.node_type := congrArg (fun p => p.2.1) h

/-- The `is_sticky` component of `nodeCore`. -/
theorem nodeCore_is_sticky {m n : Node} (h : nodeCore m = nodeCore n) :
    m.is_sticky = n.is_sticky := congrArg (fun p => p.2.2.1) h

/-- The `is_fallback` component of `nodeCore`. -/
theorem nodeCore_is_fallback {m n : Node} (h : nodeCore m = nodeCore n) :
    m.is_fallback = n.is_fallback := congrArg (fun p => p.2.2.2.1) h

/-- The `condition` component of `nodeCore`. -/
theorem nodeCore_condition {m n : Node} (h : nodeCore m = nodeCore n) :
    m.condition = n.condition := congrArg (fun p => p.2.2.2.2) h

/-- Every key bound in `t` is bound, with the same `nodeCore`, in a
core-equal table. -/
theorem coreEq_lookup {t t' : List (Int × Node)} (hc : coreEq t t') (k : Int)
    (n : Node) (hl : alLookup k t = some n) :
    ∃ m, alLookup k t' = some m ∧ nodeCore m = nodeCore n := by
  have h := hc k
  rw [hl] at h
  cases hl' : alLookup k t' with
  | none => rw [hl'] at h; simp [Option.map] at h
  | some m =>
    rw [hl'] at h
    exact ⟨m, rfl, (Option.some.inj h).symm⟩

/-- The node table binds every choice node at its own `item_id` (the
Python dict is `{node.item_id: node for ...}` for the parsed story nodes;
only the reserved sentinel keys −1/−2/−3 hold nodes whose own counter id
differs, and those are never choice-typed). -/
def tableCoherent (t : List (Int × Node)) : Prop :=
  ∀ k n, alLookup k t = some n → n.node_type = .choice → n.item_id = k

/-- Coherence transfers along `coreEq` (item ids and node types are part of
the core). -/
theorem tableCoherent_of_coreEq {t t' : List (Int × Node)} (hc : coreEq t t')
    (h : tableCoherent t') : tableCoherent t := by
  intro k n hl htype
  obtain ⟨m, hm, hcm⟩ := coreEq_lookup hc k n hl
  exact (nodeCore_item_id hcm).symm.trans
    (h k m hm ((nodeCore_node_type hcm).trans htype))

/-- Writing at a key that is already present keeps the key list. -/
theorem alInsert_keys_of_member [DecidableEq α] (k : α) (v : β) :
    ∀ l : List (α × β), (alLookup k l).isSome →
      (alInsert k v l).map Prod.fst = l.map Prod.fst := by
  intro l
  induction l with
  | nil => intro h; simp [alLookup] at h
  | cons p rest ih =>
    intro h
    by_cases hp : p.1 = k
    · unfold alInsert
      rw [if_pos hp]
      simp [hp]
    · unfold alInsert
      rw [if_neg hp]
      unfold alLookup at h
      rw [if_neg hp] at h
      simp only [List.map_cons]
      rw [ih h]

/-- A `choiceStep` keeps the node table's key list. -/
theorem choiceStep_keys (s : EngineState)
    (acc : List Node × List Node × Int × List (Int × Node)) (nid : Int) :
    (choiceStep s acc nid).2.2.2.map Prod.fst = acc.2.2.2.map Prod.fst := by
  cases hl : alLookup nid acc.2.2.2 with
  | none => rw [choiceStep_eq_none s acc nid hl]
  | some n =>
    rw [choiceStep_eq_some s acc nid n hl]
    have hk : ∀ m : Node, (alInsert nid m acc.2.2.2).map Prod.fst =
        acc.2.2.2.map Prod.fst :=
      fun m => alInsert_keys_of_member nid m acc.2.2.2 (by rw [hl]; rfl)
    split
    · split
      · split
        · exact hk _
        · split
          · exact hk _
          · exact hk _
      · rfl
    · rfl

/-- The `_get_choice_nodes` fold keeps the node table's key list. -/
theorem foldl_choiceStep_keys (s : EngineState) :
    ∀ (ids : List Int) (acc : List Node × List Node × Int × List (Int × Node)),
      (ids.foldl (choiceStep s) acc).2.2.2.map Prod.fst =
        acc.2.2.2.map Prod.fst := by
  intro ids
  induction ids with
  | nil => intro acc; rfl
  | cons nid ids ih =>
    intro acc
    exact (ih (choiceStep s acc nid)).trans (choiceStep_keys s acc nid)

/-- `_get_choice_nodes` returns a table with the same key list. -/
theorem get_choice_nodes_keys (s : EngineState) (ids : List Int) :
    (get_choice_nodes s ids).2.map Prod.fst = s.nodes.map Prod.fst :=
  foldl_choiceStep_keys s ids ([], [], 1, s.nodes)

/-- `_get_choice_nodes` only rewrites `choice_order`s in the table. -/
theorem get_choice_nodes_coreEq (s : EngineState) (ids : List Int) :
    coreEq (get_choice_nodes s ids).2 s.nodes :=
  foldl_choiceStep_coreEq s ids ([], [], 1, s.nodes)

/-- The engine-state components that one traversal step never changes
except for `choice_order` rewrites inside the node table: the one-shot
flags, the live edge list, the graph snapshot, the advance-mode flag, and
the node table's keys and cores. -/
def stepFrame (s' s : EngineState) : Prop :=
  s'.node_can_be_visited_again = s.node_can_be_visited_again ∧
  s'.edges = s.edges ∧ s'.graph = s.graph ∧
  s'.let_people_choose_one_choice = s.let_people_choose_one_choice ∧
  s'.nodes.map Prod.fst = s.nodes.map Prod.fst ∧
  coreEq s'.nodes s.nodes

/-- `stepFrame` is reflexive. -/
theorem stepFrame_refl (s : EngineState) : stepFrame s s :=
  ⟨rfl, rfl, rfl, rfl, rfl, coreEq_refl _⟩

/-- `stepFrame` is transitive. -/
theorem stepFrame_trans {s1 s2 s3 : EngineState} (h1 : stepFrame s1 s2)
    (h2 : stepFrame s2 s3) : stepFrame s1 s3 :=
  ⟨h1.1.trans h2.1, h1.2.1.trans h2.2.1, h1.2.2.1.trans h2.2.2.1,
   h1.2.2.2.1.trans h2.2.2.2.1, h1.2.2.2.2.1.trans h2.2.2.2.2.1,
   coreEq_trans h1.2.2.2.2.2 h2.2.2.2.2.2⟩

/-- A state agreeing with `s` on all five underlying fields is in the step
frame of `s`. -/
theorem stepFrame_mk (s' s : EngineState)
    (h1 : s'.node_can_be_visited_again = s.node_can_be_visited_again)
    (h2 : s'.edges = s.edges) (h3 : s'.graph = s.graph)
    (h4 : s'.let_people_choose_one_choice = s.let_people_choose_one_choice)
    (h5 : s'.nodes = s.nodes) : stepFrame s' s := by
  refine ⟨h1, h2, h3, h4, ?_, ?_⟩
  · rw [h5]
  · rw [h5]
    exact coreEq_refl _

/-- `_update_container_states_for_node` only rewrites `container_states`. -/
theorem update_cs_shape (s : EngineState) (nid : Int) :
    ∃ cs, update_container_states_for_node s nid =
      { s with container_states := cs } := by
  unfold update_container_states_for_node
  split
  · exact ⟨s.container_states, rfl⟩
  · exact ⟨_, rfl⟩

/-- The loop-head bookkeeping only rewrites `node_visited` and
`container_states`. -/
theorem visit_current_shape (s : EngineState) :
    ∃ nv cs, visit_current s =
      { s with node_visited := nv, container_states := cs } := by
  obtain ⟨cs, h⟩ := update_cs_shape { s with node_visited := alInsert s.current_node_id ((alLookupD s.current_node_id s.node_visited 0) + 1) s.node_visited } s.current_node_id
  exact ⟨_, cs, h⟩

/-- Projections of `visit_current`. -/
theorem visit_current_fields (s : EngineState) :
    (visit_current s).node_can_be_visited_again = s.node_can_be_visited_again ∧
    (visit_current s).edges = s.edges ∧ (visit_current s).graph = s.graph ∧
    (visit_current s).let_people_choose_one_choice =
      s.let_people_choose_one_choice ∧
    (visit_current s).nodes = s.nodes ∧
    (visit_current s).current_node_id = s.current_node_id ∧
    (visit_current s).is_story_complete = s.is_story_complete := by
  obtain ⟨nv, cs, h⟩ := visit_current_shape s
  rw [h]
  exact ⟨rfl, rfl, rfl, rfl, rfl, rfl, rfl⟩

/-- `visit_current` is in the step frame. -/
theorem visit_current_stepFrame (s : EngineState) :
    stepFrame (visit_current s) s := by
  obtain ⟨h1, h2, h3, h4, h5, _, _⟩ := visit_current_fields s
  exact stepFrame_mk _ _ h1 h2 h3 h4 h5

/-- `advance_content` only appends to the history. -/
theorem advance_content_shape (s : EngineState) (nn : Node) :
    ∃ hh, advance_content s nn = { s with story_history := hh } := by
  unfold advance_content
  split
  · exact ⟨_, rfl⟩
  · split
    · exact ⟨_, rfl⟩
    · split
      · exact ⟨_, rfl⟩
      · exact ⟨s.story_history, rfl⟩

/-- A successful `follow_finish` only appends to the history and raises the
completion flag. -/
theorem follow_finish_shape (s2 s' : EngineState)
    (h : follow_finish s2 = some s') :
    ∃ hh, s' = { s2 with story_history := hh, is_story_complete := true } := by
  unfold follow_finish at h
  split at h
  · split at h
    · exact ⟨_, (Option.some.inj h).symm⟩
    · split at h
      · exact ⟨_, (Option.some.inj h).symm⟩
      · cases h
  · cases h

/-- Either outcome of `follow_move` is in the step frame of the state
entering it. -/
theorem follow_move_frame (s2 : EngineState) (nexts : List Int) (nid : Int)
    (r : EngineState ⊕ EngineState) (h : follow_move s2 nexts nid = some r) :
    stepFrame (r.elim id id) s2 := by
  unfold follow_move at h
  split at h
  · rename_i nn heq
    have hr := Option.some.inj h
    subst hr
    obtain ⟨hh, he⟩ := advance_content_shape
      { s2 with nodes := (get_choice_nodes s2 nexts).2,
                current_node_id := nid } nn
    show stepFrame (advance_content _ nn) s2
    rw [he]
    exact ⟨rfl, rfl, rfl, rfl, get_choice_nodes_keys s2 nexts,
      get_choice_nodes_coreEq s2 nexts⟩
  · have hr := Option.some.inj h
    subst hr
    exact ⟨rfl, rfl, rfl, rfl, get_choice_nodes_keys s2 nexts,
      get_choice_nodes_coreEq s2 nexts⟩

/-- Either outcome of `follow_branch` is in the step frame of the state
entering it. -/
theorem follow_branch_frame (s2 : EngineState) (nexts : List Int)
    (r : EngineState ⊕ EngineState) (h : follow_branch s2 nexts = some r) :
    stepFrame (r.elim id id) s2 := by
  unfold follow_branch at h
  split at h
  · have hr := Option.some.inj h
    subst hr
    exact ⟨rfl, rfl, rfl, rfl, get_choice_nodes_keys s2 nexts,
      get_choice_nodes_coreEq s2 nexts⟩
  · exact follow_move_frame s2 nexts _ r h

/-- Either outcome of one `_follow_story_path` iteration is in the step
frame of the state entering the iteration. -/
theorem follow_iter_frame (s : EngineState) (r : EngineState ⊕ EngineState)
    (h : follow_iter s = some r) : stepFrame (r.elim id id) s := by
  unfold follow_iter at h
  split at h
  · cases hf : follow_finish (visit_current s) with
    | none => rw [hf] at h; cases h
    | some t =>
      rw [hf] at h
      have hr : Sum.inl t = r := Option.some.inj h
      obtain ⟨hh, ht⟩ := follow_finish_shape _ t hf
      subst hr
      show stepFrame t s
      rw [ht]
      exact stepFrame_trans (stepFrame_mk _ _ rfl rfl rfl rfl rfl)
        (visit_current_stepFrame s)
  · exact stepFrame_trans (follow_branch_frame _ _ r h)
      (visit_current_stepFrame s)

/-- Unfolding equation of `_follow_story_path` at positive fuel. -/
theorem follow_story_path_eq (fuel : Nat) (s : EngineState) :
    follow_story_path (fuel + 1) s =
      match follow_iter s with
      | none => none
      | some (Sum.inl s3) => some s3
      | some (Sum.inr s5) => follow_story_path fuel s5 := rfl

/-- The whole advance loop is in the step frame: it never touches the
one-shot flags, the edges, the graph, or the advance-mode flag, and only
rewrites `choice_order`s in the node table. -/
theorem follow_story_path_frame :
    ∀ (fuel : Nat) (s s' : EngineState),
      follow_story_path fuel s = some s' → stepFrame s' s := by
  intro fuel
  induction fuel with
  | zero =>
    intro s s' h
    cases h
  | succ fuel ih =>
    intro s s' h
    rw [follow_story_path_eq] at h
    cases hit : follow_iter s with
    | none => rw [hit] at h; cases h
    | some r =>
      rw [hit] at h
      cases r with
      | inl s3 =>
        have h3 : s3 = s' := Option.some.inj h
        subst h3
        exact follow_iter_frame s (Sum.inl s3) hit
      | inr s5 =>
        exact stepFrame_trans (ih s5 s' h) (follow_iter_frame s (Sum.inr s5) hit)

/-- The state returned by `get_available_choices` is either `s` itself or
`s` with the choice-order-updated table. -/
theorem gac_state_shape (s : EngineState) :
    (get_available_choices s).2 = s ∨
    (get_available_choices s).2 =
      { s with nodes :=
          (get_choice_nodes s (get_next_nodes s s.current_node_id)).2 } := by
  unfold get_available_choices
  split
  · exact Or.inl rfl
  · exact Or.inr rfl

/-- `get_available_choices` is in the step frame. -/
theorem gac_frame (s : EngineState) :
    stepFrame (get_available_choices s).2 s := by
  rcases gac_state_shape s with h | h <;> rw [h]
  · exact stepFrame_refl s
  · exact ⟨rfl, rfl, rfl, rfl, get_choice_nodes_keys s _,
      get_choice_nodes_coreEq s _⟩

/-- `coreEq` is symmetric. -/
theorem coreEq_symm {t t' : List (Int × Node)} (h : coreEq t t') :
    coreEq t' t := fun c => (h c).symm

/-- Ids returned by `_get_next_nodes` all carry a `True` (or absent)
`node_can_be_visited_again` flag. -/
theorem get_next_nodes_flag (s : EngineState) (nid k : Int)
    (h : k ∈ get_next_nodes s nid) :
    alLookupD k s.node_can_be_visited_again true = true := by
  unfold get_next_nodes at h
  split at h
  · exact (List.mem_filter.mp h).2
  · cases h

/-- A graph successor whose flag is not `False` is returned by
`_get_next_nodes`. -/
theorem get_next_nodes_mem (s : EngineState) (nid c : Int)
    (hg : inGraph s.graph nid = true)
    (hs : c ∈ successors s.graph nid)
    (hf : alLookupD c s.node_can_be_visited_again true = true) :
    c ∈ get_next_nodes s nid := by
  unfold get_next_nodes
  rw [if_pos hg]
  exact List.mem_filter.mpr ⟨hs, hf⟩

/-- Elements collected by one `choiceStep` are choice nodes (given the
accumulator only holds choice nodes). -/
theorem choiceStep_results_choice (s : EngineState)
    (acc : List Node × List Node × Int × List (Int × Node)) (nid : Int)
    (nd : Node)
    (hall : ∀ x : Node, x ∈ acc.1 ∨ x ∈ acc.2.1 → x.node_type = .choice)
    (h : nd ∈ (choiceStep s acc nid).1 ∨ nd ∈ (choiceStep s acc nid).2.1) :
    nd.node_type = .choice := by
  cases hl : alLookup nid acc.2.2.2 with
  | none => rw [choiceStep_eq_none s acc nid hl] at h; exact hall nd h
  | some n =>
    rw [choiceStep_eq_some s acc nid n hl] at h
    have hcore := nodeCore_orderAssign n acc.2.2.1
    split at h
    · rename_i htype
      split at h
      · split at h
        · rcases h with h | h
          · exact hall nd (Or.inl h)
          · rcases List.mem_append.mp h with h | h
            · exact hall nd (Or.inr h)
            · rw [List.mem_singleton.mp h]
              exact (nodeCore_node_type hcore).trans htype
        · split at h
          · exact hall nd h
          · rcases h with h | h
            · rcases List.mem_append.mp h with h | h
              · exact hall nd (Or.inl h)
              · rw [List.mem_singleton.mp h]
                exact (nodeCore_node_type hcore).trans htype
            · exact hall nd (Or.inr h)
      · exact hall nd h
    · exact hall nd h

/-- All elements collected by the `_get_choice_nodes` fold are choice
nodes. -/
theorem foldl_choiceStep_results_choice (s : EngineState) :
    ∀ (ids : List Int) (acc : List Node × List Node × Int × List (Int × Node)),
      (∀ x : Node, x ∈ acc.1 ∨ x ∈ acc.2.1 → x.node_type = .choice) →
      ∀ nd : Node, nd ∈ (ids.foldl (choiceStep s) acc).1 ∨
        nd ∈ (ids.foldl (choiceStep s) acc).2.1 → nd.node_type = .choice := by
  intro ids
  induction ids with
  | nil => intro acc hall nd h; exact hall nd h
  | cons nid ids ih =>
    intro acc hall nd h
    exact ih (choiceStep s acc nid)
      (fun x hx => choiceStep_results_choice s acc nid x hall hx) nd h

/-- In a coherent engine, an id whose `node_can_be_visited_again` flag is
`False` is never offered by `get_available_choices`. -/
theorem gac_not_available (s : EngineState) (c : Int)
    (hcoh : tableCoherent s.nodes)
    (hf : alLookupD c s.node_can_be_visited_again true = false) :
    c ∉ (get_available_choices s).1.map (fun nd => nd.item_id) := by
  intro hmem
  obtain ⟨nd, hnd, hid⟩ := List.mem_map.mp hmem
  have hnd2 : nd ∈ (get_choice_nodes s (get_next_nodes s s.current_node_id)).1 := by
    unfold get_available_choices at hnd
    split at hnd
    · exact absurd hnd (List.not_mem_nil nd)
    · exact hnd
  have hor : nd ∈ (get_choice_nodes_go s (get_next_nodes s s.current_node_id)).1 ∨
      nd ∈ (get_choice_nodes_go s (get_next_nodes s s.current_node_id)).2.1 := by
    change nd ∈ (if (get_choice_nodes_go s (get_next_nodes s s.current_node_id)).1 ≠ [] then (get_choice_nodes_go s (get_next_nodes s s.current_node_id)).1 else (get_choice_nodes_go s (get_next_nodes s s.current_node_id)).2.1) at hnd2
    split at hnd2
    · exact Or.inl hnd2
    · exact Or.inr hnd2
  have hres := foldl_choiceStep_results s (get_next_nodes s s.current_node_id)
    ([], [], 1, s.nodes) s.nodes (coreEq_refl _) nd hor
  rcases hres with (h0 | h0) | ⟨k, hk, hkc⟩
  · exact absurd h0 (List.not_mem_nil nd)
  · exact absurd h0 (List.not_mem_nil nd)
  · cases hl : alLookup k s.nodes with
    | none => rw [hl] at hkc; cases hkc
    | some m =>
      rw [hl] at hkc
      have hm : nodeCore m = nodeCore nd := Option.some.inj hkc
      have hndtype : nd.node_type = NodeType.choice :=
        foldl_choiceStep_results_choice s (get_next_nodes s s.current_node_id)
          ([], [], 1, s.nodes)
          (fun x hx => by
            rcases hx with hx | hx <;> exact absurd hx (List.not_mem_nil x))
          nd hor
      have hmtype : m.node_type = NodeType.choice :=
        (nodeCore_node_type hm).trans hndtype
      have hkc2 : k = c := by
        rw [← hcoh k m hl hmtype, nodeCore_item_id hm]
        exact hid
      rw [hkc2] at hk
      have htrue := get_next_nodes_flag s s.current_node_id c hk
      rw [htrue] at hf
      cases hf

/-- An id offered by `get_available_choices` of a coherent engine is the
key of a choice row of the original table, and the updated table's row at
that key is core-equal to it. -/
theorem gac_mem_core (s : EngineState) (cid : Int)
    (hcoh : tableCoherent s.nodes)
    (hmem : cid ∈ (get_available_choices s).1.map (fun nd => nd.item_id)) :
    ∃ m, alLookup cid s.nodes = some m ∧ m.item_id = cid ∧
      m.node_type = .choice ∧
      ∀ cn, alLookup cid (get_available_choices s).2.nodes = some cn →
        nodeCore cn = nodeCore m := by
  obtain ⟨nd, hnd, hid⟩ := List.mem_map.mp hmem
  have hnd2 : nd ∈ (get_choice_nodes s (get_next_nodes s s.current_node_id)).1 := by
    unfold get_available_choices at hnd
    split at hnd
    · exact absurd hnd (List.not_mem_nil nd)
    · exact hnd
  have hor : nd ∈ (get_choice_nodes_go s (get_next_nodes s s.current_node_id)).1 ∨
      nd ∈ (get_choice_nodes_go s (get_next_nodes s s.current_node_id)).2.1 := by
    change nd ∈ (if (get_choice_nodes_go s (get_next_nodes s s.current_node_id)).1 ≠ [] then (get_choice_nodes_go s (get_next_nodes s s.current_node_id)).1 else (get_choice_nodes_go s (get_next_nodes s s.current_node_id)).2.1) at hnd2
    split at hnd2
    · exact Or.inl hnd2
    · exact Or.inr hnd2
  have hres := foldl_choiceStep_results s (get_next_nodes s s.current_node_id)
    ([], [], 1, s.nodes) s.nodes (coreEq_refl _) nd hor
  have hndtype : nd.node_type = NodeType.choice :=
    foldl_choiceStep_results_choice s (get_next_nodes s s.current_node_id)
      ([], [], 1, s.nodes)
      (fun x hx => by
        rcases hx with hx | hx <;> exact absurd hx (List.not_mem_nil x))
      nd hor
  rcases hres with (h0 | h0) | ⟨k, hk, hkc⟩
  · exact absurd h0 (List.not_mem_nil nd)
  · exact absurd h0 (List.not_mem_nil nd)
  · cases hl : alLookup k s.nodes with
    | none => rw [hl] at hkc; cases hkc
    | some m =>
      rw [hl] at hkc
      have hm : nodeCore m = nodeCore nd := Option.some.inj hkc
      have hmtype : m.node_type = NodeType.choice :=
        (nodeCore_node_type hm).trans hndtype
      have hkcid : k = cid := by
        rw [← hcoh k m hl hmtype, nodeCore_item_id hm]
        exact hid
      rw [hkcid] at hl
      refine ⟨m, hl, ?_, hmtype, ?_⟩
      · rw [nodeCore_item_id hm]
        exact hid
      · intro cn hcn
        obtain ⟨m', hm', hcm'⟩ :=
          coreEq_lookup (coreEq_symm (gac_frame s).2.2.2.2.2) cid m hl
        rw [hcn] at hm'
        have hcnm : cn = m' := Option.some.inj hm'
        rw [hcnm]
        exact hcm'

/-- `choiceStep` never drops an already-collected choice. -/
theorem choiceStep_grows (s : EngineState)
    (acc : List Node × List Node × Int × List (Int × Node)) (nid : Int)
    (nd : Node) (h : nd ∈ acc.1) : nd ∈ (choiceStep s acc nid).1 := by
  cases hl : alLookup nid acc.2.2.2 with
  | none => rw [choiceStep_eq_none s acc nid hl]; exact h
  | some n =>
    rw [choiceStep_eq_some s acc nid n hl]
    split
    · split
      · split
        · exact h
        · split
          · exact h
          · exact List.mem_append_left _ h
      · exact h
    · exact h

/-- The `_get_choice_nodes` fold never drops a collected choice. -/
theorem foldl_choiceStep_grows (s : EngineState) :
    ∀ (ids : List Int) (acc : List Node × List Node × Int × List (Int × Node))
      (nd : Node), nd ∈ acc.1 → nd ∈ (ids.foldl (choiceStep s) acc).1 := by
  intro ids
  induction ids with
  | nil => intro acc nd h; exact h
  | cons nid ids ih =>
    intro acc nd h
    exact ih (choiceStep s acc nid) nd (choiceStep_grows s acc nid nd h)

/-- Processing a sticky, non-fallback, condition-passing choice collects a
core-equal node. -/
theorem choiceStep_adds_eligible (s : EngineState)
    (acc : List Node × List Node × Int × List (Int × Node)) (nid : Int)
    (n : Node) (hl : alLookup nid acc.2.2.2 = some n)
    (htype : n.node_type = .choice) (hstick : n.is_sticky = true)
    (hfb : n.is_fallback = false)
    (hcond : evaluate_condition s n.condition = true) :
    ∃ nd ∈ (choiceStep s acc nid).1, nodeCore nd = nodeCore n := by
  rw [choiceStep_eq_some s acc nid n hl]
  have hcore := nodeCore_orderAssign n acc.2.2.1
  rw [if_pos htype]
  split
  · split
    · rename_i hfb'
      have : (orderAssign n acc.2.2.1).is_fallback = n.is_fallback :=
        nodeCore_is_fallback hcore
      rw [this, hfb] at hfb'
      cases hfb'
    · split
      · rename_i hc'
        have : (orderAssign n acc.2.2.1).condition = n.condition :=
          nodeCore_condition hcore
        rw [this, hcond] at hc'
        exact absurd rfl hc'
      · exact ⟨orderAssign n acc.2.2.1,
          List.mem_append_right _ (List.mem_singleton.mpr rfl), hcore⟩
  · rename_i helig
    rw [hstick] at helig
    simp at helig

/-- A sticky, non-fallback, condition-passing choice among the processed
ids always ends up in the collected list. -/
theorem foldl_choiceStep_complete (s : EngineState) :
    ∀ (ids : List Int) (acc : List Node × List Node × Int × List (Int × Node))
      (k : Int) (m : Node), k ∈ ids → alLookup k acc.2.2.2 = some m →
      m.node_type = .choice → m.is_sticky = true → m.is_fallback = false →
      evaluate_condition s m.condition = true →
      ∃ nd ∈ (ids.foldl (choiceStep s) acc).1, nodeCore nd = nodeCore m := by
  intro ids
  induction ids with
  | nil => intro acc k m hk; cases hk
  | cons nid ids ih =>
    intro acc k m hk hl htype hstick hfb hcond
    by_cases hek : nid = k
    · subst hek
      obtain ⟨nd, hnd, hcnd⟩ :=
        choiceStep_adds_eligible s acc nid m hl htype hstick hfb hcond
      exact ⟨nd, foldl_choiceStep_grows s ids (choiceStep s acc nid) nd hnd,
        hcnd⟩
    · have hk' : k ∈ ids := by
        rcases List.mem_cons.mp hk with h | h
        · exact absurd h.symm hek
        · exact h
      have hcs := choiceStep_coreEq s acc nid
      obtain ⟨m', hm', hcm'⟩ := coreEq_lookup (coreEq_symm hcs) k m hl
      obtain ⟨nd, hnd, hcnd⟩ := ih (choiceStep s acc nid) k m' hk' hm'
        ((nodeCore_node_type hcm').trans htype)
        ((nodeCore_is_sticky hcm').trans hstick)
        ((nodeCore_is_fallback hcm').trans hfb)
        (by rw [nodeCore_condition hcm']; exact hcond)
      exact ⟨nd, hnd, hcnd.trans hcm'⟩

/-- `_get_choice_nodes` offers every sticky, non-fallback,
condition-passing choice among the candidate ids. -/
theorem get_choice_nodes_complete (s : EngineState) (ids : List Int)
    (k : Int) (m : Node) (hk : k ∈ ids) (hl : alLookup k s.nodes = some m)
    (htype : m.node_type = .choice) (hstick : m.is_sticky = true)
    (hfb : m.is_fallback = false)
    (hcond : evaluate_condition s m.condition = true) :
    ∃ nd ∈ (get_choice_nodes s ids).1, nodeCore nd = nodeCore m := by
  obtain ⟨nd, hnd, hcnd⟩ := foldl_choiceStep_complete s ids ([], [], 1, s.nodes)
    k m hk hl htype hstick hfb hcond
  refine ⟨nd, ?_, hcnd⟩
  have hne : (get_choice_nodes_go s ids).1 ≠ [] := List.ne_nil_of_mem hnd
  show nd ∈ (if (get_choice_nodes_go s ids).1 ≠ [] then
    (get_choice_nodes_go s ids).1 else (get_choice_nodes_go s ids).2.1)
  rw [if_pos hne]
  exact hnd

/-- On an incomplete story, a sticky, non-fallback, condition-passing
choice node that is a visitable successor of the current node is offered
by `get_available_choices` (under its own id). -/
theorem gac_available (s : EngineState) (c : Int) (m : Node)
    (hcomp : s.is_story_complete = false)
    (hnext : c ∈ get_next_nodes s s.current_node_id)
    (hl : alLookup c s.nodes = some m) (hid : m.item_id = c)
    (htype : m.node_type = .choice) (hstick : m.is_sticky = true)
    (hfb : m.is_fallback = false)
    (hcond : evaluate_condition s m.condition = true) :
    c ∈ (get_available_choices s).1.map (fun nd => nd.item_id) := by
  obtain ⟨nd, hnd, hcnd⟩ := get_choice_nodes_complete s
    (get_next_nodes s s.current_node_id) c m hnext hl htype hstick hfb hcond
  have hmem : nd ∈ (get_available_choices s).1 := by
    unfold get_available_choices
    split
    · rename_i hc
      rw [hcomp] at hc
      cases hc
    · exact hnd
  exact List.mem_map.mpr ⟨nd, hmem, (nodeCore_item_id hcnd).trans hid⟩

/-- `d.get(k, dflt)` after `d[k] = v` at the same key. -/
theorem alLookupD_alInsert_self [DecidableEq α] (k : α) (v d : β)
    (l : List (α × β)) : alLookupD k (alInsert k v l) d = v := by
  unfold alLookupD
  rw [alLookup_alInsert]
  rfl

/-- `d.get(k', dflt)` after `d[k] = v` at a different key. -/
theorem alLookupD_alInsert_ne [DecidableEq α] (k k' : α) (v d : β)
    (l : List (α × β)) (h : k' ≠ k) :
    alLookupD k' (alInsert k v l) d = alLookupD k' l d := by
  unfold alLookupD
  rw [alLookup_alInsert_ne k k' v l h]

/-- The bullet append only touches the history. -/
theorem make_choice_bullet_shape (s2 : EngineState) (cn : Node) :
    ∃ hh, make_choice_bullet s2 cn = { s2 with story_history := hh } := by
  unfold make_choice_bullet
  split
  · exact ⟨_, rfl⟩
  · exact ⟨s2.story_history, rfl⟩

/-- The content echo only touches the history. -/
theorem make_choice_emit_shape (s3 : EngineState) (cn : Node) :
    ∃ hh, make_choice_emit s3 cn = { s3 with story_history := hh } := by
  unfold make_choice_emit
  split
  · exact ⟨_, rfl⟩
  · exact ⟨s3.story_history, rfl⟩

/-- The move-and-echo phase of `make_choice` sets the current node and
appends to the history, nothing else. -/
theorem make_choice_moved_shape (s1 : EngineState) (cn : Node) :
    ∃ hh, make_choice_moved s1 cn =
      { s1 with current_node_id := cn.item_id, story_history := hh } := by
  obtain ⟨h1, e1⟩ :=
    make_choice_bullet_shape { s1 with current_node_id := cn.item_id } cn
  obtain ⟨h2, e2⟩ := make_choice_emit_shape
    (make_choice_bullet { s1 with current_node_id := cn.item_id } cn) cn
  have e3 : make_choice_moved s1 cn = { make_choice_bullet { s1 with current_node_id := cn.item_id } cn with story_history := h2 } := e2
  rw [e1] at e3
  exact ⟨h2, e3⟩

/-- Shape of the committed `make_choice` state: current node moved, history
appended, and for a non-sticky choice the one-shot flag written. -/
theorem make_choice_commit_shape (s1 : EngineState) (cn : Node) :
    ∃ hh,
      (cn.is_sticky = true → make_choice_commit s1 cn =
        { s1 with current_node_id := cn.item_id, story_history := hh }) ∧
      (cn.is_sticky = false → make_choice_commit s1 cn =
        { s1 with current_node_id := cn.item_id, story_history := hh, node_can_be_visited_again := alInsert cn.item_id false s1.node_can_be_visited_again }) := by
  obtain ⟨hh, e⟩ := make_choice_moved_shape s1 cn
  refine ⟨hh, ?_, ?_⟩
  · intro hs
    unfold make_choice_commit
    rw [if_neg (not_not_intro hs), e]
  · intro hs
    have hns : ¬ (cn.is_sticky = true) := by
      rw [hs]
      exact Bool.false_ne_true
    unfold make_choice_commit
    rw [if_pos hns, e]

/-- Frame of a `make_choice` call on a coherent engine: graph, mode flag
and node keys and cores survive; a `False` one-shot flag stays `False`; and
the flag of a sticky node is untouched. -/
theorem make_choice_frame (fuel : Nat) (s : EngineState) (cid : Int)
    (s' : EngineState) (b : Bool) (hcoh : tableCoherent s.nodes)
    (h : make_choice fuel s cid = some (s', b)) :
    s'.nodes.map Prod.fst = s.nodes.map Prod.fst ∧
    coreEq s'.nodes s.nodes ∧
    s'.edges = s.edges ∧ s'.graph = s.graph ∧
    s'.let_people_choose_one_choice = s.let_people_choose_one_choice ∧
    (∀ c, alLookupD c s.node_can_be_visited_again true = false →
          alLookupD c s'.node_can_be_visited_again true = false) ∧
    (∀ c n, alLookup c s.nodes = some n → n.is_sticky = true →
          alLookupD c s'.node_can_be_visited_again true =
          alLookupD c s.node_can_be_visited_again true) := by
  unfold make_choice at h
  split at h
  · injection h with h'
    injection h' with h1 h2
    subst h1
    exact ⟨rfl, coreEq_refl _, rfl, rfl, rfl, fun c hf => hf, fun c n _ _ => rfl⟩
  · split at h
    · injection h with h'
      injection h' with h1 h2
      subst h1
      have hgf := gac_frame s
      exact ⟨hgf.2.2.2.2.1, hgf.2.2.2.2.2, hgf.2.1, hgf.2.2.1, hgf.2.2.2.1,
        fun c hf => by rw [hgf.1]; exact hf, fun c n _ _ => by rw [hgf.1]⟩
    · rename_i hmem0
      split at h
      · cases h
      · rename_i cn hcn
        split at h
        · cases h
        · rename_i s6 hs6
          injection h with h'
          injection h' with h1 h2
          subst h1
          have hgf := gac_frame s
          obtain ⟨mrow, hmrow, hmrow_id, hmrow_type, hface⟩ :=
            gac_mem_core s cid hcoh (not_not.mp hmem0)
          have hcore_cn : nodeCore cn = nodeCore mrow := hface cn hcn
          have hcid : cn.item_id = cid :=
            (nodeCore_item_id hcore_cn).trans hmrow_id
          have hfsp := follow_story_path_frame fuel _ s6 hs6
          obtain ⟨hh, ecS, ecN⟩ :=
            make_choice_commit_shape (get_available_choices s).2 cn
          cases hsk : cn.is_sticky with
          | true =>
            have ec := ecS hsk
            rw [ec] at hfsp
            refine ⟨hfsp.2.2.2.2.1.trans hgf.2.2.2.2.1,
              coreEq_trans hfsp.2.2.2.2.2 hgf.2.2.2.2.2,
              hfsp.2.1.trans hgf.2.1, hfsp.2.2.1.trans hgf.2.2.1,
              hfsp.2.2.2.1.trans hgf.2.2.2.1, fun c hf => ?_, fun c n _ _ => ?_⟩
            · rw [hfsp.1]
              show alLookupD c (get_available_choices s).2.node_can_be_visited_again true = false
              rw [hgf.1]
              exact hf
            · rw [hfsp.1]
              show alLookupD c (get_available_choices s).2.node_can_be_visited_again true = alLookupD c s.node_can_be_visited_again true
              rw [hgf.1]
          | false =>
            have ec := ecN hsk
            rw [ec] at hfsp
            refine ⟨hfsp.2.2.2.2.1.trans hgf.2.2.2.2.1,
              coreEq_trans hfsp.2.2.2.2.2 hgf.2.2.2.2.2,
              hfsp.2.1.trans hgf.2.1, hfsp.2.2.1.trans hgf.2.2.1,
              hfsp.2.2.2.1.trans hgf.2.2.2.1, fun c hf => ?_, fun c n hl hn => ?_⟩
            · rw [hfsp.1]
              show alLookupD c (alInsert cn.item_id false (get_available_choices s).2.node_can_be_visited_again) true = false
              by_cases hc : c = cn.item_id
              · subst hc
                exact alLookupD_alInsert_self _ _ _ _
              · rw [alLookupD_alInsert_ne _ _ _ _ _ hc, hgf.1]
                exact hf
            · rw [hfsp.1]
              show alLookupD c (alInsert cn.item_id false (get_available_choices s).2.node_can_be_visited_again) true = alLookupD c s.node_can_be_visited_again true
              have hne : c ≠ cn.item_id := by
                intro hc
                obtain ⟨m, hm, hcm⟩ :=
                  coreEq_lookup hgf.2.2.2.2.2 cid cn hcn
                have hcc : c = cid := hc.trans hcid
                rw [← hcc] at hm
                rw [hl] at hm
                have : n = m := Option.some.inj hm
                subst this
                rw [(nodeCore_is_sticky hcm).symm.trans hn] at hsk
                cases hsk
              rw [alLookupD_alInsert_ne _ _ _ _ _ hne, hgf.1]

/-- The initial emission of `start_story` only appends to the history. -/
theorem start_pre_shape (s : EngineState) :
    ∃ hh, start_pre s = { s with story_history := hh } := by
  unfold start_pre
  split
  · split
    · exact ⟨_, rfl⟩
    · exact ⟨s.story_history, rfl⟩
  · exact ⟨s.story_history, rfl⟩

/-- `start_story` is in the step frame. -/
theorem start_story_frame (fuel : Nat) (s s' : EngineState)
    (h : start_story fuel s = some s') : stepFrame s' s := by
  unfold start_story at h
  obtain ⟨hh, e⟩ := start_pre_shape s
  have hf := follow_story_path_frame fuel _ s' h
  rw [e] at hf
  exact stepFrame_trans hf (stepFrame_mk _ _ rfl rfl rfl rfl rfl)

/-- Frame of a single engine operation on a coherent engine: node keys and
cores, graph and mode flag survive; a `False` one-shot flag stays `False`;
the flag of a sticky node is untouched. -/
theorem applyOp_frame (fuel : Nat) (s s' : EngineState) (op : EngineOp)
    (hcoh : tableCoherent s.nodes) (h : applyOp fuel s op = some s') :
    s'.nodes.map Prod.fst = s.nodes.map Prod.fst ∧
    coreEq s'.nodes s.nodes ∧
    s'.graph = s.graph ∧
    s'.let_people_choose_one_choice = s.let_people_choose_one_choice ∧
    (∀ c, alLookupD c s.node_can_be_visited_again true = false →
          alLookupD c s'.node_can_be_visited_again true = false) ∧
    (∀ c n, alLookup c s.nodes = some n → n.is_sticky = true →
          alLookupD c s'.node_can_be_visited_again true =
          alLookupD c s.node_can_be_visited_again true) := by
  cases op with
  | make_choice_op cid =>
    cases hmc : make_choice fuel s cid with
    | none =>
      rw [show applyOp fuel s (EngineOp.make_choice_op cid) = (make_choice fuel s cid).map (fun r => r.1) from rfl, hmc] at h
      cases h
    | some r =>
      rw [show applyOp fuel s (EngineOp.make_choice_op cid) = (make_choice fuel s cid).map (fun r => r.1) from rfl, hmc] at h
      have hr : r.1 = s' := Option.some.inj h
      subst hr
      have hf := make_choice_frame fuel s cid r.1 r.2 hcoh (by rw [hmc])
      exact ⟨hf.1, hf.2.1, hf.2.2.2.1, hf.2.2.2.2.1, hf.2.2.2.2.2.1,
        hf.2.2.2.2.2.2⟩
  | start_story_op =>
    have hf := start_story_frame fuel s s' h
    exact ⟨hf.2.2.2.2.1, hf.2.2.2.2.2, hf.2.2.1, hf.2.2.2.1,
      fun c hc => by rw [hf.1]; exact hc, fun c n _ _ => by rw [hf.1]⟩
  | reset_story_op =>
    have hr : reset_story s = s' := Option.some.inj h
    subst hr
    exact ⟨rfl, coreEq_refl _, rfl, rfl, fun c hc => hc, fun c n _ _ => rfl⟩
  | get_choices_op =>
    have hr : (get_available_choices s).2 = s' := Option.some.inj h
    subst hr
    have hgf := gac_frame s
    exact ⟨hgf.2.2.2.2.1, hgf.2.2.2.2.2, hgf.2.2.1, hgf.2.2.2.1,
      fun c hc => by rw [hgf.1]; exact hc, fun c n _ _ => by rw [hgf.1]⟩

/-- Frame of any sequence of engine operations on a coherent engine. -/
theorem applyOps_frame (fuel : Nat) :
    ∀ (ops : List EngineOp) (s s' : EngineState), tableCoherent s.nodes →
      applyOps fuel ops s = some s' →
      s'.nodes.map Prod.fst = s.nodes.map Prod.fst ∧
      coreEq s'.nodes s.nodes ∧
      s'.graph = s.graph ∧
      s'.let_people_choose_one_choice = s.let_people_choose_one_choice ∧
      (∀ c, alLookupD c s.node_can_be_visited_again true = false →
            alLookupD c s'.node_can_be_visited_again true = false) ∧
      (∀ c n, alLookup c s.nodes = some n → n.is_sticky = true →
            alLookupD c s'.node_can_be_visited_again true =
            alLookupD c s.node_can_be_visited_again true) := by
  intro ops
  induction ops with
  | nil =>
    intro s s' _ h
    have hr : s = s' := Option.some.inj h
    subst hr
    exact ⟨rfl, coreEq_refl _, rfl, rfl, fun c hc => hc, fun c n _ _ => rfl⟩
  | cons op ops ih =>
    intro s s' hcoh h
    cases hop : applyOp fuel s op with
    | none =>
      rw [show applyOps fuel (op :: ops) s = (applyOp fuel s op).bind (applyOps fuel ops) from rfl, hop] at h
      cases h
    | some s1 =>
      rw [show applyOps fuel (op :: ops) s = (applyOp fuel s op).bind (applyOps fuel ops) from rfl, hop] at h
      have h1 := applyOp_frame fuel s s1 op hcoh hop
      have hcoh1 : tableCoherent s1.nodes :=
        tableCoherent_of_coreEq h1.2.1 hcoh
      have h2 := ih s1 s' hcoh1 h
      refine ⟨h2.1.trans h1.1, coreEq_trans h2.2.1 h1.2.1,
        h2.2.2.1.trans h1.2.2.1, h2.2.2.2.1.trans h1.2.2.2.1,
        fun c hc => h2.2.2.2.2.1 c (h1.2.2.2.2.1 c hc), fun c n hl hs => ?_⟩
      obtain ⟨m, hm, hcm⟩ := coreEq_lookup (coreEq_symm h1.2.1) c n hl
      have hstep := h2.2.2.2.2.2 c m hm ((nodeCore_is_sticky hcm).trans hs)
      exact hstep.trans (h1.2.2.2.2.2 c n hl hs)

/-- A successful `make_choice` reads the chosen node from the updated table
and, when it is one-shot, leaves its `node_can_be_visited_again` flag
`False`. -/
theorem make_choice_success_flag (fuel : Nat) (s : EngineState) (cid : Int)
    (s₁ : EngineState) (hcoh : tableCoherent s.nodes)
    (h : make_choice fuel s cid = some (s₁, true)) :
    ∃ cn, alLookup cid (get_available_choices s).2.nodes = some cn ∧
      (cn.is_sticky = false →
        alLookupD cid s₁.node_can_be_visited_again true = false) := by
  unfold make_choice at h
  split at h
  · injection h with h'
    injection h' with h1 h2
    cases h2
  · split at h
    · injection h with h'
      injection h' with h1 h2
      cases h2
    · rename_i hmem0
      split at h
      · cases h
      · rename_i cn hcn
        split at h
        · cases h
        · rename_i s6 hs6
          injection h with h'
          injection h' with h1 h2
          subst h1
          refine ⟨cn, hcn, fun hsk => ?_⟩
          obtain ⟨hh, ecS, ecN⟩ :=
            make_choice_commit_shape (get_available_choices s).2 cn
          have ec := ecN hsk
          have hfsp := follow_story_path_frame fuel _ s6 hs6
          rw [ec] at hfsp
          rw [hfsp.1]
          show alLookupD cid (alInsert cn.item_id false (get_available_choices s).2.node_can_be_visited_again) true = false
          obtain ⟨mrow, hmrow, hmrow_id, hmrow_type, hface⟩ :=
            gac_mem_core s cid hcoh (not_not.mp hmem0)
          have hcid : cn.item_id = cid :=
            (nodeCore_item_id (hface cn hcn)).trans hmrow_id
          rw [← hcid]
          exact alLookupD_alInsert_self _ _ _ _

/-- A table whose every choice row stores its own key is coherent. -/
theorem tableCoherent_of_rows :
    ∀ t : List (Int × Node),
      (∀ p ∈ t, p.2.node_type = .choice → p.2.item_id = p.1) →
      tableCoherent t := by
  intro t
  induction t with
  | nil => intro _ k n hl; cases hl
  | cons p rest ih =>
    intro h k n hl htype
    unfold alLookup at hl
    by_cases hp : p.1 = k
    · rw [if_pos hp] at hl
      have hpn : p.2 = n := Option.some.inj hl
      have hpt : p.2.node_type = NodeType.choice := by
        rw [hpn]
        exact htype
      rw [← hpn, h p (List.mem_cons_self _ _) hpt]
      exact hp
    · rw [if_neg hp] at hl
      exact ih (fun q hq => h q (List.mem_cons_of_mem _ hq)) k n hl htype

/-- `alLookup` hits are rows of the table. -/
theorem alLookup_mem [DecidableEq α] (k : α) :
    ∀ (l : List (α × β)) (v : β), alLookup k l = some v → (k, v) ∈ l := by
  intro l
  induction l with
  | nil => intro v h; cases h
  | cons p rest ih =>
    intro v h
    unfold alLookup at h
    by_cases hp : p.1 = k
    · rw [if_pos hp] at h
      have hv : p.2 = v := Option.some.inj h
      have hpv : p = (k, v) := by rw [← hp, ← hv]
      exact List.mem_cons.mpr (Or.inl hpv.symm)
    · rw [if_neg hp] at h
      exact List.mem_cons_of_mem _ (ih v h)

/-- Elements of the running dedup fold come from the accumulator or the
list. -/
theorem mem_foldl_dedup :
    ∀ (l acc : List Int) (x : Int),
      x ∈ l.foldl (fun acc x => if x ∈ acc then acc else acc ++ [x]) acc →
      x ∈ acc ∨ x ∈ l := by
  intro l
  induction l with
  | nil => intro acc x h; exact Or.inl h
  | cons a t ih =>
    intro acc x h
    rcases ih (if a ∈ acc then acc else acc ++ [a]) x h with h1 | h1
    · by_cases ha : a ∈ acc
      · rw [if_pos ha] at h1
        exact Or.inl h1
      · rw [if_neg ha] at h1
        rcases List.mem_append.mp h1 with h2 | h2
        · exact Or.inl h2
        · exact Or.inr
            (by rw [List.mem_singleton.mp h2]; exact List.mem_cons_self _ _)
    · exact Or.inr (List.mem_cons_of_mem _ h1)

/-- `dedupInts` returns elements of its input. -/
theorem mem_dedupInts (l : List Int) (x : Int) (h : x ∈ dedupInts l) :
    x ∈ l := by
  rcases mem_foldl_dedup l [] x h with h1 | h1
  · cases h1
  · exact h1

/-- A successor of `n` is the target of an `n`-sourced edge. -/
theorem mem_successors (E : List (Int × Int)) (n x : Int)
    (h : x ∈ successors E n) : (n, x) ∈ E := by
  have h1 := mem_dedupInts _ x h
  obtain ⟨e, he, he2⟩ := List.mem_map.mp h1
  have he1 := (List.mem_filter.mp he).1
  have hfst : e.1 = n := of_decide_eq_true (List.mem_filter.mp he).2
  have hee : e = (n, x) := by rw [← hfst, ← he2]
  rw [← hee]
  exact he1

/-- `_get_next_nodes` only returns graph successors of the queried node. -/
theorem get_next_nodes_subset (s : EngineState) (nid x : Int)
    (h : x ∈ get_next_nodes s nid) : x ∈ successors s.graph nid := by
  unfold get_next_nodes at h
  split at h
  · exact (List.mem_filter.mp h).1
  · cases h

/-- When none of the candidate ids is bound to a core choice row, the
`_get_choice_nodes` fold is the identity on its accumulator. -/
theorem foldl_choiceStep_id (s : EngineState) :
    ∀ (ids : List Int) (acc : List Node × List Node × Int × List (Int × Node)),
      (∀ i ∈ ids, ∀ n, alLookup i acc.2.2.2 = some n →
        n.node_type ≠ .choice) →
      ids.foldl (choiceStep s) acc = acc := by
  intro ids
  induction ids with
  | nil => intro acc _; rfl
  | cons i t ih =>
    intro acc hids
    have hstep : choiceStep s acc i = acc := by
      cases hl : alLookup i acc.2.2.2 with
      | none => exact choiceStep_eq_none s acc i hl
      | some n =>
        rw [choiceStep_eq_some s acc i n hl,
          if_neg (hids i (List.mem_cons_self _ _) n hl)]
    show t.foldl (choiceStep s) (choiceStep s acc i) = acc
    rw [hstep]
    exact ih acc (fun j hj n hl => hids j (List.mem_cons_of_mem _ hj) n hl)

/-- Either branch of `follow_move` continues the loop at the target node
with the availability-updated table and an untouched graph. -/
theorem follow_move_fields (s2 : EngineState) (nexts : List Int) (nid : Int)
    (r : EngineState ⊕ EngineState) (h : follow_move s2 nexts nid = some r) :
    ∃ s5, r = Sum.inr s5 ∧ s5.nodes = (get_choice_nodes s2 nexts).2 ∧
      s5.graph = s2.graph ∧ s5.current_node_id = nid := by
  unfold follow_move at h
  split at h
  · rename_i nn heq
    have hr := Option.some.inj h
    obtain ⟨hh, he⟩ := advance_content_shape
      { s2 with nodes := (get_choice_nodes s2 nexts).2,
                current_node_id := nid } nn
    exact ⟨_, hr.symm, by rw [he], by rw [he], by rw [he]⟩
  · have hr := Option.some.inj h
    exact ⟨_, hr.symm, rfl, rfl, rfl⟩

/-- An empty eligible-choice list sends `follow_branch` straight to the
move on the head successor. -/
theorem follow_branch_no_choice (s2 : EngineState) (nexts : List Int)
    (hgcn : (get_choice_nodes s2 nexts).1 = []) :
    follow_branch s2 nexts = follow_move s2 nexts (nexts.headD 0) := by
  have hcond : ¬ (((get_choice_nodes s2 nexts).1 ≠ [] ∧
      s2.let_people_choose_one_choice) ∨
      ((get_choice_nodes s2 nexts).1.length > 1 ∧
        ¬ s2.let_people_choose_one_choice)) := by
    rw [hgcn]
    simp
  unfold follow_branch
  rw [if_neg hcond]
  congr 1
  rw [hgcn]
  split <;> rfl

/-- When every visitable successor is AutoEnd (`-3`) and `-3` carries no
core choice row, the loop body offers nothing and advances to `-3`,
leaving table and graph untouched. -/
theorem follow_branch_auto (s2 : EngineState) (nexts : List Int)
    (hne : nexts ≠ []) (hall : ∀ x ∈ nexts, x = (-3 : Int))
    (H3 : ∀ n, alLookup (-3 : Int) s2.nodes = some n →
      n.node_type ≠ .choice) :
    ∃ s5, follow_branch s2 nexts = some (Sum.inr s5) ∧
      s5.nodes = s2.nodes ∧ s5.graph = s2.graph ∧
      s5.current_node_id = -3 := by
  have hgo : get_choice_nodes_go s2 nexts = ([], [], 1, s2.nodes) :=
    foldl_choiceStep_id s2 nexts ([], [], 1, s2.nodes)
      (fun i hi n hl => H3 n (hall i hi ▸ hl))
  have hgcn : get_choice_nodes s2 nexts = ([], s2.nodes) := by
    show (if (get_choice_nodes_go s2 nexts).1 ≠ [] then
      (get_choice_nodes_go s2 nexts).1 else
      (get_choice_nodes_go s2 nexts).2.1,
      (get_choice_nodes_go s2 nexts).2.2.2) = ([], s2.nodes)
    rw [hgo]
    rfl
  have hhead : nexts.headD 0 = (-3 : Int) := by
    cases nexts with
    | nil => exact absurd rfl hne
    | cons a t => exact hall a (List.mem_cons_self _ _)
  have hfm : ∃ r, follow_move s2 nexts (-3) = some r := by
    unfold follow_move
    cases hl : alLookup (-3 : Int) (get_choice_nodes s2 nexts).2 with
    | some nn => exact ⟨_, rfl⟩
    | none => exact ⟨_, rfl⟩
  obtain ⟨r, hr⟩ := hfm
  obtain ⟨s5, hrr, h1, h2, h3⟩ := follow_move_fields s2 nexts (-3) r hr
  refine ⟨s5, ?_, ?_, h2, h3⟩
  · rw [follow_branch_no_choice s2 nexts (by rw [hgcn]), hhead, hr, hrr]
  · rw [h1, hgcn]

/-- One loop iteration of a no-core-sentinel, no-block-edge engine either
raises (`none`) or continues at AutoEnd with the same table and graph. -/
theorem follow_iter_none_or_auto (s : EngineState)
    (Hend : ∀ k n, alLookup k s.nodes = some n →
      n.node_type ≠ .stop ∧ n.node_type ≠ .auto_end)
    (H3 : ∀ n, alLookup (-3 : Int) s.nodes = some n → n.node_type ≠ .choice)
    (Hshape : ∀ e ∈ s.graph, e.1 = -2 ∨ e.2 = -3)
    (Hcur : s.current_node_id ≠ -2) :
    follow_iter s = none ∨
      ∃ s5, follow_iter s = some (Sum.inr s5) ∧ s5.nodes = s.nodes ∧
        s5.graph = s.graph ∧ s5.current_node_id = -3 := by
  obtain ⟨hflag, hedges, hgraph, hletP, hnodes, hcurid, hcomp⟩ :=
    visit_current_fields s
  unfold follow_iter
  by_cases hnil : get_next_nodes (visit_current s)
      (visit_current s).current_node_id = []
  · rw [if_pos hnil]
    left
    have hff : follow_finish (visit_current s) = none := by
      unfold follow_finish
      split
      · rename_i n heq
        rw [hnodes, hcurid] at heq
        have h := Hend _ _ heq
        rw [if_neg h.1, if_neg h.2]
      · rfl
    rw [hff]
    rfl
  · rw [if_neg hnil]
    have hall : ∀ x ∈ get_next_nodes (visit_current s)
        (visit_current s).current_node_id, x = (-3 : Int) := by
      intro x hx
      have hsucc := get_next_nodes_subset (visit_current s)
        (visit_current s).current_node_id x hx
      rw [hgraph, hcurid] at hsucc
      rcases Hshape _ (mem_successors s.graph s.current_node_id x hsucc)
        with h | h
      · exact absurd h Hcur
      · exact h
    obtain ⟨s5, hfb, h1, h2, h3⟩ := follow_branch_auto (visit_current s)
      (get_next_nodes (visit_current s) (visit_current s).current_node_id)
      hnil hall (fun n hl => H3 n (hnodes ▸ hl))
    right
    exact ⟨s5, hfb, h1.trans hnodes, h2.trans hgraph, h3⟩

/-- In an engine whose table has no core-enum END/AUTO_END row (the
sentinel rows are parser-class nodes), no choice row at `-3`, and whose
graph edges all leave BEGIN or enter AutoEnd (the shape every real parse
produces, since `parse_base_block` builds no block edges), the advance
loop started anywhere but BEGIN never returns: every dead end raises
`NotImplementedError` and every other step walks into AutoEnd. -/
theorem follow_story_path_none :
    ∀ (fuel : Nat) (s : EngineState),
      (∀ k n, alLookup k s.nodes = some n →
        n.node_type ≠ .stop ∧ n.node_type ≠ .auto_end) →
      (∀ n, alLookup (-3 : Int) s.nodes = some n → n.node_type ≠ .choice) →
      (∀ e ∈ s.graph, e.1 = -2 ∨ e.2 = -3) →
      s.current_node_id ≠ -2 →
      follow_story_path fuel s = none := by
  intro fuel
  induction fuel with
  | zero => intro s _ _ _ _; rfl
  | succ fuel ih =>
    intro s Hend H3 Hshape Hcur
    rw [follow_story_path_eq]
    rcases follow_iter_none_or_auto s Hend H3 Hshape Hcur
      with h | ⟨s5, h, hn, hg, hc⟩
    · rw [h]
    · rw [h]
      exact ih s5 (fun k n hl => Hend k n (hn ▸ hl))
        (fun n hl => H3 n (hn ▸ hl))
        (fun e he => Hshape e (hg ▸ he))
        (by rw [hc]; decide)

/-- Under the same engine shape, `make_choice` can never return `True`: an
accepted choice moves off BEGIN and enters the doomed advance loop. -/
theorem make_choice_never_true (fuel : Nat) (s : EngineState) (cid : Int)
    (s₁ : EngineState) (hcoh : tableCoherent s.nodes)
    (Hend : ∀ k n, alLookup k s.nodes = some n →
      n.node_type ≠ .stop ∧ n.node_type ≠ .auto_end)
    (H3 : ∀ n, alLookup (-3 : Int) s.nodes = some n → n.node_type ≠ .choice)
    (Hbegin : ∀ n, alLookup (-2 : Int) s.nodes = some n →
      n.node_type ≠ .choice)
    (Hshape : ∀ e ∈ s.graph, e.1 = -2 ∨ e.2 = -3) :
    make_choice fuel s cid ≠ some (s₁, true) := by
  intro h
  unfold make_choice at h
  split at h
  · have hb : false = true := congrArg Prod.snd (Option.some.inj h)
    cases hb
  · split at h
    · have hb : false = true := congrArg Prod.snd (Option.some.inj h)
      cases hb
    · rename_i hmem0
      split at h
      · cases h
      · rename_i cn hcn
        obtain ⟨m, hm, hmid, hmtype, hface⟩ :=
          gac_mem_core s cid hcoh (not_not.mp hmem0)
        have hcid : cn.item_id = cid :=
          (nodeCore_item_id (hface cn hcn)).trans hmid
        have hcid_ne : cid ≠ -2 := by
          intro hq
          rw [hq] at hm
          exact Hbegin m hm hmtype
        obtain ⟨hh, ecS, ecN⟩ :=
          make_choice_commit_shape (get_available_choices s).2 cn
        have hgf := gac_frame s
        have hfields :
            (make_choice_commit (get_available_choices s).2 cn).current_node_id
              = cid ∧
            coreEq (make_choice_commit (get_available_choices s).2 cn).nodes
              s.nodes ∧
            (make_choice_commit (get_available_choices s).2 cn).graph
              = s.graph := by
          cases hsk : cn.is_sticky with
          | true =>
            rw [ecS hsk]
            exact ⟨hcid, hgf.2.2.2.2.2, hgf.2.2.1⟩
          | false =>
            rw [ecN hsk]
            exact ⟨hcid, hgf.2.2.2.2.2, hgf.2.2.1⟩
        split at h
        · cases h
        · rename_i s6 hs6
          have Hend' : ∀ k n,
              alLookup k (make_choice_commit (get_available_choices s).2 cn).nodes
                = some n →
              n.node_type ≠ NodeType.stop ∧ n.node_type ≠ NodeType.auto_end := by
            intro k n hl
            obtain ⟨m', hm', hcm'⟩ := coreEq_lookup hfields.2.1 k n hl
            have ht : n.node_type = m'.node_type :=
              (nodeCore_node_type hcm').symm
            rw [ht]
            exact Hend k m' hm'
          have H3' : ∀ n,
              alLookup (-3 : Int)
                (make_choice_commit (get_available_choices s).2 cn).nodes
                = some n →
              n.node_type ≠ NodeType.choice := by
            intro n hl
            obtain ⟨m', hm', hcm'⟩ := coreEq_lookup hfields.2.1 (-3) n hl
            have ht : n.node_type = m'.node_type :=
              (nodeCore_node_type hcm').symm
            rw [ht]
            exact H3 m' hm'
          have Hshape' : ∀ e ∈
              (make_choice_commit (get_available_choices s).2 cn).graph,
              e.1 = -2 ∨ e.2 = -3 := by
            rw [hfields.2.2]
            exact Hshape
          have Hcur' :
              (make_choice_commit (get_available_choices s).2 cn).current_node_id
                ≠ -2 := by
            rw [hfields.1]
            exact hcid_ne
          rw [follow_story_path_none fuel _ Hend' H3' Hshape' Hcur'] at hs6
          cases hs6

/-- C4 (code bug): the claimed sticky/one-shot re-offer behaviour is
unreachable.  `_follow_story_path` tests the node at a dead end with
`is NodeType.END` / `is NodeType.AUTO_END` of `analink.core.models`, but
the sentinel rows that `parse_story` installs at −1/−2/−3 are
`analink.parser.node.Node` objects carrying the other enum class's
members, and the built graph has no block edges at all (`parse_base_block`
dispatches on the parser enum against core-typed pipeline nodes), so every
edge either leaves BEGIN or enters AutoEnd.  An accepted choice therefore
walks into a dead end whose node fails both sentinel tests and raises
`NotImplementedError`: `make_choice` can never return `True`, so the
claim's premise is never established in any run.  Concretely,
`start_story` on the engine of `"Hello\n* A\n* B"` raises, and on the
engine of `"* A\n* B\n- C"` it stops at BEGIN offering choice 1, whose
taking then raises. -/
theorem C4_sticky_one_shot_unreachable :
    (∀ (fuel : Nat) (s : EngineState) (cid : Int) (s₁ : EngineState),
      (∀ p ∈ s.nodes, p.2.node_type = NodeType.choice → p.2.item_id = p.1) →
      (∀ p ∈ s.nodes, p.2.node_type ≠ NodeType.stop ∧
        p.2.node_type ≠ NodeType.auto_end) →
      (∀ p ∈ s.nodes, p.1 = -3 ∨ p.1 = -2 →
        p.2.node_type ≠ NodeType.choice) →
      (∀ e ∈ s.graph, e.1 = -2 ∨ e.2 = -3) →
      make_choice fuel s cid ≠ some (s₁, true)) ∧
    start_story 20 c4_engine = none ∧
    (get_available_choices cx_start).1.map (fun n => n.item_id) = [1] ∧
    make_choice 20 cx_start 1 = none := by
  refine ⟨?_, by decide, by decide, by decide⟩
  intro fuel s cid s₁ hrows hendR hsentR hshape
  exact make_choice_never_true fuel s cid s₁
    (tableCoherent_of_rows _ hrows)
    (fun k n hl => hendR (k, n) (alLookup_mem k s.nodes n hl))
    (fun n hl => hsentR ((-3 : Int), n) (alLookup_mem _ s.nodes n hl)
      (Or.inl rfl))
    (fun n hl => hsentR ((-2 : Int), n) (alLookup_mem _ s.nodes n hl)
      (Or.inr rfl))
    hshape

/-- Witness for C4 at the one real offered choice of the `"* A\n* B\n- C"`
engine: the started engine satisfies every hypothesis, so taking its
offered choice 1 cannot return `True` (it in fact raises). -/
theorem C4_sticky_one_shot_unreachable_witness :
    make_choice 20 cx_start 1 ≠ some (emptyEngine, true) :=
  C4_sticky_one_shot_unreachable.1 20 cx_start 1 emptyEngine
    (by decide) (by decide) (by decide) (by decide)

/-! ## C8: the synthesized BEGIN edge -/

/-- The running fold of `min` lands on one of its inputs. -/
theorem foldl_min_mem : ∀ (t : List Int) (x : Int), t.foldl min x ∈ x :: t := by
  intro t
  induction t with
  | nil => intro x; exact List.mem_singleton.mpr rfl
  | cons y t ih =>
    intro x
    show t.foldl min (min x y) ∈ x :: y :: t
    rcases List.mem_cons.mp (ih (min x y)) with h | h
    · rw [h]
      rcases min_choice x y with hm | hm
      · rw [hm]
        exact List.mem_cons_self _ _
      · rw [hm]
        exact List.mem_cons_of_mem _ (List.mem_cons_self _ _)
    · exact List.mem_cons_of_mem _ (List.mem_cons_of_mem _ h)

/-- `min(...)` of a non-empty list is one of its elements. -/
theorem intListMin_mem (l : List Int) (h : l ≠ []) : intListMin l ∈ l := by
  cases l with
  | nil => exact absurd rfl h
  | cons x t => exact foldl_min_mem t x

/-- The running fold of `min` is a lower bound. -/
theorem foldl_min_le : ∀ (t : List Int) (x y : Int), y ∈ x :: t →
    t.foldl min x ≤ y := by
  intro t
  induction t with
  | nil =>
    intro x y hy
    rw [List.mem_singleton.mp hy]
    exact le_refl x
  | cons z t ih =>
    intro x y hy
    show t.foldl min (min x z) ≤ y
    rcases List.mem_cons.mp hy with h | h
    · rw [h]
      exact le_trans (ih (min x z) (min x z) (List.mem_cons_self _ _))
        (min_le_left x z)
    · rcases List.mem_cons.mp h with h2 | h2
      · rw [h2]
        exact le_trans (ih (min x z) (min x z) (List.mem_cons_self _ _))
          (min_le_right x z)
      · exact ih (min x z) y (List.mem_cons_of_mem _ h2)

/-- `min(...)` is a lower bound of its list. -/
theorem intListMin_le (l : List Int) (y : Int) (hy : y ∈ l) :
    intListMin l ≤ y := by
  cases l with
  | nil => cases hy
  | cons x t => exact foldl_min_le t x y hy

/-- A list containing `-2` and bounded below by `-2` has minimum `-2`. -/
theorem intListMin_eq_neg2 (l : List Int) (h2 : (-2 : Int) ∈ l)
    (hall : ∀ y ∈ l, (-2 : Int) ≤ y) : intListMin l = -2 :=
  le_antisymm (intListMin_le l (-2) h2)
    (hall _ (intListMin_mem l (List.ne_nil_of_mem h2)))

/-- `-1` (END) is always listed as having an incoming edge. -/
theorem neg1_mem_nwi (E : List (Int × Int)) :
    (-1 : Int) ∈ nodes_with_incoming E := by
  simp only [nodes_with_incoming]
  have h1 : (-1 : Int) ∈ (if (-1 : Int) ∈ E.map (fun e => e.2) then
      E.map (fun e => e.2) else -1 :: E.map (fun e => e.2)) := by
    split
    · rename_i h
      exact h
    · exact List.mem_cons_self _ _
  split
  · exact List.mem_cons_of_mem _ h1
  · exact h1

/-- `-2` (BEGIN) is listed as having an incoming edge whenever it touches
no edge at all (the builder's guard against picking BEGIN as start). -/
theorem neg2_mem_nwi (E : List (Int × Int))
    (hA : (-2 : Int) ∉ E.map (fun e => e.2) ++ E.map (fun e => e.1)) :
    (-2 : Int) ∈ nodes_with_incoming E := by
  simp only [nodes_with_incoming]
  rw [if_pos hA]
  exact List.mem_cons_self _ _

/-- Once BEGIN has an outgoing edge and no incoming edge, it is no longer
listed as having an incoming edge. -/
theorem neg2_not_mem_nwi (E : List (Int × Int))
    (htg : ∀ e ∈ E, e.2 ≠ -2) (hsrc : (-2 : Int) ∈ E.map Prod.fst) :
    (-2 : Int) ∉ nodes_with_incoming E := by
  intro hmem
  simp only [nodes_with_incoming] at hmem
  have h2t : (-2 : Int) ∉ E.map (fun e => e.2) := by
    intro h
    obtain ⟨e, he, he2⟩ := List.mem_map.mp h
    exact htg e he he2
  have h2A : ¬ ((-2 : Int) ∉ E.map (fun e => e.2) ++ E.map (fun e => e.1)) :=
    fun h => h (List.mem_append_right _ hsrc)
  rw [if_neg h2A] at hmem
  split at hmem
  · exact h2t hmem
  · rcases List.mem_cons.mp hmem with h | h
    · exact absurd h (by decide)
    · exact h2t h

/-- Membership in the start-candidate list. -/
theorem mem_start_candidates (nA : List (Int × Node)) (E : List (Int × Int))
    (x : Int) :
    x ∈ start_candidates nA E ↔
      x ∈ nA.map Prod.fst ∧ x ≠ -3 ∧ x ∉ nodes_with_incoming E := by
  unfold start_candidates
  rw [List.mem_filter]
  constructor
  · rintro ⟨h1, h2⟩
    exact ⟨h1, of_decide_eq_true h2⟩
  · rintro ⟨h1, h2⟩
    exact ⟨h1, decide_eq_true h2⟩

/-- `_find_start_node` at construction: with live edges, a non-empty
candidate list and a minimum other than BEGIN itself, it appends one edge
from BEGIN to the minimum candidate. -/
theorem find_start_construct (nA : List (Int × Node)) (E0 : List (Int × Int))
    (hne : E0 ≠ []) (hsc : start_candidates nA E0 ≠ [])
    (hm2 : intListMin (start_candidates nA E0) ≠ -2) :
    find_start_node nA E0 =
      (-2, E0 ++ [(-2, intListMin (start_candidates nA E0))]) := by
  unfold find_start_node
  rw [if_neg hne]
  cases hsc' : start_candidates nA E0 with
  | nil => exact absurd hsc' hsc
  | cons a t =>
    simp only [hsc']
    rw [hsc'] at hm2
    rw [if_neg hm2]

/-- `_find_start_node` after construction: when BEGIN is a bound node with
an outgoing but no incoming edge and every other key is `-1`, `-3` or a
positive id, the minimum candidate is BEGIN itself and the edge list is
returned unchanged. -/
theorem find_start_reset (nA : List (Int × Node)) (E : List (Int × Int))
    (hA : (-2 : Int) ∈ nA.map Prod.fst)
    (hall : ∀ k ∈ nA.map Prod.fst, k = -1 ∨ k = -2 ∨ k = -3 ∨ 1 ≤ k)
    (htg : ∀ e ∈ E, e.2 ≠ -2) (hsrc : (-2 : Int) ∈ E.map Prod.fst) :
    find_start_node nA E = (-2, E) := by
  have hne : E ≠ [] := by
    intro h
    rw [h] at hsrc
    simp at hsrc
  have h2cand : (-2 : Int) ∈ start_candidates nA E :=
    (mem_start_candidates nA E (-2)).mpr
      ⟨hA, by decide, neg2_not_mem_nwi E htg hsrc⟩
  have hmin : intListMin (start_candidates nA E) = -2 := by
    refine intListMin_eq_neg2 _ h2cand ?_
    intro y hy
    obtain ⟨hyk, hy3, hynwi⟩ := (mem_start_candidates nA E y).mp hy
    rcases hall y hyk with h | h | h | h
    · subst h
      decide
    · subst h
      decide
    · exact absurd h hy3
    · exact le_trans (by decide) h
  unfold find_start_node
  rw [if_neg hne]
  cases hsc : start_candidates nA E with
  | nil =>
    rw [hsc] at h2cand
    exact absurd h2cand (by simp)
  | cons a t =>
    simp only [hsc]
    rw [hsc] at hmin
    rw [if_pos hmin]

/-- `_fill_auto_end_node` appends only edges into AutoEnd whose sources are
never BEGIN. -/
theorem fill_auto_end_eq (nA : List (Int × Node)) (E : List (Int × Int)) :
    ∃ R : List (Int × Int), fill_auto_end_node nA E = E ++ R ∧
      ∀ e ∈ R, e.1 ≠ -2 ∧ e.2 = -3 := by
  refine ⟨_, rfl, ?_⟩
  intro e he
  obtain ⟨i, hi, hie⟩ := List.mem_map.mp he
  have hi1 := (List.mem_filter.mp hi).1
  have hq := of_decide_eq_true ((List.mem_filter.mp hi1).2)
  rw [← hie]
  exact ⟨hq.2.1, rfl⟩

/-- `_fill_auto_end_node` adds no BEGIN-sourced edge. -/
theorem fill_auto_end_filter_neg2 (nA : List (Int × Node))
    (E : List (Int × Int)) :
    (fill_auto_end_node nA E).filter (fun e => e.1 = -2) =
      E.filter (fun e => e.1 = -2) := by
  obtain ⟨R, hR, hprop⟩ := fill_auto_end_eq nA E
  rw [hR, List.filter_append]
  have hnil : R.filter (fun e => e.1 = -2) = [] := by
    refine List.filter_eq_nil_iff.mpr ?_
    intro a ha
    simp only [decide_eq_true_eq]
    exact (hprop a ha).1
  rw [hnil, List.append_nil]

/-- `make_choice` never changes the edge list or the node keys. -/
theorem make_choice_edges_keys (fuel : Nat) (s : EngineState) (cid : Int)
    (s' : EngineState) (b : Bool) (h : make_choice fuel s cid = some (s', b)) :
    s'.edges = s.edges ∧ s'.nodes.map Prod.fst = s.nodes.map Prod.fst := by
  unfold make_choice at h
  split at h
  · injection h with h'
    injection h' with h1 h2
    subst h1
    exact ⟨rfl, rfl⟩
  · split at h
    · injection h with h'
      injection h' with h1 h2
      subst h1
      have hgf := gac_frame s
      exact ⟨hgf.2.1, hgf.2.2.2.2.1⟩
    · split at h
      · cases h
      · rename_i cn hcn
        split at h
        · cases h
        · rename_i s6 hs6
          injection h with h'
          injection h' with h1 h2
          subst h1
          have hgf := gac_frame s
          have hfsp := follow_story_path_frame fuel _ s6 hs6
          obtain ⟨hh, ecS, ecN⟩ :=
            make_choice_commit_shape (get_available_choices s).2 cn
          cases hsk : cn.is_sticky with
          | true =>
            have ec := ecS hsk
            rw [ec] at hfsp
            exact ⟨hfsp.2.1.trans hgf.2.1,
              hfsp.2.2.2.2.1.trans hgf.2.2.2.2.1⟩
          | false =>
            have ec := ecN hsk
            rw [ec] at hfsp
            exact ⟨hfsp.2.1.trans hgf.2.1,
              hfsp.2.2.2.2.1.trans hgf.2.2.2.2.1⟩

/-- One engine operation keeps the node keys, and keeps the edge list
except that `reset_story` replaces it by the `_find_start_node` result. -/
theorem applyOp_edges_keys (fuel : Nat) (s s' : EngineState) (op : EngineOp)
    (h : applyOp fuel s op = some s') :
    s'.nodes.map Prod.fst = s.nodes.map Prod.fst ∧
    (s'.edges = s.edges ∨ s'.edges = (find_start_node s.nodes s.edges).2) := by
  cases op with
  | make_choice_op cid =>
    cases hmc : make_choice fuel s cid with
    | none =>
      rw [show applyOp fuel s (EngineOp.make_choice_op cid) = (make_choice fuel s cid).map (fun r => r.1) from rfl, hmc] at h
      cases h
    | some r =>
      rw [show applyOp fuel s (EngineOp.make_choice_op cid) = (make_choice fuel s cid).map (fun r => r.1) from rfl, hmc] at h
      have hr : r.1 = s' := Option.some.inj h
      subst hr
      have he := make_choice_edges_keys fuel s cid r.1 r.2 (by rw [hmc])
      exact ⟨he.2, Or.inl he.1⟩
  | start_story_op =>
    have hf := start_story_frame fuel s s' h
    exact ⟨hf.2.2.2.2.1, Or.inl hf.2.1⟩
  | reset_story_op =>
    have hr : reset_story s = s' := Option.some.inj h
    subst hr
    exact ⟨rfl, Or.inr rfl⟩
  | get_choices_op =>
    have hr : (get_available_choices s).2 = s' := Option.some.inj h
    subst hr
    have hgf := gac_frame s
    exact ⟨hgf.2.2.2.2.1, Or.inl hgf.2.1⟩

/-- Any operation sequence keeps the node keys and — when
`_find_start_node` returns the given edge list unchanged on those keys —
the edge list. -/
theorem applyOps_edges_keys (fuel : Nat) (nodes0 : List (Int × Node))
    (E1 : List (Int × Int))
    (hfix : ∀ nA : List (Int × Node), nA.map Prod.fst = nodes0.map Prod.fst →
      (find_start_node nA E1).2 = E1) :
    ∀ (ops : List EngineOp) (s s' : EngineState),
      s.nodes.map Prod.fst = nodes0.map Prod.fst → s.edges = E1 →
      applyOps fuel ops s = some s' →
      s'.nodes.map Prod.fst = nodes0.map Prod.fst ∧ s'.edges = E1 := by
  intro ops
  induction ops with
  | nil =>
    intro s s' hk he h
    have hr : s = s' := Option.some.inj h
    subst hr
    exact ⟨hk, he⟩
  | cons op ops ih =>
    intro s s' hk he h
    cases hop : applyOp fuel s op with
    | none =>
      rw [show applyOps fuel (op :: ops) s = (applyOp fuel s op).bind (applyOps fuel ops) from rfl, hop] at h
      cases h
    | some s1 =>
      rw [show applyOps fuel (op :: ops) s = (applyOp fuel s op).bind (applyOps fuel ops) from rfl, hop] at h
      have h1 := applyOp_edges_keys fuel s s1 op hop
      have hk1 : s1.nodes.map Prod.fst = nodes0.map Prod.fst := h1.1.trans hk
      have he1 : s1.edges = E1 := by
        rcases h1.2 with h2 | h2
        · exact h2.trans he
        · rw [h2, he]
          exact hfix s.nodes hk
      exact ih s1 s' hk1 he1 h

/-- C8: BEGIN keeps exactly one synthesized outgoing edge, to the computed
start node, through a whole run.  Every real parse hands the engine an
empty block-edge list (`parse_base_block`'s parser-enum dispatch never
fires on the pipeline's core-typed nodes), so `_find_start_node` takes its
`if not edges` branch and connects BEGIN to the first table key; the
hypothesis ties that first key to the minimum-id start candidate, which
holds of every parse because the pipeline inserts content keys in
increasing id order (each divert row follows its earlier-created parent)
and appends the sentinels last, and with no edges every non-sentinel key
is a candidate.  The single edge persists through any operation sequence,
`reset_story` included: after construction BEGIN has an outgoing and no
incoming edge, so `_find_start_node` picks BEGIN itself and returns the
edges unchanged. -/
theorem C8_begin_single_edge (letP : Bool) (nodes : List (Int × Node))
    (H1 : ∀ k ∈ nodes.map Prod.fst, k = -1 ∨ k = -2 ∨ k = -3 ∨ 1 ≤ k)
    (H2 : (-2 : Int) ∈ nodes.map Prod.fst)
    (H5 : start_candidates nodes [] ≠ [])
    (Hfirst : nodes.head?.map Prod.fst =
      some (intListMin (start_candidates nodes []))) :
    (mkEngine letP nodes []).edges.filter (fun e => e.1 = -2) =
      [(-2, intListMin (start_candidates nodes []))] ∧
    ∀ (fuel : Nat) (ops : List EngineOp) (s' : EngineState),
      applyOps fuel ops (mkEngine letP nodes []) = some s' →
      s'.edges.filter (fun e => e.1 = -2) =
        [(-2, intListMin (start_candidates nodes []))] := by
  have hne : nodes ≠ [] := by
    intro hq
    rw [hq] at Hfirst
    cases Hfirst
  obtain ⟨q, t, hq⟩ := List.exists_cons_of_ne_nil hne
  subst hq
  have hq1 : q.1 = intListMin (start_candidates (q :: t) []) :=
    Option.some.inj Hfirst
  have hm_mem : intListMin (start_candidates (q :: t) []) ∈
      start_candidates (q :: t) [] := intListMin_mem _ H5
  obtain ⟨hmk, hm3, hmnwi⟩ := (mem_start_candidates (q :: t) [] _).mp hm_mem
  have hnwi : nodes_with_incoming ([] : List (Int × Int)) = [-2, -1] := by
    decide
  have hm2 : intListMin (start_candidates (q :: t) []) ≠ -2 := by
    intro hmq
    exact hmnwi (by rw [hnwi, hmq]; decide)
  have hfs : find_start_node (q :: t) [] =
      (-2, [(-2, intListMin (start_candidates (q :: t) []))]) := by
    unfold find_start_node
    rw [if_pos rfl]
    show ((-2 : Int), [((-2 : Int), q.1)]) =
      ((-2 : Int), [((-2 : Int), intListMin (start_candidates (q :: t) []))])
    rw [hq1]
  have hE1 : (mkEngine letP (q :: t) []).edges = fill_auto_end_node (q :: t)
      [(-2, intListMin (start_candidates (q :: t) []))] := by
    show fill_auto_end_node (q :: t) (find_start_node (q :: t) []).2 = _
    rw [hfs]
  have hfilter : (mkEngine letP (q :: t) []).edges.filter
      (fun e => e.1 = -2) =
      [(-2, intListMin (start_candidates (q :: t) []))] := by
    rw [hE1, fill_auto_end_filter_neg2]
    simp
  refine ⟨hfilter, ?_⟩
  intro fuel ops s' hops
  have htargets : ∀ e ∈ (mkEngine letP (q :: t) []).edges, e.2 ≠ -2 := by
    intro e he
    rw [hE1] at he
    obtain ⟨R, hR, hprop⟩ := fill_auto_end_eq (q :: t)
      [(-2, intListMin (start_candidates (q :: t) []))]
    rw [hR] at he
    rcases List.mem_append.mp he with h | h
    · rw [List.mem_singleton.mp h]
      exact hm2
    · rw [(hprop e h).2]
      decide
  have hsrc : (-2 : Int) ∈ (mkEngine letP (q :: t) []).edges.map Prod.fst := by
    have hmm : ((-2 : Int), intListMin (start_candidates (q :: t) [])) ∈
        (mkEngine letP (q :: t) []).edges := by
      rw [hE1]
      obtain ⟨R, hR, _⟩ := fill_auto_end_eq (q :: t)
        [(-2, intListMin (start_candidates (q :: t) []))]
      rw [hR]
      exact List.mem_append_left _ (List.mem_singleton.mpr rfl)
    exact List.mem_map.mpr ⟨_, hmm, rfl⟩
  have hfix : ∀ nA : List (Int × Node),
      nA.map Prod.fst = (q :: t).map Prod.fst →
      (find_start_node nA (mkEngine letP (q :: t) []).edges).2 =
        (mkEngine letP (q :: t) []).edges := by
    intro nA hk
    have hr := find_start_reset nA (mkEngine letP (q :: t) []).edges
      (by rw [hk]; exact H2) (by rw [hk]; exact H1) htargets hsrc
    rw [hr]
  obtain ⟨hk', he'⟩ := applyOps_edges_keys fuel (q :: t)
    (mkEngine letP (q :: t) []).edges hfix ops (mkEngine letP (q :: t) [])
    s' rfl rfl hops
  rw [he']
  exact hfilter

/-- Witness for C8: the engine of `"* A\n* B\n- C"` (whose parsed edge
list is empty and whose first key 1 is the minimum candidate) has the
single BEGIN edge `(-2, 1)`, and still has it after a reset. -/
theorem C8_begin_single_edge_witness :
    (mkEngine true c3_parsed.1 []).edges.filter (fun e => e.1 = -2) =
      [(-2, intListMin (start_candidates c3_parsed.1 []))] ∧
    (reset_story (mkEngine true c3_parsed.1 [])).edges.filter
      (fun e => e.1 = -2) =
      [(-2, intListMin (start_candidates c3_parsed.1 []))] :=
  ⟨(C8_begin_single_edge true c3_parsed.1 (by decide) (by decide) (by decide)
      (by decide)).1,
   (C8_begin_single_edge true c3_parsed.1 (by decide) (by decide) (by decide)
      (by decide)).2 5 [EngineOp.reset_story_op] _ (by decide)⟩
